import Mathlib

/-!
# SpectrumProcessor: a shallow embedding

The engine of `src/src/SpectrumProcessor.cc` (class declared in
`src/include/SpectrumProcwssor.h`) is embedded as pure functions on an explicit
engine state, together with the sample conversion and the averaging loop of
`src/src/analyzer.cc`.

Modelling conventions.

* `float` and `double` values are modelled by exact rationals (`ℚ`); infinities
  and NaN are not modelled. Rounding is modelled where it decides an integer:
  the quotient of `computeSpectralPower` is a `float` division whose rounded
  value is truncated to the span (`float32Round`, `computeSpectralPowerWith`).
  Elsewhere the arithmetic is exact.
* `uint32_t` values are natural numbers; where the source can wrap
  (`lowerBinIndex`, `upperBinIndex`) the reduction modulo `2 ^ 32` is explicit.
* An array of `N` cells is a function on indices together with explicit bounds
  checks: an access at an index `≥ N` is undefined behaviour in the source and
  makes the embedded operation return `none`. For the one read that the source
  makes behind the power spectrum, `computeSpectralPowerWith` also takes what
  that read yields as a parameter.
* The conversion of a floating value to `uint32_t` truncates toward zero and is
  undefined in the source when the truncated value is not representable; the
  embedding returns `none` there.
* The library cosine and the FFTW transform are external: they are parameters.
* The per-cell expressions of the window, of the transform input and of the
  power (`hannWeight`, `windowedPair`, `cellPower`) are also given over an
  arbitrary field. The engine uses them over the rationals; statements about
  exact values of the cosine are made on the same expressions over the reals,
  with `Real.cos`, `Real.sin` and `Real.pi`.
* A property of the state or of the value after a call is stated for the calls
  that have a value in the embedding; the block lengths and bandwidths for
  which a call has a value are stated alongside.
-/

set_option linter.dupNamespace false

namespace SpectrumProcessor

/-- The FFT size, `#define N (8192)`. -/
def N : Nat := 8192

/-- The constant `M_PI` of `math.h`, the double nearest to pi, as a rational. -/
def M_PI : ℚ := 884279719003555 / 281474976710656

/-- A complex transform buffer: cell `k` holds the pair (real, imaginary). -/
abbrev ComplexBuffer := Nat → ℚ × ℚ

/-- The attributes of the class `SpectrumProcessor`. The field `fftPlan` stands for
the compiled FFTW plan: the function that `fftw_execute` applies to the input
buffer to produce the output buffer. -/
structure Engine where
  sampleRate : ℚ
  fftBinResolutionInHz : ℚ
  spectralPowerBuffer : Nat → ℚ
  fftShiftTable : Nat → Nat
  hanningWindow : Nat → ℚ
  fftInputPtr : ComplexBuffer
  fftOutputPtr : ComplexBuffer
  fftPlan : ComplexBuffer → ComplexBuffer

/-- The loop `for (i = 0; i < N/2; i++)` of `initializeFftw`, started at `i`:
each pass stores `i + N/2` at `i` and `i` at `i + N/2`. -/
def shiftTableLoop (i : Nat) (fftShiftTable : Nat → Nat) : Nat → Nat :=
  if i < N / 2 then
    shiftTableLoop (i + 1)
      (Function.update (Function.update fftShiftTable i (i + N / 2)) (i + N / 2) i)
  else
    fftShiftTable
termination_by N / 2 - i

/-- The function `initializeFftw`: builds the permuted indices, allocates the two
transform buffers (their cells are whatever `e` holds) and records the plan. -/
def initializeFftw (dft : ComplexBuffer → ComplexBuffer) (e : Engine) : Engine :=
  { e with
    fftShiftTable := shiftTableLoop 0 e.fftShiftTable
    fftPlan := dft }

/-- The loop `for (i = 0; i < N; i++)` of the constructor, started at `i`:
`hanningWindow[i] = 0.5 - 0.5 * cos((2 * M_PI * i)/N)`. -/
def windowLoop (cos : ℚ → ℚ) (i : Nat) (hanningWindow : Nat → ℚ) : Nat → ℚ :=
  if i < N then
    windowLoop cos (i + 1)
      (Function.update hanningWindow i (1 / 2 - 1 / 2 * cos ((2 * M_PI * (i : ℚ)) / (N : ℚ))))
  else
    hanningWindow
termination_by N - i

/-- The constructor `SpectrumProcessor(sampleRate)`. The argument `mem` is the
uninitialised object it runs on, `cos` the library cosine and `dft` the plan
that `fftw_plan_dft_1d` returns. -/
def SpectrumProcessor (cos : ℚ → ℚ) (dft : ComplexBuffer → ComplexBuffer) (mem : Engine)
    (sampleRate : ℚ) : Engine :=
  let sampleRate := if sampleRate ≤ 0 then 256000 else sampleRate
  initializeFftw dft
    { mem with
      sampleRate := sampleRate
      fftBinResolutionInHz := sampleRate / (N : ℚ)
      hanningWindow := windowLoop cos 0 mem.hanningWindow }

/-- The first loop of `computePowerSpectrum`, `for (i = 0; i < bufferLength; i += 2)`,
at loop variables `i` and `j`: it stores the windowed pair
`(signalBufferPtr[i], signalBufferPtr[i+1])` at cell `j` of the transform input.
Reading `hanningWindow[j]` or writing `fftInputPtr[j]` with `j ≥ N` is out of
bounds. The result carries the final value of `j`. (The pass with `i ≥ 2 * N`
is out of bounds, so `i + 2` never wraps on a pass that continues.) -/
def fillInputLoop (hanningWindow : Nat → ℚ) (signalBufferPtr : Nat → Int) (bufferLength : Nat)
    (i j : Nat) (fftInputPtr : ComplexBuffer) : Option (Nat × ComplexBuffer) :=
  if i < bufferLength then
    if j < N then
      fillInputLoop hanningWindow signalBufferPtr bufferLength (i + 2) (j + 1)
        (Function.update fftInputPtr j
          ((signalBufferPtr i : ℚ) * hanningWindow j, (signalBufferPtr (i + 1) : ℚ) * hanningWindow j))
    else
      none
  else
    some (j, fftInputPtr)
termination_by bufferLength - i

/-- The value `power` of one pass of the second loop of `computePowerSpectrum`:
`(iK * iK) + (qK * qK)` scaled by `N`. -/
def binPower (fftOutputPtr : ComplexBuffer) (i : Nat) : ℚ :=
  let iK := (fftOutputPtr i).1
  let qK := (fftOutputPtr i).2
  let power := (iK * iK) + (qK * qK)
  power / (N : ℚ)

/-- The second loop of `computePowerSpectrum`, `for (i = 0; i < N; i++)`, at loop
variable `i`: it stores the power of raw bin `i` at `j = fftShiftTable[i]`.
Writing `spectralPowerBuffer[j]` with `j ≥ N` is out of bounds. -/
def powerLoop (fftOutputPtr : ComplexBuffer) (fftShiftTable : Nat → Nat)
    (i : Nat) (spectralPowerBuffer : Nat → ℚ) : Option (Nat → ℚ) :=
  if i < N then
    let power := binPower fftOutputPtr i
    let j := fftShiftTable i
    if j < N then
      powerLoop fftOutputPtr fftShiftTable (i + 1) (Function.update spectralPowerBuffer j power)
    else
      none
  else
    some spectralPowerBuffer
termination_by N - i

/-- The function `computePowerSpectrum(signalBufferPtr, bufferLength)`: the new
engine state and the returned value `bufferLength / 2`; `none` when an access
is out of bounds. -/
def computePowerSpectrum (e : Engine) (signalBufferPtr : Nat → Int) (bufferLength : Nat) :
    Option (Engine × Nat) :=
  match fillInputLoop e.hanningWindow signalBufferPtr bufferLength 0 0 e.fftInputPtr with
  | none => none
  | some (_, fftInput) =>
    let fftOutput := e.fftPlan fftInput
    match powerLoop fftOutput e.fftShiftTable 0 e.spectralPowerBuffer with
    | none => none
    | some spectrum =>
      some ({ e with
              fftInputPtr := fftInput
              fftOutputPtr := fftOutput
              spectralPowerBuffer := spectrum }, bufferLength / 2)

/-- Truncation toward zero of a rational. -/
def truncate (x : ℚ) : Int :=
  if 0 ≤ x then ⌊x⌋ else ⌈x⌉

/-- The conversion `(uint32_t)x` of a floating value: the truncated value when it
is representable in 32 bits, undefined otherwise. -/
def toUint32 (x : ℚ) : Option Nat :=
  if 0 ≤ truncate x ∧ truncate x < 2 ^ 32 then some (truncate x).toNat else none

/-- The clip at the head of `computeSpectralPower`: a bandwidth above
`sampleRate/2` is replaced by `sampleRate / 2`. -/
def clipBandwidth (e : Engine) (lowpassBandwidthInHz : ℚ) : ℚ :=
  if lowpassBandwidthInHz > e.sampleRate / 2 then e.sampleRate / 2 else lowpassBandwidthInHz

/-- The value `lowpassSpan = (uint32_t)(lowpassBandwidthInHz / fftBinResolutionInHz)`
of `computeSpectralPower`, after the clip, with the exact quotient. A zero
resolution makes the quotient infinite or NaN, whose conversion is undefined.
The source rounds the quotient to single precision before the conversion:
`lowpassSpanWith float32Round` below is the span with that rounding, which is
this span or one more (`lowpassSpanWith_single`); the two agree for a bandwidth
below one bin and from the Nyquist limit on (`lowpassSpanWith_single_zero`,
`lowpassSpanWith_nyquist`). -/
def lowpassSpan (e : Engine) (lowpassBandwidthInHz : ℚ) : Option Nat :=
  if e.fftBinResolutionInHz = 0 then none
  else toUint32 (clipBandwidth e lowpassBandwidthInHz / e.fftBinResolutionInHz)

/-- The value `lowerBinIndex = (N/2) - lowpassSpan` in 32-bit unsigned arithmetic
(`lowpassSpan` is a `uint32_t`, so it is below `2 ^ 32`). -/
def lowerBinIndex (lowpassSpan : Nat) : Nat :=
  (N / 2 + 2 ^ 32 - lowpassSpan) % 2 ^ 32

/-- The value `upperBinIndex = (N/2) + lowpassSpan` in 32-bit unsigned arithmetic. -/
def upperBinIndex (lowpassSpan : Nat) : Nat :=
  (N / 2 + lowpassSpan) % 2 ^ 32

/-- The last loop of `computeSpectralPower`,
`for (i = lowerBinIndex; i <= upperBinIndex; i++) power += spectralPowerBuffer[i]`,
at loop variable `i` and accumulator `power`. Reading `spectralPowerBuffer[i]`
with `i ≥ N` is out of bounds. -/
def sumLoop (spectralPowerBuffer : Nat → ℚ) (upperBinIndex : Nat) (i : Nat) (power : ℚ) :
    Option ℚ :=
  if i ≤ upperBinIndex then
    if i < N then
      sumLoop spectralPowerBuffer upperBinIndex (i + 1) (power + spectralPowerBuffer i)
    else
      none
  else
    some power
termination_by upperBinIndex + 1 - i

/-- The function `computeSpectralPower(lowpassBandwidthInHz, signalBufferPtr, bufferLength)`:
the new engine state and the returned power; `none` when the source's
behaviour is undefined (out-of-bounds access, unrepresentable conversion). -/
def computeSpectralPower (e : Engine) (lowpassBandwidthInHz : ℚ)
    (signalBufferPtr : Nat → Int) (bufferLength : Nat) : Option (Engine × ℚ) :=
  match lowpassSpan e lowpassBandwidthInHz with
  | none => none
  | some span =>
    match computePowerSpectrum e signalBufferPtr bufferLength with
    | none => none
    | some (e', _) =>
      match sumLoop e'.spectralPowerBuffer (upperBinIndex span) (lowerBinIndex span) 0 with
      | none => none
      | some power => some (e', power)

/-- The configuration every engine carries from its constructor on: a positive
sample rate, the bin resolution `sampleRate / N` and the half-swap shift table.
The constructor establishes it for every sample rate and every returning call
of `computePowerSpectrum` or `computeSpectralPower` keeps it
(`constructed_SpectrumProcessor`, `computePowerSpectrum_constructed`,
`computeSpectralPower_constructed`); the buffers are left arbitrary. -/
structure Constructed (e : Engine) : Prop where
  rate_pos : 0 < e.sampleRate
  resolution : e.fftBinResolutionInHz = e.sampleRate / (N : ℚ)
  shift : ∀ i, i < N → e.fftShiftTable i = if i < N / 2 then i + N / 2 else i - N / 2

/-- An engine memory image with every cell zero, used to instantiate examples. -/
def zeroMemory : Engine where
  sampleRate := 0
  fftBinResolutionInHz := 0
  spectralPowerBuffer := fun _ => 0
  fftShiftTable := fun _ => 0
  hanningWindow := fun _ => 0
  fftInputPtr := fun _ => (0, 0)
  fftOutputPtr := fun _ => (0, 0)
  fftPlan := fun b => b

/-- A stand-in for the library cosine (degree-two Taylor polynomial), used only to
instantiate examples; every result below holds for any cosine. -/
def sampleCos (x : ℚ) : ℚ := 1 - x * x / 2

/-- A stand-in for the transform primitive (it copies its input), used only to
instantiate examples; every result below holds for any plan. -/
def sampleDft (b : ComplexBuffer) : ComplexBuffer := b

/-- The engine constructed at 256000 S/s over zeroed memory. -/
def sampleEngine : Engine := SpectrumProcessor sampleCos sampleDft zeroMemory 256000

/-- A sample block whose every value is 1. -/
def sampleBlock : Nat → Int := fun _ => 1

/-- The expression `0.5 - 0.5 * cos((2 * M_PI * i)/N)` that the constructor stores at
`hanningWindow[i]`, over any field: the engine evaluates it over the rationals
with the library cosine and the constant `M_PI`; with the real cosine and the
real number pi it is the same expression in exact arithmetic. -/
def hannWeight {K : Type} [Field K] (cos : K → K) (pi : K) (i : Nat) : K :=
  1 / 2 - 1 / 2 * cos ((2 * pi * (i : K)) / (N : K))

/-- A stand-in for the library cosine with range `[-1, 1]`, value 1 at 0 and value
`-1` at `M_PI`, used only to instantiate examples. -/
def clampedCos (x : ℚ) : ℚ := max (-1) (1 - x * x / 2)

/-- An uninitialised memory image whose transform input cells all hold `(1, 0)`,
used to instantiate examples. -/
def staleMemory : Engine := { zeroMemory with fftInputPtr := fun _ => (1, 0) }

/-- The engine constructed at 256000 S/s over `staleMemory`: a fresh engine whose
transform input buffer holds what the allocation happened to contain. -/
def staleEngine : Engine := SpectrumProcessor sampleCos sampleDft staleMemory 256000

/-- Two engine states with the same configuration: sample rate, resolution, window
table, shift table and plan agree; the transform buffers and the power
spectrum buffer are unrelated. -/
structure SameConfiguration (e1 e2 : Engine) : Prop where
  sampleRate : e1.sampleRate = e2.sampleRate
  resolution : e1.fftBinResolutionInHz = e2.fftBinResolutionInHz
  window : ∀ k, k < N → e1.hanningWindow k = e2.hanningWindow k
  shift : ∀ k, k < N → e1.fftShiftTable k = e2.fftShiftTable k
  plan : e1.fftPlan = e2.fftPlan

/-- The value of an `int8_t` that is assigned the integer `x`: `x` reduced modulo
256 into `-128..127`. -/
def toInt8 (x : Int) : Int := (x + 128) % 256 - 128

/-- The byte `u` of `inputBuffer` read through `signedBufferPtr = (int8_t *)inputBuffer`. -/
def asInt8 (u : Nat) : Int := toInt8 (u : Int)

/-- The statement `signedBufferPtr[i] -= 128` on the value `s` of the cell. -/
def subtract128 (s : Int) : Int := toInt8 (s - 128)

/-- The loop `for (i = 0; i < count; i++) signedBufferPtr[i] -= 128` of the analyzer,
started at `i`. -/
def convertLoop (count : Nat) (i : Nat) (signedBufferPtr : Nat → Int) : Nat → Int :=
  if i < count then
    convertLoop count (i + 1)
      (Function.update signedBufferPtr i (subtract128 (signedBufferPtr i)))
  else
    signedBufferPtr
termination_by count - i

/-- The signed block the analyzer hands to the engine: the bytes of `inputBuffer`
read as `int8_t`, after the conversion loop when `unsignedSamples` is set. -/
def signedBlock (inputBuffer : Nat → Nat) (count : Nat) (unsignedSamples : Bool) : Nat → Int :=
  if unsignedSamples then convertLoop count 0 (fun i => asInt8 (inputBuffer i))
  else fun i => asInt8 (inputBuffer i)

/-- The pair that the fill loop of `computePowerSpectrum` stores in a cell of the
transform input, `(I * window, Q * window)`, over any field. -/
def windowedPair {K : Type} [Field K] (iValue qValue window : K) : K × K :=
  (iValue * window, qValue * window)

/-- The value `power` that the power loop of `computePowerSpectrum` computes from an
output cell `(iK, qK)`, over any field. -/
def cellPower {K : Type} [Field K] (z : K × K) : K :=
  ((z.1 * z.1) + (z.2 * z.2)) / (N : K)

/-- Modelled from the spec: the length-`N` forward discrete Fourier transform that
the claim on pure DC input takes for the transform primitive (the source calls
FFTW, which is not part of the repository). Output bin `m` is the sum over
`k < N` of the input cell `k` times `exp(-2 pi i m k / N)`, written with the
cosine and sine of the angle; over the reals with the real cosine, sine and pi
it is the exact transform, over the rationals it is a plan for the engine. -/
def dftWith {K : Type} [Field K] (cos sin : K → K) (pi : K) (x : Nat → K × K) (m : Nat) :
    K × K :=
  (∑ k ∈ Finset.range N,
      ((x k).1 * cos (2 * pi * (m : K) * (k : K) / (N : K))
        + (x k).2 * sin (2 * pi * (m : K) * (k : K) / (N : K))),
   ∑ k ∈ Finset.range N,
      ((x k).2 * cos (2 * pi * (m : K) * (k : K) / (N : K))
        - (x k).1 * sin (2 * pi * (m : K) * (k : K) / (N : K))))

/-- A stand-in for the library cosine that lies on the unit circle together with
`circleSin` (the rational parametrisation of the circle at `t = x / 2`), used
only to instantiate examples. -/
def circleCos (x : ℚ) : ℚ := (4 - x * x) / (4 + x * x)

/-- The sine that goes with `circleCos`. -/
def circleSin (x : ℚ) : ℚ := 4 * x / (4 + x * x)

/-- The engine constructed at 256000 S/s over zeroed memory with the stand-in
cosine `circleCos` and the transform `dftWith circleCos circleSin M_PI` as plan. -/
def circleEngine : Engine :=
  SpectrumProcessor circleCos (dftWith circleCos circleSin M_PI) zeroMemory 256000

/-! ## Single precision and the cell behind the spectrum

Two details of the source decide a discrete result that the exact embedding
above does not show. The quotient `lowpassBandwidthInHz / fftBinResolutionInHz`
is a division of two `float` values: the source rounds it to single precision
before it converts it to `uint32_t`. And the read of `spectralPowerBuffer[N]`
at the Nyquist limit is out of bounds, but the cell it reaches exists: it is
the memory that follows the buffer in the object. `computeSpectralPowerWith`
takes both as parameters. -/

/-- Rounding of a rational to the nearest integer, a tie going to the even one. -/
def roundHalfEven (x : ℚ) : Int :=
  if x - ⌊x⌋ < 1 / 2 then ⌊x⌋
  else if 1 / 2 < x - ⌊x⌋ then ⌊x⌋ + 1
  else if ⌊x⌋ % 2 = 0 then ⌊x⌋
  else ⌊x⌋ + 1

/-- The binary exponent under which a `float` stores a nonzero value `x`:
`floor (log2 |x|)`, and `-126` for the subnormal values below `2 ^ (-126)`. -/
def float32Exponent (x : ℚ) : Int := max (Int.log 2 |x|) (-126)

/-- The `float` nearest to the rational `x` (IEEE 754 binary32, round to nearest,
ties to even): with 24 significant bits the values of exponent `e` are spaced
`2 ^ (e - 23)` apart. This is the value of a `float` division whose exact
quotient is `x`. A result beyond the largest `float` is infinite in the source
and stays finite here; its conversion to `uint32_t` is undefined either way
(`toUint32` has no value from `2 ^ 32` on). -/
def float32Round (x : ℚ) : ℚ :=
  if x = 0 then 0
  else (roundHalfEven (x / 2 ^ (float32Exponent x - 23)) : ℚ) * 2 ^ (float32Exponent x - 23)

/-- A rational that is a finite `float` value: rounding to single precision leaves
it unchanged and it is below `2 ^ 128` in magnitude. The parameters `sampleRate`
and `lowpassBandwidthInHz` of the source are of type `float`. -/
def IsSingle (x : ℚ) : Prop := float32Round x = x ∧ |x| < 2 ^ 128

instance (x : ℚ) : Decidable (IsSingle x) := by
  unfold IsSingle
  infer_instance

/-- What the bin range needs of the rounding of the quotient: it is monotone on the
non-negative values and leaves `0` and `N / 2` unchanged. Both the exact
quotient (`id`) and the single-precision quotient (`float32Round`) are of this
kind (`rounding_id`, `rounding_float32Round`). -/
structure Rounding (fl : ℚ → ℚ) : Prop where
  mono : ∀ x y, 0 ≤ x → x ≤ y → fl x ≤ fl y
  zero : fl 0 = 0
  half : fl ((N / 2 : Nat) : ℚ) = ((N / 2 : Nat) : ℚ)

/-- The value `lowpassSpan = (uint32_t)(lowpassBandwidthInHz / fftBinResolutionInHz)`
after the clip, with the rounding `fl` that the division applies to the exact
quotient: `float32Round` for the `float` division of the source, `id` for the
exact quotient of `lowpassSpan`. -/
def lowpassSpanWith (fl : ℚ → ℚ) (e : Engine) (lowpassBandwidthInHz : ℚ) : Option Nat :=
  if e.fftBinResolutionInHz = 0 then none
  else toUint32 (fl (clipBandwidth e lowpassBandwidthInHz / e.fftBinResolutionInHz))

/-- The read `spectralPowerBuffer[i]`. An index below `N` reads the buffer. An index
`i ≥ N` is out of bounds: `beyond i` is what that read yields, `none` for no
defined value and `some v` for the content `v` of the memory behind the buffer. -/
def readPower (beyond : Nat → Option ℚ) (spectralPowerBuffer : Nat → ℚ) (i : Nat) : Option ℚ :=
  if i < N then some (spectralPowerBuffer i) else beyond i

/-- The last loop of `computeSpectralPower`,
`for (i = lowerBinIndex; i <= upperBinIndex; i++) power += spectralPowerBuffer[i]`,
at loop variable `i` and accumulator `power`, with the reads behind the buffer
given by `beyond`. With `beyond` nowhere defined this is `sumLoop`
(`sumLoopWith_strict`). -/
def sumLoopWith (beyond : Nat → Option ℚ) (spectralPowerBuffer : Nat → ℚ) (upperBinIndex : Nat)
    (i : Nat) (power : ℚ) : Option ℚ :=
  if i ≤ upperBinIndex then
    match readPower beyond spectralPowerBuffer i with
    | none => none
    | some value => sumLoopWith beyond spectralPowerBuffer upperBinIndex (i + 1) (power + value)
  else
    some power
termination_by upperBinIndex + 1 - i

/-- The function `computeSpectralPower(lowpassBandwidthInHz, signalBufferPtr, bufferLength)`
with the rounding `fl` of the quotient and the reads `beyond` behind the
spectrum buffer as parameters. `computeSpectralPower` above is the instance
with the exact quotient and no defined read behind the buffer
(`computeSpectralPowerWith_exact`); the source compiled for IEEE single
precision is the instance with `float32Round`. -/
def computeSpectralPowerWith (fl : ℚ → ℚ) (beyond : Nat → Option ℚ) (e : Engine)
    (lowpassBandwidthInHz : ℚ) (signalBufferPtr : Nat → Int) (bufferLength : Nat) :
    Option (Engine × ℚ) :=
  match lowpassSpanWith fl e lowpassBandwidthInHz with
  | none => none
  | some span =>
    match computePowerSpectrum e signalBufferPtr bufferLength with
    | none => none
    | some (e', _) =>
      match sumLoopWith beyond e'.spectralPowerBuffer (upperBinIndex span) (lowerBinIndex span) 0 with
      | none => none
      | some power => some (e', power)

/-- The memory behind `spectralPowerBuffer` under the usual object layout: the class
declares `uint32_t fftShiftTable[N]` right after `float spectralPowerBuffer[N]`,
both of 4-byte cells, so `spectralPowerBuffer[N]` is the cell of
`fftShiftTable[0]`. The 32 bits of an unsigned value `u < 2 ^ 23`, read as a
`float`, are the subnormal value `u * 2 ^ (-149)`. Only the index `N` is given
a value. -/
def adjacentCell (fftShiftTable : Nat → Nat) (i : Nat) : Option ℚ :=
  if i = N ∧ fftShiftTable 0 < 2 ^ 23 then some ((fftShiftTable 0 : ℚ) * 2 ^ (-149 : Int))
  else none

/-- The engine constructed at 250000 S/s over zeroed memory. -/
def sampleEngine250 : Engine := SpectrumProcessor sampleCos sampleDft zeroMemory 250000

/-! ## Arithmetic of the transform length -/

theorem N_eq : N = 8192 := rfl

theorem N_cast : ((N : Nat) : ℚ) = 8192 := by
  rw [N_eq]; norm_num

/-! ## The bin-shift table -/

/-- What the loop of `initializeFftw` leaves in the table when started at `i`. -/
theorem shiftTableLoop_apply (n : Nat) :
    ∀ (i : Nat) (t : Nat → Nat), N / 2 - i = n → ∀ k,
      shiftTableLoop i t k =
        if i ≤ k ∧ k < N / 2 then k + N / 2
        else if i + N / 2 ≤ k ∧ k < N then k - N / 2
        else t k := by
  have hN := N_eq
  induction n with
  | zero =>
    intro i t hi k
    rw [shiftTableLoop]
    have h1 : ¬ i < N / 2 := by omega
    rw [if_neg h1, if_neg (by omega), if_neg (by omega)]
  | succ n ih =>
    intro i t hi k
    rw [shiftTableLoop]
    have h1 : i < N / 2 := by omega
    rw [if_pos h1, ih (i + 1) _ (by omega) k]
    by_cases hk1 : i + 1 ≤ k ∧ k < N / 2
    · rw [if_pos hk1, if_pos (by omega)]
    · rw [if_neg hk1]
      by_cases hk2 : i + 1 + N / 2 ≤ k ∧ k < N
      · rw [if_pos hk2, if_neg (by omega), if_pos (by omega)]
      · rw [if_neg hk2]
        by_cases hk3 : k = i + N / 2
        · subst hk3
          rw [Function.update_same, if_neg (by omega), if_pos (by omega)]
          omega
        · rw [Function.update_noteq hk3]
          by_cases hk4 : k = i
          · subst hk4
            rw [Function.update_same, if_pos (by omega)]
          · rw [Function.update_noteq hk4, if_neg (by omega), if_neg (by omega)]

/-- The table built by `initializeFftw` swaps the two halves of `0..N-1`. -/
theorem initializeFftw_shift (dft : ComplexBuffer → ComplexBuffer) (e : Engine) (i : Nat)
    (hi : i < N) :
    (initializeFftw dft e).fftShiftTable i = if i < N / 2 then i + N / 2 else i - N / 2 := by
  have hN := N_eq
  show shiftTableLoop 0 e.fftShiftTable i = _
  rw [shiftTableLoop_apply (N / 2) 0 _ (by omega) i]
  by_cases h : i < N / 2
  · rw [if_pos (by omega), if_pos h]
  · rw [if_neg (by omega), if_pos (by omega), if_neg h]

/-- The constructor establishes the configuration invariant, for every sample rate. -/
theorem constructed_SpectrumProcessor (cos : ℚ → ℚ) (dft : ComplexBuffer → ComplexBuffer)
    (mem : Engine) (r : ℚ) : Constructed (SpectrumProcessor cos dft mem r) where
  rate_pos := by
    show (0 : ℚ) < if r ≤ 0 then 256000 else r
    split_ifs with h
    · norm_num
    · exact not_le.mp h
  resolution := rfl
  shift := fun i hi => initializeFftw_shift dft _ i hi

/-- A half-swap table maps `0..N-1` into itself and is its own inverse there. -/
theorem shift_lt_and_involutive (t : Nat → Nat)
    (ht : ∀ i, i < N → t i = if i < N / 2 then i + N / 2 else i - N / 2) (i : Nat) (hi : i < N) :
    t i < N ∧ t (t i) = i := by
  have hN := N_eq
  have h1 := ht i hi
  by_cases h : i < N / 2
  · rw [if_pos h] at h1
    have h2 := ht (t i) (by omega)
    rw [if_neg (by omega)] at h2
    omega
  · rw [if_neg h] at h1
    have h2 := ht (t i) (by omega)
    rw [if_pos (by omega)] at h2
    omega

/-! ## The loops of `computePowerSpectrum` -/

/-- The windowed pair stored at cell `k` of the transform input. -/
theorem fillInputLoop_spec (w : Nat → ℚ) (sig : Nat → Int) (len : Nat) (hlen : len ≤ 2 * N)
    (n : Nat) :
    ∀ (i j : Nat) (inp : ComplexBuffer), len - i ≤ n → i = 2 * j →
      ∃ inp', fillInputLoop w sig len i j inp = some (j + (len + 1 - i) / 2, inp') ∧
        ∀ k, inp' k =
          if j ≤ k ∧ k < j + (len + 1 - i) / 2 then
            ((sig (2 * k) : ℚ) * w k, (sig (2 * k + 1) : ℚ) * w k)
          else inp k := by
  induction n with
  | zero =>
    intro i j inp hn hij
    refine ⟨inp, ?_, ?_⟩
    · rw [fillInputLoop, if_neg (by omega)]
      have : (len + 1 - i) / 2 = 0 := by omega
      rw [this, Nat.add_zero]
    · intro k
      rw [if_neg (by omega)]
  | succ n ih =>
    intro i j inp hn hij
    by_cases hi : i < len
    · have hj : j < N := by omega
      obtain ⟨inp', h1, h2⟩ := ih (i + 2) (j + 1)
        (Function.update inp j ((sig i : ℚ) * w j, (sig (i + 1) : ℚ) * w j)) (by omega) (by omega)
      refine ⟨inp', ?_, ?_⟩
      · rw [fillInputLoop, if_pos hi, if_pos hj, h1]
        have : j + 1 + (len + 1 - (i + 2)) / 2 = j + (len + 1 - i) / 2 := by omega
        rw [this]
      · intro k
        rw [h2 k]
        by_cases hk : j + 1 ≤ k ∧ k < j + 1 + (len + 1 - (i + 2)) / 2
        · rw [if_pos hk, if_pos (by omega)]
        · rw [if_neg hk]
          by_cases hkj : k = j
          · subst hkj
            rw [Function.update_same, if_pos (by omega), hij]
          · rw [Function.update_noteq hkj, if_neg (by omega)]
    · refine ⟨inp, ?_, ?_⟩
      · rw [fillInputLoop, if_neg hi]
        have : (len + 1 - i) / 2 = 0 := by omega
        rw [this, Nat.add_zero]
      · intro k
        rw [if_neg (by omega)]

/-- The power loop over a half-swap table never leaves the buffer and stores at
centered index `k` the power of raw bin `t k`. -/
theorem powerLoop_spec (out : ComplexBuffer) (t : Nat → Nat)
    (ht : ∀ i, i < N → t i = if i < N / 2 then i + N / 2 else i - N / 2) (n : Nat) :
    ∀ (i : Nat) (buf : Nat → ℚ), N - i = n →
      ∃ buf', powerLoop out t i buf = some buf' ∧
        ∀ k, buf' k = if k < N ∧ i ≤ t k then binPower out (t k) else buf k := by
  induction n with
  | zero =>
    intro i buf hn
    refine ⟨buf, ?_, ?_⟩
    · rw [powerLoop, if_neg (by omega)]
    · intro k
      by_cases hk : k < N
      · have := (shift_lt_and_involutive t ht k hk).1
        rw [if_neg (by omega)]
      · rw [if_neg (by omega)]
  | succ n ih =>
    intro i buf hn
    have hi : i < N := by omega
    obtain ⟨hti, htti⟩ := shift_lt_and_involutive t ht i hi
    obtain ⟨buf', h1, h2⟩ := ih (i + 1) (Function.update buf (t i) (binPower out i)) (by omega)
    refine ⟨buf', ?_, ?_⟩
    · rw [powerLoop, if_pos hi]
      simp only []
      rw [if_pos hti, h1]
    · intro k
      rw [h2 k]
      by_cases hk : k = t i
      · subst hk
        rw [htti, if_neg (by omega), Function.update_same, if_pos ⟨hti, le_refl i⟩]
      · rw [Function.update_noteq hk]
        by_cases hkN : k < N
        · have hne : t k ≠ i := by
            intro h
            apply hk
            rw [← h, (shift_lt_and_involutive t ht k hkN).2]
          by_cases hle : i + 1 ≤ t k
          · rw [if_pos ⟨hkN, hle⟩, if_pos ⟨hkN, by omega⟩]
          · rw [if_neg (by omega), if_neg (by omega)]
        · rw [if_neg (by omega), if_neg (by omega)]

/-! ## The summation loop of `computeSpectralPower` -/

/-- With the upper bin inside the buffer the loop returns the accumulated sum. -/
theorem sumLoop_spec (buf : Nat → ℚ) (upper : Nat) (hu : upper < N) (n : Nat) :
    ∀ (i : Nat) (acc : ℚ), upper + 1 - i = n →
      sumLoop buf upper i acc = some (acc + ∑ k ∈ Finset.Icc i upper, buf k) := by
  induction n with
  | zero =>
    intro i acc hn
    rw [sumLoop, if_neg (by omega), Finset.Icc_eq_empty (by omega), Finset.sum_empty, add_zero]
  | succ n ih =>
    intro i acc hn
    have hi : i ≤ upper := by omega
    rw [sumLoop, if_pos hi, if_pos (by omega), ih (i + 1) _ (by omega),
      Finset.Icc_eq_cons_Ioc hi, Finset.sum_cons, ← Nat.Icc_succ_left, add_assoc]

/-- With the upper bin at or beyond `N` the loop reads out of bounds. -/
theorem sumLoop_out_of_bounds (buf : Nat → ℚ) (upper : Nat) (hu : N ≤ upper) (n : Nat) :
    ∀ (i : Nat) (acc : ℚ), N - i = n → i ≤ N → sumLoop buf upper i acc = none := by
  induction n with
  | zero =>
    intro i acc hn hi
    rw [sumLoop, if_pos (by omega), if_neg (by omega)]
  | succ n ih =>
    intro i acc hn hi
    rw [sumLoop, if_pos (by omega), if_pos (by omega), ih (i + 1) _ (by omega) (by omega)]

/-! ## `computePowerSpectrum` as a whole -/

/-- On a constructed engine a block of at most `2 * N` values is processed without
leaving any buffer; the new state differs from the old one in the two transform
buffers and the power spectrum only. -/
theorem computePowerSpectrum_spec (e : Engine) (he : Constructed e) (sig : Nat → Int)
    (len : Nat) (hlen : len ≤ 2 * N) :
    ∃ inp spec,
      fillInputLoop e.hanningWindow sig len 0 0 e.fftInputPtr = some ((len + 1) / 2, inp) ∧
      computePowerSpectrum e sig len =
        some ({ e with fftInputPtr := inp, fftOutputPtr := e.fftPlan inp,
                       spectralPowerBuffer := spec }, len / 2) ∧
      (∀ k, inp k =
        if k < (len + 1) / 2 then
          ((sig (2 * k) : ℚ) * e.hanningWindow k, (sig (2 * k + 1) : ℚ) * e.hanningWindow k)
        else e.fftInputPtr k) ∧
      (∀ k, spec k =
        if k < N then binPower (e.fftPlan inp) (e.fftShiftTable k)
        else e.spectralPowerBuffer k) := by
  obtain ⟨inp, h1, h2⟩ :=
    fillInputLoop_spec e.hanningWindow sig len hlen len 0 0 e.fftInputPtr (by omega) (by omega)
  obtain ⟨spec, h3, h4⟩ :=
    powerLoop_spec (e.fftPlan inp) e.fftShiftTable he.shift N 0 e.spectralPowerBuffer (by omega)
  have h1' : fillInputLoop e.hanningWindow sig len 0 0 e.fftInputPtr
      = some ((len + 1) / 2, inp) := by
    rw [h1]; simp
  refine ⟨inp, spec, h1', ?_, ?_, ?_⟩
  · unfold computePowerSpectrum
    rw [h1']
    simp only []
    rw [h3]
  · intro k
    rw [h2 k]
    by_cases hk : k < (len + 1) / 2
    · rw [if_pos hk, if_pos (by omega)]
    · rw [if_neg hk, if_neg (by omega)]
  · intro k
    rw [h4 k]
    by_cases hk : k < N
    · rw [if_pos hk, if_pos ⟨hk, Nat.zero_le _⟩]
    · rw [if_neg hk, if_neg (by omega)]

/-- Every power is a sum of two squares over the positive length `N`. -/
theorem binPower_nonneg (out : ComplexBuffer) (i : Nat) : 0 ≤ binPower out i := by
  unfold binPower
  simp only []
  apply div_nonneg
  · exact add_nonneg (mul_self_nonneg _) (mul_self_nonneg _)
  · exact Nat.cast_nonneg _

/-! ## Bandwidth, span and bin range -/

theorem resolution_pos (e : Engine) (he : Constructed e) : 0 < e.fftBinResolutionInHz := by
  rw [he.resolution, N_cast]
  exact div_pos he.rate_pos (by norm_num)

/-- A non-negative value below `2 ^ 32` converts to its floor. -/
theorem toUint32_of_nonneg (x : ℚ) (h0 : 0 ≤ x) (h1 : x < 2 ^ 32) :
    toUint32 x = some ⌊x⌋₊ := by
  have h2 : (0 : ℤ) ≤ ⌊x⌋ := Int.floor_nonneg.2 h0
  have h3 : ⌊x⌋ < 2 ^ 32 := Int.floor_lt.2 (by exact_mod_cast h1)
  unfold toUint32 truncate
  rw [if_pos h0, if_pos ⟨h2, h3⟩, Int.floor_toNat]

/-- A value strictly between `-1` and `0` truncates to zero. -/
theorem toUint32_of_neg_gt (x : ℚ) (h0 : x < 0) (h1 : -1 < x) : toUint32 x = some 0 := by
  have h2 : ⌈x⌉ = 0 := Int.ceil_eq_zero_iff.2 ⟨h1, le_of_lt h0⟩
  unfold toUint32 truncate
  rw [if_neg (not_le.2 h0), h2]
  rfl

/-- A value at or below `-1` truncates to a negative integer, which has no
32-bit unsigned representation. -/
theorem toUint32_of_le_neg_one (x : ℚ) (h : x ≤ -1) : toUint32 x = none := by
  have h0 : ¬ (0 : ℚ) ≤ x := by linarith
  have h2 : ⌈x⌉ ≤ -1 := Int.ceil_le.2 (by exact_mod_cast h)
  unfold toUint32 truncate
  rw [if_neg h0, if_neg (by omega)]

theorem clipBandwidth_of_le (e : Engine) (b : ℚ) (h : b ≤ e.sampleRate / 2) :
    clipBandwidth e b = b := by
  unfold clipBandwidth
  rw [if_neg (not_lt.2 h)]

theorem clipBandwidth_of_ge (e : Engine) (b : ℚ) (h : e.sampleRate / 2 ≤ b) :
    clipBandwidth e b = e.sampleRate / 2 := by
  unfold clipBandwidth
  split_ifs with h1
  · rfl
  · exact le_antisymm (not_lt.1 h1) h

/-- The quotient of a bandwidth by the resolution, compared with `N / 2` bins. -/
theorem quotient_le_iff (e : Engine) (he : Constructed e) (b : ℚ) :
    (b / e.fftBinResolutionInHz ≤ ((N / 2 : Nat) : ℚ) ↔ b ≤ e.sampleRate / 2) ∧
    (b / e.fftBinResolutionInHz < ((N / 2 : Nat) : ℚ) ↔ b < e.sampleRate / 2) := by
  have hres := resolution_pos e he
  have hN : ((N / 2 : Nat) : ℚ) = 4096 := by
    have : N / 2 = 4096 := by rw [N_eq]
    rw [this]; norm_num
  have hr : (4096 : ℚ) * e.fftBinResolutionInHz = e.sampleRate / 2 := by
    rw [he.resolution, N_cast]; ring
  rw [hN, div_le_iff₀ hres, div_lt_iff₀ hres, hr]
  exact ⟨Iff.rfl, Iff.rfl⟩

/-- The span of a non-negative bandwidth up to the Nyquist limit. -/
theorem lowpassSpan_of_nonneg (e : Engine) (he : Constructed e) (b : ℚ) (h0 : 0 ≤ b)
    (hb : b ≤ e.sampleRate / 2) :
    lowpassSpan e b = some ⌊b / e.fftBinResolutionInHz⌋₊ ∧
      ⌊b / e.fftBinResolutionInHz⌋₊ ≤ N / 2 := by
  have hres := resolution_pos e he
  have hq0 : 0 ≤ b / e.fftBinResolutionInHz := div_nonneg h0 (le_of_lt hres)
  have hq1 : b / e.fftBinResolutionInHz ≤ ((N / 2 : Nat) : ℚ) := (quotient_le_iff e he b).1.2 hb
  have hN : ((N / 2 : Nat) : ℚ) = 4096 := by
    have : N / 2 = 4096 := by rw [N_eq]
    rw [this]; norm_num
  constructor
  · unfold lowpassSpan
    rw [if_neg (ne_of_gt hres), clipBandwidth_of_le e b hb]
    apply toUint32_of_nonneg _ hq0
    rw [hN] at hq1
    exact lt_of_le_of_lt hq1 (by norm_num)
  · exact Nat.floor_le_of_le hq1

/-- Below the Nyquist limit the span stays under `N / 2`. -/
theorem floor_quotient_lt (e : Engine) (he : Constructed e) (b : ℚ) (h0 : 0 ≤ b)
    (hb : b < e.sampleRate / 2) : ⌊b / e.fftBinResolutionInHz⌋₊ < N / 2 := by
  have hres := resolution_pos e he
  have hq0 : 0 ≤ b / e.fftBinResolutionInHz := div_nonneg h0 (le_of_lt hres)
  exact (Nat.floor_lt hq0).2 ((quotient_le_iff e he b).2.2 hb)

theorem lowerBinIndex_of_le (s : Nat) (hs : s ≤ N / 2) : lowerBinIndex s = N / 2 - s := by
  have hN := N_eq
  unfold lowerBinIndex
  omega

theorem upperBinIndex_of_le (s : Nat) (hs : s ≤ N / 2) : upperBinIndex s = N / 2 + s := by
  have hN := N_eq
  unfold upperBinIndex
  omega

/-! ## `computeSpectralPower` as a whole -/

/-- With a span below `N / 2` the call succeeds and returns the sum of the freshly
built spectrum over the bins `N/2 - span .. N/2 + span`. -/
theorem computeSpectralPower_of_span (e : Engine) (he : Constructed e) (sig : Nat → Int)
    (len : Nat) (hlen : len ≤ 2 * N) (b : ℚ) (s : Nat) (hs : lowpassSpan e b = some s)
    (hsN : s < N / 2) :
    ∃ e', computePowerSpectrum e sig len = some (e', len / 2) ∧
      computeSpectralPower e b sig len =
        some (e', ∑ j ∈ Finset.Icc (N / 2 - s) (N / 2 + s), e'.spectralPowerBuffer j) ∧
      (∀ k, k < N → e'.spectralPowerBuffer k = binPower e'.fftOutputPtr (e.fftShiftTable k)) := by
  have hN := N_eq
  obtain ⟨inp, spec, -, h2, -, h4⟩ := computePowerSpectrum_spec e he sig len hlen
  refine ⟨_, h2, ?_, ?_⟩
  · unfold computeSpectralPower
    rw [hs]
    simp only []
    rw [h2]
    simp only []
    rw [lowerBinIndex_of_le s (by omega), upperBinIndex_of_le s (by omega),
      sumLoop_spec spec (N / 2 + s) (by omega) _ _ _ rfl, zero_add]
  · intro k hk
    show spec k = _
    rw [h4 k, if_pos hk]

theorem half_N_cast : ((N / 2 : Nat) : ℚ) = 4096 := by
  have : N / 2 = 4096 := by rw [N_eq]
  rw [this]; norm_num

/-- At or above the Nyquist limit the span is `N / 2`. -/
theorem lowpassSpan_nyquist (e : Engine) (he : Constructed e) (b : ℚ)
    (hb : e.sampleRate / 2 ≤ b) : lowpassSpan e b = some (N / 2) := by
  have hres := resolution_pos e he
  have hq : e.sampleRate / 2 / e.fftBinResolutionInHz = ((N / 2 : Nat) : ℚ) := by
    rw [half_N_cast, div_eq_iff (ne_of_gt hres), he.resolution, N_cast]
    ring
  unfold lowpassSpan
  rw [if_neg (ne_of_gt hres), clipBandwidth_of_ge e b hb, hq,
    toUint32_of_nonneg _ (Nat.cast_nonneg _), Nat.floor_natCast]
  rw [half_N_cast]; norm_num

theorem lowerBinIndex_half : lowerBinIndex (N / 2) = 0 := by
  rw [lowerBinIndex_of_le _ (le_refl _)]; omega

theorem upperBinIndex_half : upperBinIndex (N / 2) = N := by
  have hN := N_eq
  rw [upperBinIndex_of_le _ (le_refl _)]; omega

/-- When the upper bin is at or beyond `N` the summation reads past the buffer,
whatever the block. -/
theorem computeSpectralPower_of_upper_ge (e : Engine) (sig : Nat → Int) (len : Nat) (b : ℚ)
    (s : Nat) (hs : lowpassSpan e b = some s) (hup : N ≤ upperBinIndex s)
    (hlow : lowerBinIndex s ≤ N) : computeSpectralPower e b sig len = none := by
  unfold computeSpectralPower
  rw [hs]
  simp only []
  cases hc : computePowerSpectrum e sig len with
  | none => rfl
  | some p =>
    obtain ⟨e', n⟩ := p
    simp only []
    rw [sumLoop_out_of_bounds _ (upperBinIndex s) hup (N - lowerBinIndex s) (lowerBinIndex s) 0
      rfl hlow]

/-- At or above the Nyquist limit the bin range is `0 .. N` and the summation
reads `spectralPowerBuffer[N]`, one cell past the buffer. -/
theorem computeSpectralPower_nyquist (e : Engine) (he : Constructed e) (sig : Nat → Int)
    (len : Nat) (b : ℚ) (hb : e.sampleRate / 2 ≤ b) :
    computeSpectralPower e b sig len = none :=
  computeSpectralPower_of_upper_ge e sig len b (N / 2) (lowpassSpan_nyquist e he b hb)
    (le_of_eq upperBinIndex_half.symm) (le_of_eq_of_le lowerBinIndex_half (Nat.zero_le N))

/-- A negative bandwidth at or below minus one bin: the quotient truncates to a
negative integer and the conversion to the unsigned span has no value. -/
theorem computeSpectralPower_negative (e : Engine) (he : Constructed e) (sig : Nat → Int)
    (len : Nat) (b : ℚ) (hb : b ≤ -e.fftBinResolutionInHz) :
    lowpassSpan e b = none ∧ computeSpectralPower e b sig len = none := by
  have hres := resolution_pos e he
  have hspan : lowpassSpan e b = none := by
    unfold lowpassSpan
    rw [if_neg (ne_of_gt hres),
      clipBandwidth_of_le e b (by have := he.rate_pos; linarith)]
    apply toUint32_of_le_neg_one
    rw [div_le_iff₀ hres]
    linarith
  refine ⟨hspan, ?_⟩
  unfold computeSpectralPower
  rw [hspan]

/-- The sample engine runs at 256000 S/s with 31.25 Hz per bin. -/
theorem sampleEngine_rate :
    sampleEngine.sampleRate = 256000 ∧ sampleEngine.fftBinResolutionInHz = 125 / 4 := by
  have h1 : sampleEngine.sampleRate = 256000 := by
    show (if (256000 : ℚ) ≤ 0 then (256000 : ℚ) else 256000) = 256000
    norm_num
  have h2 := (constructed_SpectrumProcessor sampleCos sampleDft zeroMemory 256000).resolution
  refine ⟨h1, ?_⟩
  show sampleEngine.fftBinResolutionInHz = 125 / 4
  have h3 : sampleEngine.fftBinResolutionInHz = sampleEngine.sampleRate / (N : ℚ) := h2
  rw [h3, h1, N_cast]
  norm_num

theorem sampleEngine_constructed : Constructed sampleEngine :=
  constructed_SpectrumProcessor sampleCos sampleDft zeroMemory 256000

/-- With a span below `N / 2` the returned power is the sum of the spectrum that
`computePowerSpectrum` builds over the bins `N/2 - span .. N/2 + span`; the call
has a value exactly when `computePowerSpectrum` has one. -/
theorem computeSpectralPower_eq_map (e : Engine) (sig : Nat → Int) (len : Nat) (b : ℚ)
    (s : Nat) (hs : lowpassSpan e b = some s) (hsN : s < N / 2) :
    computeSpectralPower e b sig len =
      (computePowerSpectrum e sig len).map
        (fun r => (r.1, ∑ j ∈ Finset.Icc (N / 2 - s) (N / 2 + s), r.1.spectralPowerBuffer j)) := by
  have hN := N_eq
  unfold computeSpectralPower
  rw [hs]
  simp only []
  cases hc : computePowerSpectrum e sig len with
  | none => rfl
  | some p =>
    obtain ⟨e', n⟩ := p
    simp only [Option.map_some']
    rw [lowerBinIndex_of_le s (by omega), upperBinIndex_of_le s (by omega),
      sumLoop_spec e'.spectralPowerBuffer (N / 2 + s) (by omega) _ _ _ rfl, zero_add]

/-- A call of `computePowerSpectrum` that returns keeps the configuration. -/
theorem computePowerSpectrum_constructed (e e' : Engine) (sig : Nat → Int) (len n : Nat)
    (he : Constructed e) (h : computePowerSpectrum e sig len = some (e', n)) :
    Constructed e' := by
  unfold computePowerSpectrum at h
  cases h1 : fillInputLoop e.hanningWindow sig len 0 0 e.fftInputPtr with
  | none => rw [h1] at h; exact absurd h (by simp)
  | some p =>
    obtain ⟨j, inp⟩ := p
    rw [h1] at h
    simp only [] at h
    cases h2 : powerLoop (e.fftPlan inp) e.fftShiftTable 0 e.spectralPowerBuffer with
    | none => rw [h2] at h; exact absurd h (by simp)
    | some spec =>
      rw [h2] at h
      simp only [Option.some.injEq, Prod.mk.injEq] at h
      obtain ⟨h3, -⟩ := h
      subst h3
      exact ⟨he.rate_pos, he.resolution, he.shift⟩

/-- What a returning call of `computePowerSpectrum` leaves behind: the output
buffer is the transform of the input buffer and centered index `k < N` holds
the power of raw bin `fftShiftTable[k]`. -/
theorem computePowerSpectrum_post (e e' : Engine) (he : Constructed e) (sig : Nat → Int)
    (len n : Nat) (h : computePowerSpectrum e sig len = some (e', n)) :
    e'.fftOutputPtr = e.fftPlan e'.fftInputPtr ∧
      ∀ k, k < N → e'.spectralPowerBuffer k = binPower e'.fftOutputPtr (e.fftShiftTable k) := by
  unfold computePowerSpectrum at h
  cases h1 : fillInputLoop e.hanningWindow sig len 0 0 e.fftInputPtr with
  | none => rw [h1] at h; exact absurd h (by simp)
  | some p =>
    obtain ⟨j, inp⟩ := p
    rw [h1] at h
    simp only [] at h
    obtain ⟨spec, h3, h4⟩ :=
      powerLoop_spec (e.fftPlan inp) e.fftShiftTable he.shift N 0 e.spectralPowerBuffer rfl
    rw [h3] at h
    simp only [Option.some.injEq, Prod.mk.injEq] at h
    obtain ⟨h5, -⟩ := h
    subst h5
    refine ⟨rfl, ?_⟩
    intro k hk
    show spec k = _
    rw [h4, if_pos ⟨hk, Nat.zero_le _⟩]

/-- The clip makes the span depend on the bandwidth only through its clipped value. -/
theorem computeSpectralPower_congr (e : Engine) (sig : Nat → Int) (len : Nat) (b c : ℚ)
    (h : clipBandwidth e b = clipBandwidth e c) :
    lowpassSpan e b = lowpassSpan e c ∧
      computeSpectralPower e b sig len = computeSpectralPower e c sig len := by
  have hs : lowpassSpan e b = lowpassSpan e c := by
    unfold lowpassSpan
    rw [h]
  refine ⟨hs, ?_⟩
  unfold computeSpectralPower
  rw [hs]

/-- A bandwidth below one bin has span zero. -/
theorem lowpassSpan_zero (e : Engine) (he : Constructed e) (b : ℚ) (hb0 : 0 ≤ b)
    (hb : b < e.fftBinResolutionInHz) : lowpassSpan e b = some 0 := by
  have hres := resolution_pos e he
  have hle : b ≤ e.sampleRate / 2 := by
    have h1 := he.resolution
    rw [N_cast] at h1
    have h2 := he.rate_pos
    rw [h1] at hb
    linarith
  rw [(lowpassSpan_of_nonneg e he b hb0 hle).1]
  congr 1
  rw [Nat.floor_eq_zero, div_lt_one hres]
  exact hb

/-- A negative bandwidth above minus one bin has span zero. -/
theorem lowpassSpan_neg_small (e : Engine) (he : Constructed e) (b : ℚ) (hneg : b < 0)
    (hb : -e.fftBinResolutionInHz < b) : lowpassSpan e b = some 0 := by
  have hres := resolution_pos e he
  unfold lowpassSpan
  rw [if_neg (ne_of_gt hres), clipBandwidth_of_le e b (by have := he.rate_pos; linarith)]
  apply toUint32_of_neg_gt
  · exact div_neg_of_neg_of_pos hneg hres
  · rw [lt_div_iff₀ hres]
    linarith

/-- With span zero the returned power is the center bin of the spectrum that
`computePowerSpectrum` builds. -/
theorem computeSpectralPower_center (e : Engine) (sig : Nat → Int) (len : Nat) (b : ℚ)
    (hs : lowpassSpan e b = some 0) :
    computeSpectralPower e b sig len =
      (computePowerSpectrum e sig len).map (fun r => (r.1, r.1.spectralPowerBuffer (N / 2))) := by
  have hN := N_eq
  rw [computeSpectralPower_eq_map e sig len b 0 hs (by omega)]
  simp only [Nat.sub_zero, Nat.add_zero, Finset.Icc_self, Finset.sum_singleton]

/-- A returning call of `computePowerSpectrum` returns `bufferLength / 2`. -/
theorem computePowerSpectrum_returns (e : Engine) (he : Constructed e) (sig : Nat → Int)
    (len : Nat) (hlen : len ≤ 2 * N) :
    ∃ e', computePowerSpectrum e sig len = some (e', len / 2) := by
  obtain ⟨inp, spec, -, h2, -⟩ := computePowerSpectrum_spec e he sig len hlen
  exact ⟨_, h2⟩

/-- Below the Nyquist limit a wider band sums a superset of bins, all non-negative. -/
theorem computeSpectralPower_mono_of_returns (e : Engine) (he : Constructed e)
    (sig : Nat → Int) (len : Nat) (b1 b2 : ℚ) (h0 : 0 ≤ b1) (h12 : b1 ≤ b2)
    (h2 : b2 < e.sampleRate / 2) (e1 e2 : Engine) (p1 p2 : ℚ)
    (hc1 : computeSpectralPower e b1 sig len = some (e1, p1))
    (hc2 : computeSpectralPower e b2 sig len = some (e2, p2)) : p1 ≤ p2 := by
  have hN := N_eq
  have hres := resolution_pos e he
  have hs1 := (lowpassSpan_of_nonneg e he b1 h0 (by linarith)).1
  have hs2 := (lowpassSpan_of_nonneg e he b2 (by linarith) (le_of_lt h2)).1
  have hlt1 := floor_quotient_lt e he b1 h0 (by linarith)
  have hlt2 := floor_quotient_lt e he b2 (by linarith) h2
  have hmono : ⌊b1 / e.fftBinResolutionInHz⌋₊ ≤ ⌊b2 / e.fftBinResolutionInHz⌋₊ :=
    Nat.floor_mono ((div_le_div_iff_of_pos_right hres).2 h12)
  rw [computeSpectralPower_eq_map e sig len b1 _ hs1 hlt1] at hc1
  rw [computeSpectralPower_eq_map e sig len b2 _ hs2 hlt2] at hc2
  cases hc : computePowerSpectrum e sig len with
  | none => rw [hc] at hc1; exact absurd hc1 (by simp)
  | some r =>
    obtain ⟨e', n⟩ := r
    rw [hc] at hc1 hc2
    simp only [Option.map_some', Option.some.injEq, Prod.mk.injEq] at hc1 hc2
    obtain ⟨-, hp1⟩ := hc1
    obtain ⟨-, hp2⟩ := hc2
    have hpost := (computePowerSpectrum_post e e' he sig len n hc).2
    rw [← hp1, ← hp2]
    apply Finset.sum_le_sum_of_subset_of_nonneg
    · exact Finset.Icc_subset_Icc (by omega) (by omega)
    · intro k hk _
      rw [Finset.mem_Icc] at hk
      rw [hpost k (by omega)]
      exact binPower_nonneg _ _

/-- A call of `computeSpectralPower` that returns keeps the configuration. -/
theorem computeSpectralPower_constructed (e e' : Engine) (sig : Nat → Int) (len : Nat)
    (b p : ℚ) (he : Constructed e) (h : computeSpectralPower e b sig len = some (e', p)) :
    Constructed e' := by
  unfold computeSpectralPower at h
  cases h1 : lowpassSpan e b with
  | none => rw [h1] at h; exact absurd h (by simp)
  | some s =>
    rw [h1] at h
    simp only [] at h
    cases h2 : computePowerSpectrum e sig len with
    | none => rw [h2] at h; exact absurd h (by simp)
    | some r =>
      obtain ⟨e'', n⟩ := r
      rw [h2] at h
      simp only [] at h
      have hc := computePowerSpectrum_constructed e e'' sig len n he h2
      cases h3 : sumLoop e''.spectralPowerBuffer (upperBinIndex s) (lowerBinIndex s) 0 with
      | none => rw [h3] at h; exact absurd h (by simp)
      | some q =>
        rw [h3] at h
        simp only [Option.some.injEq, Prod.mk.injEq] at h
        rw [← h.1]
        exact hc

/-- Below the Nyquist limit the returned power is non-decreasing in the bandwidth:
for `0 ≤ b1 ≤ b2 < sampleRate/2` the power returned for `b1` is at most the
power returned for `b2`, and both calls return for a block of at most `2 * N`
values. -/
theorem computeSpectralPower_monotone_below_nyquist (e : Engine) (he : Constructed e) (sig : Nat → Int)
    (len : Nat) (b1 b2 : ℚ) (h0 : 0 ≤ b1) (h12 : b1 ≤ b2) (h2 : b2 < e.sampleRate / 2) :
    (∀ e1 p1 e2 p2, computeSpectralPower e b1 sig len = some (e1, p1) →
      computeSpectralPower e b2 sig len = some (e2, p2) → p1 ≤ p2) ∧
    (len ≤ 2 * N →
      ∃ e' p1 p2, computeSpectralPower e b1 sig len = some (e', p1) ∧
        computeSpectralPower e b2 sig len = some (e', p2) ∧ p1 ≤ p2) := by
  have hmono := computeSpectralPower_mono_of_returns e he sig len b1 b2 h0 h12 h2
  refine ⟨fun e1 p1 e2 p2 => hmono e1 e2 p1 p2, ?_⟩
  intro hlen
  obtain ⟨e', h1, hc1, -⟩ := computeSpectralPower_of_span e he sig len hlen b1 _
    (lowpassSpan_of_nonneg e he b1 h0 (by linarith)).1
    (floor_quotient_lt e he b1 h0 (by linarith))
  obtain ⟨e'', h1', hc2, -⟩ := computeSpectralPower_of_span e he sig len hlen b2 _
    (lowpassSpan_of_nonneg e he b2 (by linarith) (le_of_lt h2)).1
    (floor_quotient_lt e he b2 (by linarith) h2)
  have hee : e'' = e' := by
    rw [h1] at h1'
    simp only [Option.some.injEq, Prod.mk.injEq] at h1'
    exact h1'.1.symm
  subst hee
  exact ⟨_, _, _, hc1, hc2, hmono _ _ _ _ hc1 hc2⟩

/-! ## The claims -/

/-- Claim C1: the bin-shift table built by `initializeFftw`, with `N = 8192`, sends
every index `i < N` to an index below `N`, is its own inverse there
(`shiftTable[shiftTable[i]] = i`), swaps the halves (`i + N/2` for `i < N/2`,
`i - N/2` for `i ≥ N/2`), and is a bijection of `0..N-1` onto itself. -/
theorem fftShiftTable_involution_bijection (dft : ComplexBuffer → ComplexBuffer) (e : Engine) :
    N = 8192 ∧
    (∀ i, i < N →
      (initializeFftw dft e).fftShiftTable i < N ∧
      (initializeFftw dft e).fftShiftTable ((initializeFftw dft e).fftShiftTable i) = i ∧
      (i < N / 2 → (initializeFftw dft e).fftShiftTable i = i + N / 2) ∧
      (N / 2 ≤ i → (initializeFftw dft e).fftShiftTable i = i - N / 2)) ∧
    Set.BijOn (initializeFftw dft e).fftShiftTable (Set.Iio N) (Set.Iio N) := by
  have ht := initializeFftw_shift dft e
  have hinv := shift_lt_and_involutive (initializeFftw dft e).fftShiftTable ht
  refine ⟨rfl, ?_, ?_, ?_, ?_⟩
  · intro i hi
    refine ⟨(hinv i hi).1, (hinv i hi).2, ?_, ?_⟩
    · intro h
      rw [ht i hi, if_pos h]
    · intro h
      rw [ht i hi, if_neg (not_lt.2 h)]
  · intro i hi
    exact (hinv i hi).1
  · intro a ha c hc hac
    rw [← (hinv a ha).2, hac, (hinv c hc).2]
  · intro j hj
    exact ⟨_, (hinv j hj).1, (hinv j hj).2⟩

/-- The table at index 5000, in the upper half. -/
theorem fftShiftTable_involution_bijection_witness :
    5000 < N ∧
      (initializeFftw sampleDft zeroMemory).fftShiftTable 5000 < N ∧
      (initializeFftw sampleDft zeroMemory).fftShiftTable
        ((initializeFftw sampleDft zeroMemory).fftShiftTable 5000) = 5000 ∧
      (initializeFftw sampleDft zeroMemory).fftShiftTable 5000 = 5000 - N / 2 :=
  ⟨by decide,
    ((fftShiftTable_involution_bijection sampleDft zeroMemory).2.1 5000 (by decide)).1,
    ((fftShiftTable_involution_bijection sampleDft zeroMemory).2.1 5000 (by decide)).2.1,
    ((fftShiftTable_involution_bijection sampleDft zeroMemory).2.1 5000 (by decide)).2.2.2
      (by decide)⟩

/-- Claim C3: after a call of `computePowerSpectrum`, for every raw output bin
`i < N` the buffer holds `powerSpectrum[shiftTable[i]] = (re(i)² + im(i)²) / N`,
where `(re(i), im(i))` is the output of the transform primitive on the input
buffer; every centered index `j < N` is the target of exactly one raw bin, so
it is overwritten exactly once, and raw bin 0 lands at centered index `N/2`.
A block of at most `2 * N` values is always processed. -/
theorem computePowerSpectrum_bins (e : Engine) (he : Constructed e) (sig : Nat → Int)
    (len : Nat) :
    (∀ e' n, computePowerSpectrum e sig len = some (e', n) →
      e'.fftOutputPtr = e.fftPlan e'.fftInputPtr ∧
      (∀ i, i < N →
        e'.spectralPowerBuffer (e.fftShiftTable i) =
          ((e'.fftOutputPtr i).1 ^ 2 + (e'.fftOutputPtr i).2 ^ 2) / (N : ℚ)) ∧
      e'.spectralPowerBuffer (N / 2) =
        ((e'.fftOutputPtr 0).1 ^ 2 + (e'.fftOutputPtr 0).2 ^ 2) / (N : ℚ)) ∧
    (∀ j, j < N → ∃! i, i < N ∧ e.fftShiftTable i = j) ∧
    e.fftShiftTable 0 = N / 2 ∧
    (len ≤ 2 * N → ∃ e', computePowerSpectrum e sig len = some (e', len / 2)) := by
  have hN := N_eq
  have hinv := shift_lt_and_involutive e.fftShiftTable he.shift
  have h0 : e.fftShiftTable 0 = N / 2 := by
    rw [he.shift 0 (by omega), if_pos (by omega)]; omega
  have hbin : ∀ (out : ComplexBuffer) (i : Nat),
      binPower out i = ((out i).1 ^ 2 + (out i).2 ^ 2) / (N : ℚ) := by
    intro out i
    unfold binPower
    simp only []
    rw [pow_two, pow_two]
  refine ⟨?_, ?_, h0, computePowerSpectrum_returns e he sig len⟩
  · intro e' n h
    obtain ⟨h1, h2⟩ := computePowerSpectrum_post e e' he sig len n h
    refine ⟨h1, ?_, ?_⟩
    · intro i hi
      rw [h2 _ (hinv i hi).1, (hinv i hi).2, hbin]
    · rw [h2 _ (by omega), ← h0, (hinv 0 (by omega)).2, hbin]
  · intro j hj
    refine ⟨e.fftShiftTable j, ⟨(hinv j hj).1, (hinv j hj).2⟩, ?_⟩
    rintro i ⟨hi, hij⟩
    rw [← hij, (hinv i hi).2]

/-- The sample engine processes a full block; afterwards the center bin holds
the power of raw bin 0 and index 100 has exactly one source bin. -/
theorem computePowerSpectrum_bins_witness :
    Constructed sampleEngine ∧ 16384 ≤ 2 * N ∧ 100 < N ∧
      (∃ e', computePowerSpectrum sampleEngine sampleBlock 16384 = some (e', 16384 / 2) ∧
        e'.spectralPowerBuffer (N / 2) =
          ((e'.fftOutputPtr 0).1 ^ 2 + (e'.fftOutputPtr 0).2 ^ 2) / (N : ℚ)) ∧
      ∃! i, i < N ∧ sampleEngine.fftShiftTable i = 100 :=
  ⟨sampleEngine_constructed, by decide, by decide,
    Exists.elim
      ((computePowerSpectrum_bins sampleEngine sampleEngine_constructed sampleBlock 16384).2.2.2
        (by decide))
      (fun e' h => ⟨e', h,
        ((computePowerSpectrum_bins sampleEngine sampleEngine_constructed sampleBlock
          16384).1 e' _ h).2.2⟩),
    (computePowerSpectrum_bins sampleEngine sampleEngine_constructed sampleBlock 16384).2.1
      100 (by decide)⟩

/-- Claim C4: for every even `sampleCount ≤ 2 * N`, `computePowerSpectrum` writes the
transform input at each pair index `k < sampleCount/2` as
`(sample[2k] * window[k], sample[2k+1] * window[k])`, leaves the cells from
`sampleCount/2` on as they were, and returns `sampleCount/2`, which is the
final value of the pair counter `j` of the fill loop: the number of pairs
written. -/
theorem computePowerSpectrum_input (e : Engine) (he : Constructed e) (sig : Nat → Int)
    (len : Nat) (heven : len % 2 = 0) (hlen : len ≤ 2 * N) :
    ∃ e', computePowerSpectrum e sig len = some (e', len / 2) ∧
      (∀ k, k < len / 2 →
        e'.fftInputPtr k =
          ((sig (2 * k) : ℚ) * e.hanningWindow k, (sig (2 * k + 1) : ℚ) * e.hanningWindow k)) ∧
      (∀ k, len / 2 ≤ k → e'.fftInputPtr k = e.fftInputPtr k) ∧
      fillInputLoop e.hanningWindow sig len 0 0 e.fftInputPtr = some (len / 2, e'.fftInputPtr) := by
  obtain ⟨inp, spec, h1, h2, h3, -⟩ := computePowerSpectrum_spec e he sig len hlen
  have hhalf : (len + 1) / 2 = len / 2 := by omega
  rw [hhalf] at h1 h3
  refine ⟨_, h2, ?_, ?_, h1⟩
  · intro k hk
    show inp k = _
    rw [h3 k, if_pos hk]
  · intro k hk
    show inp k = _
    rw [h3 k, if_neg (by omega)]

/-- The sample engine on a block of six values: three pairs are written. -/
theorem computePowerSpectrum_input_witness :
    Constructed sampleEngine ∧ 6 % 2 = 0 ∧ 6 ≤ 2 * N ∧
      ∃ e', computePowerSpectrum sampleEngine sampleBlock 6 = some (e', 6 / 2) ∧
        (∀ k, k < 6 / 2 →
          e'.fftInputPtr k =
            ((sampleBlock (2 * k) : ℚ) * sampleEngine.hanningWindow k,
              (sampleBlock (2 * k + 1) : ℚ) * sampleEngine.hanningWindow k)) ∧
        (∀ k, 6 / 2 ≤ k → e'.fftInputPtr k = sampleEngine.fftInputPtr k) ∧
        fillInputLoop sampleEngine.hanningWindow sampleBlock 6 0 0 sampleEngine.fftInputPtr =
          some (6 / 2, e'.fftInputPtr) :=
  ⟨sampleEngine_constructed, by decide, by decide,
    computePowerSpectrum_input sampleEngine sampleEngine_constructed sampleBlock 6
      (by decide) (by decide)⟩

/-- Claim C5: construction is total in the sample rate: the engine built from rate
`r` stores 256000 when `r ≤ 0` and `r` otherwise, and its frequency resolution
is the stored rate over `N`, which is 31.25 Hz per bin for the default rate
with `N = 8192`. -/
theorem SpectrumProcessor_sampleRate (cos : ℚ → ℚ) (dft : ComplexBuffer → ComplexBuffer)
    (mem : Engine) (r : ℚ) :
    (SpectrumProcessor cos dft mem r).sampleRate = (if r ≤ 0 then 256000 else r) ∧
    (SpectrumProcessor cos dft mem r).fftBinResolutionInHz =
      (SpectrumProcessor cos dft mem r).sampleRate / (N : ℚ) ∧
    N = 8192 ∧
    (r ≤ 0 → (SpectrumProcessor cos dft mem r).fftBinResolutionInHz = 125 / 4) := by
  refine ⟨rfl, rfl, rfl, ?_⟩
  intro hr
  show (if r ≤ 0 then (256000 : ℚ) else r) / (N : ℚ) = 125 / 4
  rw [if_pos hr, N_cast]
  norm_num

/-- A negative rate is replaced by the default. -/
theorem SpectrumProcessor_sampleRate_witness :
    (-5 : ℚ) ≤ 0 ∧
      (SpectrumProcessor sampleCos sampleDft zeroMemory (-5)).fftBinResolutionInHz = 125 / 4 :=
  ⟨by norm_num,
    (SpectrumProcessor_sampleRate sampleCos sampleDft zeroMemory (-5)).2.2.2 (by norm_num)⟩

/-- Claim C7, at the failing input: on the engine at 256000 S/s with bandwidth
128000 Hz (the Nyquist limit) and a full block, the span is `N/2 = 4096`, the
bin range is `0 .. 8192` with `upperBinIndex = N`, outside `0..N-1`, and the
summation reads `spectralPowerBuffer[N]`: the range is not clamped to `N-1`. -/
theorem computeSpectralPower_nyquist_out_of_bounds :
    sampleEngine.sampleRate / 2 = 128000 ∧
      lowpassSpan sampleEngine 128000 = some (N / 2) ∧
      lowerBinIndex (N / 2) = 0 ∧ upperBinIndex (N / 2) = N ∧ ¬ (upperBinIndex (N / 2) ≤ N - 1) ∧
      computeSpectralPower sampleEngine 128000 sampleBlock 16384 = none := by
  have hrate : sampleEngine.sampleRate / 2 = 128000 := by
    rw [sampleEngine_rate.1]; norm_num
  have hN := N_eq
  refine ⟨hrate, ?_, lowerBinIndex_half, upperBinIndex_half, ?_, ?_⟩
  · exact lowpassSpan_nyquist sampleEngine sampleEngine_constructed 128000 (le_of_eq hrate)
  · rw [upperBinIndex_half]; omega
  · exact computeSpectralPower_nyquist sampleEngine sampleEngine_constructed sampleBlock 16384
      128000 (le_of_eq hrate)

/-- Claim C8: for every engine, every block and every bandwidth `0 ≤ b` below the
frequency resolution, the span is 0 and `computeSpectralPower(b, x, n)` is
exactly `powerSpectrum[N/2]` of the spectrum that `computePowerSpectrum` builds
from the same input; a block of at most `2 * N` values is always processed. -/
theorem computeSpectralPower_zero_span (e : Engine) (he : Constructed e) (sig : Nat → Int)
    (len : Nat) (b : ℚ) (hb0 : 0 ≤ b) (hb : b < e.fftBinResolutionInHz) :
    lowpassSpan e b = some 0 ∧
    computeSpectralPower e b sig len =
      (computePowerSpectrum e sig len).map (fun r => (r.1, r.1.spectralPowerBuffer (N / 2))) ∧
    (len ≤ 2 * N →
      ∃ e', computePowerSpectrum e sig len = some (e', len / 2) ∧
        computeSpectralPower e b sig len = some (e', e'.spectralPowerBuffer (N / 2))) := by
  have hs := lowpassSpan_zero e he b hb0 hb
  have hc := computeSpectralPower_center e sig len b hs
  refine ⟨hs, hc, ?_⟩
  intro hlen
  obtain ⟨e', h⟩ := computePowerSpectrum_returns e he sig len hlen
  refine ⟨e', h, ?_⟩
  rw [hc, h]
  rfl

/-- The scenario of the specification: 15.625 Hz at 256000 S/s, where one bin is
31.25 Hz wide. -/
theorem computeSpectralPower_zero_span_witness :
    Constructed sampleEngine ∧ (0 : ℚ) ≤ 125 / 8 ∧
      (125 / 8 : ℚ) < sampleEngine.fftBinResolutionInHz ∧ 16384 ≤ 2 * N ∧
      lowpassSpan sampleEngine (125 / 8) = some 0 ∧
      ∃ e', computePowerSpectrum sampleEngine sampleBlock 16384 = some (e', 16384 / 2) ∧
        computeSpectralPower sampleEngine (125 / 8) sampleBlock 16384 =
          some (e', e'.spectralPowerBuffer (N / 2)) :=
  ⟨sampleEngine_constructed, by norm_num, by rw [sampleEngine_rate.2]; norm_num, by decide,
    (computeSpectralPower_zero_span sampleEngine sampleEngine_constructed sampleBlock 16384
      (125 / 8) (by norm_num) (by rw [sampleEngine_rate.2]; norm_num)).1,
    (computeSpectralPower_zero_span sampleEngine sampleEngine_constructed sampleBlock 16384
      (125 / 8) (by norm_num) (by rw [sampleEngine_rate.2]; norm_num)).2.2 (by decide)⟩

/-- A negative bandwidth above minus one bin (`-frequencyResolution < b < 0`): the
quotient truncates toward zero, the span is 0 and `computeSpectralPower`
returns exactly the center-bin power `powerSpectrum[N/2]`; a block of at most
`2 * N` values is always processed. -/
theorem computeSpectralPower_negative_small (e : Engine) (he : Constructed e)
    (sig : Nat → Int) (len : Nat) (b : ℚ) (hneg : b < 0) (hb : -e.fftBinResolutionInHz < b) :
    lowpassSpan e b = some 0 ∧
    computeSpectralPower e b sig len =
      (computePowerSpectrum e sig len).map (fun r => (r.1, r.1.spectralPowerBuffer (N / 2))) ∧
    (len ≤ 2 * N →
      ∃ e', computePowerSpectrum e sig len = some (e', len / 2) ∧
        computeSpectralPower e b sig len = some (e', e'.spectralPowerBuffer (N / 2))) := by
  have hs := lowpassSpan_neg_small e he b hneg hb
  have hc := computeSpectralPower_center e sig len b hs
  refine ⟨hs, hc, ?_⟩
  intro hlen
  obtain ⟨e', h⟩ := computePowerSpectrum_returns e he sig len hlen
  refine ⟨e', h, ?_⟩
  rw [hc, h]
  rfl

/-- The sample engine at -10 Hz. -/
theorem computeSpectralPower_negative_small_witness :
    Constructed sampleEngine ∧ (-10 : ℚ) < 0 ∧
      -sampleEngine.fftBinResolutionInHz < (-10 : ℚ) ∧ 16384 ≤ 2 * N ∧
      lowpassSpan sampleEngine (-10) = some 0 ∧
      ∃ e', computePowerSpectrum sampleEngine sampleBlock 16384 = some (e', 16384 / 2) ∧
        computeSpectralPower sampleEngine (-10) sampleBlock 16384 =
          some (e', e'.spectralPowerBuffer (N / 2)) :=
  ⟨sampleEngine_constructed, by norm_num, by rw [sampleEngine_rate.2]; norm_num, by decide,
    (computeSpectralPower_negative_small sampleEngine sampleEngine_constructed sampleBlock 16384
      (-10) (by norm_num) (by rw [sampleEngine_rate.2]; norm_num)).1,
    (computeSpectralPower_negative_small sampleEngine sampleEngine_constructed sampleBlock 16384
      (-10) (by norm_num) (by rw [sampleEngine_rate.2]; norm_num)).2.2 (by decide)⟩

/-! ## The window table -/

/-- What the window loop of the constructor leaves in the table when started at `i`. -/
theorem windowLoop_apply (cos : ℚ → ℚ) (n : Nat) :
    ∀ (i : Nat) (w : Nat → ℚ), N - i = n → ∀ k,
      windowLoop cos i w k = if i ≤ k ∧ k < N then hannWeight cos M_PI k else w k := by
  induction n with
  | zero =>
    intro i w hi k
    rw [windowLoop, if_neg (by omega), if_neg (by omega)]
  | succ n ih =>
    intro i w hi k
    rw [windowLoop, if_pos (by omega), ih (i + 1) _ (by omega) k]
    by_cases hk1 : i + 1 ≤ k ∧ k < N
    · rw [if_pos hk1, if_pos (by omega)]
    · rw [if_neg hk1]
      by_cases hk2 : k = i
      · subst hk2
        rw [Function.update_same, if_pos (by omega)]
        rfl
      · rw [Function.update_noteq hk2, if_neg (by omega)]

/-- The window table of a constructed engine holds the window expression at every
index below `N`. -/
theorem SpectrumProcessor_hanningWindow (cos : ℚ → ℚ) (dft : ComplexBuffer → ComplexBuffer)
    (mem : Engine) (r : ℚ) (k : Nat) (hk : k < N) :
    (SpectrumProcessor cos dft mem r).hanningWindow k = hannWeight cos M_PI k := by
  show windowLoop cos 0 mem.hanningWindow k = _
  rw [windowLoop_apply cos N 0 _ rfl k, if_pos ⟨Nat.zero_le _, hk⟩]

theorem clampedCos_zero : clampedCos 0 = 1 := by
  unfold clampedCos
  norm_num

theorem clampedCos_M_PI : clampedCos M_PI = -1 := by
  unfold clampedCos M_PI
  norm_num

theorem clampedCos_range (x : ℚ) : -1 ≤ clampedCos x ∧ clampedCos x ≤ 1 := by
  unfold clampedCos
  refine ⟨le_max_left _ _, max_le (by norm_num) ?_⟩
  have := mul_self_nonneg x
  linarith

/-- The argument of the cosine at index `k`, in exact arithmetic. -/
theorem hannWeight_real (k : Nat) :
    hannWeight Real.cos Real.pi k = 1 / 2 - 1 / 2 * Real.cos (2 * Real.pi * (k : ℝ) / (N : ℝ)) :=
  rfl

theorem N_cast_real : ((N : Nat) : ℝ) = 8192 := by
  rw [N_eq]; norm_num

/-- In exact arithmetic the weight at `N - k` equals the weight at `k`. -/
theorem hannWeight_real_mirror (k : Nat) (hk : k ≤ N) :
    hannWeight Real.cos Real.pi (N - k) = hannWeight Real.cos Real.pi k := by
  rw [hannWeight_real, hannWeight_real, Nat.cast_sub hk]
  have h : 2 * Real.pi * ((N : ℝ) - (k : ℝ)) / (N : ℝ)
      = 2 * Real.pi - 2 * Real.pi * (k : ℝ) / (N : ℝ) := by
    rw [N_cast_real]; ring
  rw [h, Real.cos_two_pi_sub]

/-- In exact arithmetic every weight is in `[0, 1]`. -/
theorem hannWeight_real_range (k : Nat) :
    0 ≤ hannWeight Real.cos Real.pi k ∧ hannWeight Real.cos Real.pi k ≤ 1 := by
  rw [hannWeight_real]
  have h1 := Real.neg_one_le_cos (2 * Real.pi * (k : ℝ) / (N : ℝ))
  have h2 := Real.cos_le_one (2 * Real.pi * (k : ℝ) / (N : ℝ))
  constructor <;> linarith

/-- In exact arithmetic the weight is 0 only at index 0, among the indices below `N`. -/
theorem hannWeight_real_pos (k : Nat) (hk0 : 0 < k) (hk : k < N) :
    0 < hannWeight Real.cos Real.pi k := by
  rw [hannWeight_real]
  have hpi := Real.pi_pos
  have hkr : (0 : ℝ) < (k : ℝ) := by exact_mod_cast hk0
  have hkN : (k : ℝ) < 8192 := by
    have : (k : ℝ) < (N : ℝ) := by exact_mod_cast hk
    rwa [N_cast_real] at this
  rw [N_cast_real]
  have hx1 : -(2 * Real.pi) < 2 * Real.pi * (k : ℝ) / 8192 := by
    have : 0 < 2 * Real.pi * (k : ℝ) / 8192 := by positivity
    linarith
  have hx2 : 2 * Real.pi * (k : ℝ) / 8192 < 2 * Real.pi := by
    rw [div_lt_iff₀ (by norm_num)]
    nlinarith
  have hne : Real.cos (2 * Real.pi * (k : ℝ) / 8192) ≠ 1 := by
    intro h
    have h0 := (Real.cos_eq_one_iff_of_lt_of_lt hx1 hx2).1 h
    have : 0 < 2 * Real.pi * (k : ℝ) / 8192 := by positivity
    linarith
  have hle := Real.cos_le_one (2 * Real.pi * (k : ℝ) / 8192)
  have hlt : Real.cos (2 * Real.pi * (k : ℝ) / 8192) < 1 := lt_of_le_of_ne hle hne
  linarith

theorem hannWeight_real_zero : hannWeight Real.cos Real.pi 0 = 0 := by
  rw [hannWeight_real]
  simp

theorem hannWeight_real_half : hannWeight Real.cos Real.pi (N / 2) = 1 := by
  rw [hannWeight_real]
  have h : 2 * Real.pi * ((N / 2 : Nat) : ℝ) / (N : ℝ) = Real.pi := by
    have h1 : ((N / 2 : Nat) : ℝ) = 4096 := by
      have : N / 2 = 4096 := by rw [N_eq]
      rw [this]; norm_num
    rw [h1, N_cast_real]; ring
  rw [h, Real.cos_pi]
  norm_num

/-- The weight at index 0 is 0 for every cosine with `cos 0 = 1`. -/
theorem hannWeight_zero_of_cos_zero (cos : ℚ → ℚ) (h : cos 0 = 1) :
    hannWeight cos M_PI 0 = 0 := by
  unfold hannWeight
  simp [h]

/-- The weight at index `N / 2` is 1 for every cosine with `cos M_PI = -1`: the
argument `(2 * M_PI * (N/2)) / N` is `M_PI` itself. -/
theorem hannWeight_half_of_cos_pi (cos : ℚ → ℚ) (h : cos M_PI = -1) :
    hannWeight cos M_PI (N / 2) = 1 := by
  unfold hannWeight
  have harg : (2 * M_PI * ((N / 2 : Nat) : ℚ)) / (N : ℚ) = M_PI := by
    rw [half_N_cast, N_cast]; ring
  rw [harg, h]
  norm_num

/-- The weight at index `k` is 0 exactly when the cosine is 1 at its argument. -/
theorem hannWeight_eq_zero_iff (cos : ℚ → ℚ) (k : Nat) :
    hannWeight cos M_PI k = 0 ↔ cos ((2 * M_PI * (k : ℚ)) / (N : ℚ)) = 1 := by
  unfold hannWeight
  constructor
  · intro h; linarith
  · intro h; rw [h]; norm_num

/-- Every weight is in `[0, 1]` for a cosine with range `[-1, 1]`. -/
theorem hannWeight_range (cos : ℚ → ℚ) (hcos : ∀ x, -1 ≤ cos x ∧ cos x ≤ 1) (k : Nat) :
    0 ≤ hannWeight cos M_PI k ∧ hannWeight cos M_PI k ≤ 1 := by
  unfold hannWeight
  obtain ⟨h1, h2⟩ := hcos ((2 * M_PI * (k : ℚ)) / (N : ℚ))
  constructor <;> linarith

/-! ## The claims on the window table -/

/-- Claim C11 fails at `k = 0`: in exact arithmetic `window[0] = 0` while
`window[N-1] > 0`, so `window[k] = window[N-1-k]` does not hold for every `k`;
on the engine the two entries differ for every cosine that is 1 at 0 and not 1
at the argument `(2 * M_PI * (N-1)) / N` of the last entry. -/
theorem hanningWindow_symmetry_counterexample :
    hannWeight Real.cos Real.pi 0 ≠ hannWeight Real.cos Real.pi (N - 1 - 0) ∧
    (¬ ∀ k, k < N →
      hannWeight Real.cos Real.pi k = hannWeight Real.cos Real.pi (N - 1 - k)) ∧
    (∀ (cos : ℚ → ℚ) (dft : ComplexBuffer → ComplexBuffer) (mem : Engine) (r : ℚ),
      cos 0 = 1 → cos ((2 * M_PI * ((N - 1 : Nat) : ℚ)) / (N : ℚ)) ≠ 1 →
      (SpectrumProcessor cos dft mem r).hanningWindow 0 ≠
        (SpectrumProcessor cos dft mem r).hanningWindow (N - 1 - 0)) := by
  have hN := N_eq
  have hpos : 0 < hannWeight Real.cos Real.pi (N - 1) :=
    hannWeight_real_pos (N - 1) (by omega) (by omega)
  have h0 : hannWeight Real.cos Real.pi 0 ≠ hannWeight Real.cos Real.pi (N - 1 - 0) := by
    rw [hannWeight_real_zero, Nat.sub_zero]
    exact ne_of_lt hpos
  refine ⟨h0, ?_, ?_⟩
  · intro h
    exact h0 (h 0 (by omega))
  · intro cos dft mem r hc0 hc1
    rw [Nat.sub_zero, SpectrumProcessor_hanningWindow cos dft mem r 0 (by omega),
      SpectrumProcessor_hanningWindow cos dft mem r (N - 1) (by omega),
      hannWeight_zero_of_cos_zero cos hc0]
    intro h
    exact hc1 ((hannWeight_eq_zero_iff cos (N - 1)).1 h.symm)

/-- Claim C11, amended: the table of a constructed engine holds the window
expression at every index, and in exact arithmetic that expression is the
periodic Hann window, `window[k] = window[N-k]` for every `k` in `1..N-1`
(symmetric about `N/2`; `window[0]` has no partner in the table). -/
theorem hanningWindow_periodic_symmetry (k : Nat) (hk0 : 1 ≤ k) (hk : k ≤ N - 1) :
    hannWeight Real.cos Real.pi k = hannWeight Real.cos Real.pi (N - k) ∧
    (∀ (cos : ℚ → ℚ) (dft : ComplexBuffer → ComplexBuffer) (mem : Engine) (r : ℚ),
      (SpectrumProcessor cos dft mem r).hanningWindow k = hannWeight cos M_PI k ∧
      (SpectrumProcessor cos dft mem r).hanningWindow (N - k) = hannWeight cos M_PI (N - k)) := by
  have hN := N_eq
  refine ⟨(hannWeight_real_mirror k (by omega)).symm, ?_⟩
  intro cos dft mem r
  exact ⟨SpectrumProcessor_hanningWindow cos dft mem r k (by omega),
    SpectrumProcessor_hanningWindow cos dft mem r (N - k) (by omega)⟩

/-- The entries 1 and `N - 1` are equal in exact arithmetic. -/
theorem hanningWindow_periodic_symmetry_witness :
    1 ≤ 1 ∧ 1 ≤ N - 1 ∧
      hannWeight Real.cos Real.pi 1 = hannWeight Real.cos Real.pi (N - 1) :=
  ⟨le_refl 1, by decide, (hanningWindow_periodic_symmetry 1 (le_refl 1) (by decide)).1⟩

/-- Claim C12 fails at `window[N-1]`: in exact arithmetic it is positive, not 0; on
the engine it is 0 only for a cosine that is 1 at `(2 * M_PI * (N-1)) / N`. -/
theorem hanningWindow_endpoint_counterexample :
    hannWeight Real.cos Real.pi (N - 1) ≠ 0 ∧
    (∀ (cos : ℚ → ℚ) (dft : ComplexBuffer → ComplexBuffer) (mem : Engine) (r : ℚ),
      cos ((2 * M_PI * ((N - 1 : Nat) : ℚ)) / (N : ℚ)) ≠ 1 →
      (SpectrumProcessor cos dft mem r).hanningWindow (N - 1) ≠ 0) := by
  have hN := N_eq
  refine ⟨ne_of_gt (hannWeight_real_pos (N - 1) (by omega) (by omega)), ?_⟩
  intro cos dft mem r hc h
  rw [SpectrumProcessor_hanningWindow cos dft mem r (N - 1) (by omega)] at h
  exact hc ((hannWeight_eq_zero_iff cos (N - 1)).1 h)

/-- Claim C12, amended: the window table built at construction has `window[0] = 0`
(for a cosine with `cos 0 = 1`) and `window[N/2] = 1` (for a cosine with
`cos M_PI = -1`); in exact arithmetic `window[0] = 0`, `window[N/2] = 1` and
`window[N-1] = window[1]` is positive. -/
theorem hanningWindow_endpoints (cos : ℚ → ℚ) (dft : ComplexBuffer → ComplexBuffer)
    (mem : Engine) (r : ℚ) :
    (cos 0 = 1 → (SpectrumProcessor cos dft mem r).hanningWindow 0 = 0) ∧
    (cos M_PI = -1 → (SpectrumProcessor cos dft mem r).hanningWindow (N / 2) = 1) ∧
    hannWeight Real.cos Real.pi 0 = 0 ∧
    hannWeight Real.cos Real.pi (N / 2) = 1 ∧
    hannWeight Real.cos Real.pi (N - 1) = hannWeight Real.cos Real.pi 1 ∧
    0 < hannWeight Real.cos Real.pi (N - 1) := by
  have hN := N_eq
  refine ⟨?_, ?_, hannWeight_real_zero, hannWeight_real_half,
    hannWeight_real_mirror 1 (by omega), hannWeight_real_pos (N - 1) (by omega) (by omega)⟩
  · intro h
    rw [SpectrumProcessor_hanningWindow cos dft mem r 0 (by omega),
      hannWeight_zero_of_cos_zero cos h]
  · intro h
    rw [SpectrumProcessor_hanningWindow cos dft mem r (N / 2) (by omega),
      hannWeight_half_of_cos_pi cos h]

/-- The engine built with the clamped stand-in cosine. -/
theorem hanningWindow_endpoints_witness :
    clampedCos 0 = 1 ∧ clampedCos M_PI = -1 ∧
      (SpectrumProcessor clampedCos sampleDft zeroMemory 256000).hanningWindow 0 = 0 ∧
      (SpectrumProcessor clampedCos sampleDft zeroMemory 256000).hanningWindow (N / 2) = 1 :=
  ⟨clampedCos_zero, clampedCos_M_PI,
    (hanningWindow_endpoints clampedCos sampleDft zeroMemory 256000).1 clampedCos_zero,
    (hanningWindow_endpoints clampedCos sampleDft zeroMemory 256000).2.1 clampedCos_M_PI⟩

/-- Claim C13: every weight of the window table built at construction is in `[0, 1]`,
`0 ≤ window[k] ≤ 1` for every `k < N`, for a library cosine with range `[-1, 1]`;
the same holds for the window expression in exact arithmetic. -/
theorem hanningWindow_range (cos : ℚ → ℚ) (dft : ComplexBuffer → ComplexBuffer)
    (mem : Engine) (r : ℚ) (hcos : ∀ x, -1 ≤ cos x ∧ cos x ≤ 1) (k : Nat) (hk : k < N) :
    (0 ≤ (SpectrumProcessor cos dft mem r).hanningWindow k ∧
      (SpectrumProcessor cos dft mem r).hanningWindow k ≤ 1) ∧
    (0 ≤ hannWeight Real.cos Real.pi k ∧ hannWeight Real.cos Real.pi k ≤ 1) := by
  rw [SpectrumProcessor_hanningWindow cos dft mem r k hk]
  exact ⟨hannWeight_range cos hcos k, hannWeight_real_range k⟩

/-- The engine built with the clamped stand-in cosine, at index 100. -/
theorem hanningWindow_range_witness :
    (∀ x, -1 ≤ clampedCos x ∧ clampedCos x ≤ 1) ∧ 100 < N ∧
      0 ≤ (SpectrumProcessor clampedCos sampleDft zeroMemory 256000).hanningWindow 100 ∧
      (SpectrumProcessor clampedCos sampleDft zeroMemory 256000).hanningWindow 100 ≤ 1 :=
  ⟨clampedCos_range, by decide,
    (hanningWindow_range clampedCos sampleDft zeroMemory 256000 clampedCos_range 100
      (by decide)).1.1,
    (hanningWindow_range clampedCos sampleDft zeroMemory 256000 clampedCos_range 100
      (by decide)).1.2⟩

/-! ## Short and oversize blocks -/

/-- A block of more than `2 * N` values drives the fill loop to the pass with
`j = N`, which reads `hanningWindow[N]` and writes `fftInputPtr[N]`. -/
theorem fillInputLoop_out_of_bounds (w : Nat → ℚ) (sig : Nat → Int) (len : Nat)
    (hlen : 2 * N < len) (n : Nat) :
    ∀ (i j : Nat) (inp : ComplexBuffer), N - j = n → i = 2 * j → j ≤ N →
      fillInputLoop w sig len i j inp = none := by
  induction n with
  | zero =>
    intro i j inp hn hij hj
    rw [fillInputLoop, if_pos (by omega), if_neg (by omega)]
  | succ n ih =>
    intro i j inp hn hij hj
    rw [fillInputLoop, if_pos (by omega), if_pos (by omega),
      ih (i + 2) (j + 1) _ (by omega) (by omega) (by omega)]

/-- A block of more than `2 * N` values makes `computePowerSpectrum` access its
buffers out of bounds. -/
theorem computePowerSpectrum_oversize (e : Engine) (sig : Nat → Int) (len : Nat)
    (hlen : 2 * N < len) : computePowerSpectrum e sig len = none := by
  unfold computePowerSpectrum
  rw [fillInputLoop_out_of_bounds e.hanningWindow sig len hlen N 0 0 _ rfl rfl (Nat.zero_le _)]

/-- The power call has no value when the spectrum call has none. -/
theorem computeSpectralPower_of_spectrum_none (e : Engine) (b : ℚ) (sig : Nat → Int)
    (len : Nat) (h : computePowerSpectrum e sig len = none) :
    computeSpectralPower e b sig len = none := by
  unfold computeSpectralPower
  cases hs : lowpassSpan e b with
  | none => rfl
  | some s =>
    simp only []
    rw [h]

/-- A cell of the transform input at or beyond the pair count keeps its old
content through the call, and the centered bin fed by that cell is computed
from it. -/
theorem computePowerSpectrum_stale (e : Engine) (he : Constructed e) (sig : Nat → Int)
    (len : Nat) (hlen : len ≤ 2 * N) (k : Nat) (hk : (len + 1) / 2 ≤ k) (hkN : k < N) :
    ∃ e', computePowerSpectrum e sig len = some (e', len / 2) ∧
      e'.fftInputPtr k = e.fftInputPtr k ∧
      e'.spectralPowerBuffer (e.fftShiftTable k) = binPower (e.fftPlan e'.fftInputPtr) k := by
  obtain ⟨inp, spec, -, h2, h3, h4⟩ := computePowerSpectrum_spec e he sig len hlen
  obtain ⟨hlt, hinv⟩ := shift_lt_and_involutive e.fftShiftTable he.shift k hkN
  refine ⟨_, h2, ?_, ?_⟩
  · show inp k = _
    rw [h3 k, if_neg (by omega)]
  · show spec (e.fftShiftTable k) = binPower (e.fftPlan inp) k
    rw [h4, if_pos hlt, hinv]

theorem staleEngine_constructed : Constructed staleEngine :=
  constructed_SpectrumProcessor sampleCos sampleDft staleMemory 256000

/-! ## The frame of a call -/

/-- A returning call of `computePowerSpectrum` leaves the sample rate, the
resolution, the window table, the shift table and the plan as they were. -/
theorem computePowerSpectrum_frame (e e' : Engine) (sig : Nat → Int) (len n : Nat)
    (h : computePowerSpectrum e sig len = some (e', n)) :
    e'.sampleRate = e.sampleRate ∧ e'.fftBinResolutionInHz = e.fftBinResolutionInHz ∧
      e'.hanningWindow = e.hanningWindow ∧ e'.fftShiftTable = e.fftShiftTable ∧
      e'.fftPlan = e.fftPlan := by
  unfold computePowerSpectrum at h
  cases h1 : fillInputLoop e.hanningWindow sig len 0 0 e.fftInputPtr with
  | none => rw [h1] at h; exact absurd h (by simp)
  | some p =>
    obtain ⟨j, inp⟩ := p
    rw [h1] at h
    simp only [] at h
    cases h2 : powerLoop (e.fftPlan inp) e.fftShiftTable 0 e.spectralPowerBuffer with
    | none => rw [h2] at h; exact absurd h (by simp)
    | some spec =>
      rw [h2] at h
      simp only [Option.some.injEq, Prod.mk.injEq] at h
      obtain ⟨h3, -⟩ := h
      subst h3
      exact ⟨rfl, rfl, rfl, rfl, rfl⟩

/-- The state a returning call of `computeSpectralPower` leaves is the state its
call of `computePowerSpectrum` leaves, and the value is what the summation
loop returns on that state. -/
theorem computeSpectralPower_state (e e' : Engine) (b p : ℚ) (sig : Nat → Int) (len : Nat)
    (h : computeSpectralPower e b sig len = some (e', p)) :
    ∃ s, lowpassSpan e b = some s ∧ computePowerSpectrum e sig len = some (e', len / 2) ∧
      sumLoop e'.spectralPowerBuffer (upperBinIndex s) (lowerBinIndex s) 0 = some p := by
  unfold computeSpectralPower at h
  cases h1 : lowpassSpan e b with
  | none => rw [h1] at h; exact absurd h (by simp)
  | some s =>
    rw [h1] at h
    simp only [] at h
    cases h2 : computePowerSpectrum e sig len with
    | none => rw [h2] at h; exact absurd h (by simp)
    | some r =>
      obtain ⟨e'', n⟩ := r
      rw [h2] at h
      simp only [] at h
      cases h3 : sumLoop e''.spectralPowerBuffer (upperBinIndex s) (lowerBinIndex s) 0 with
      | none => rw [h3] at h; exact absurd h (by simp)
      | some q =>
        rw [h3] at h
        simp only [Option.some.injEq, Prod.mk.injEq] at h
        obtain ⟨h4, h5⟩ := h
        subst h4
        subst h5
        have hn : n = len / 2 := by
          unfold computePowerSpectrum at h2
          cases h6 : fillInputLoop e.hanningWindow sig len 0 0 e.fftInputPtr with
          | none => rw [h6] at h2; exact absurd h2 (by simp)
          | some pr =>
            obtain ⟨j, inp⟩ := pr
            rw [h6] at h2
            simp only [] at h2
            cases h7 : powerLoop (e.fftPlan inp) e.fftShiftTable 0 e.spectralPowerBuffer with
            | none => rw [h7] at h2; exact absurd h2 (by simp)
            | some spec =>
              rw [h7] at h2
              simp only [Option.some.injEq, Prod.mk.injEq] at h2
              exact h2.2.symm
        subst hn
        exact ⟨s, rfl, rfl, h3⟩

/-- The summation loop over non-negative cells returns a non-negative value. -/
theorem sumLoop_nonneg (buf : Nat → ℚ) (hbuf : ∀ k, k < N → 0 ≤ buf k) (upper : Nat) (n : Nat) :
    ∀ (i : Nat) (acc p : ℚ), upper + 1 - i = n → 0 ≤ acc →
      sumLoop buf upper i acc = some p → 0 ≤ p := by
  induction n with
  | zero =>
    intro i acc p hn hacc h
    rw [sumLoop, if_neg (by omega)] at h
    simp only [Option.some.injEq] at h
    rw [← h]
    exact hacc
  | succ n ih =>
    intro i acc p hn hacc h
    rw [sumLoop, if_pos (by omega)] at h
    by_cases hi : i < N
    · rw [if_pos hi] at h
      exact ih (i + 1) _ p (by omega) (add_nonneg hacc (hbuf i hi)) h
    · rw [if_neg hi] at h
      exact absurd h (by simp)

/-- After a returning call of `computePowerSpectrum` every entry of the power
spectrum below `N` is non-negative. -/
theorem computePowerSpectrum_nonneg (e e' : Engine) (he : Constructed e) (sig : Nat → Int)
    (len n : Nat) (h : computePowerSpectrum e sig len = some (e', n)) (k : Nat) (hk : k < N) :
    0 ≤ e'.spectralPowerBuffer k := by
  rw [(computePowerSpectrum_post e e' he sig len n h).2 k hk]
  exact binPower_nonneg _ _

/-- Every value that `computeSpectralPower` returns is non-negative. -/
theorem computeSpectralPower_nonneg (e e' : Engine) (he : Constructed e) (b p : ℚ)
    (sig : Nat → Int) (len : Nat) (h : computeSpectralPower e b sig len = some (e', p)) :
    0 ≤ p := by
  obtain ⟨s, -, h2, h3⟩ := computeSpectralPower_state e e' b p sig len h
  exact sumLoop_nonneg e'.spectralPowerBuffer
    (computePowerSpectrum_nonneg e e' he sig len _ h2) (upperBinIndex s) _ _ 0 p rfl
    (le_refl 0) h3

/-- For a block of at most `2 * N` values and a bandwidth above minus one bin and
below the Nyquist limit the power call returns. -/
theorem computeSpectralPower_returns (e : Engine) (he : Constructed e) (sig : Nat → Int)
    (len : Nat) (hlen : len ≤ 2 * N) (b : ℚ) (hlo : -e.fftBinResolutionInHz < b)
    (hb : b < e.sampleRate / 2) :
    ∃ e' p, computeSpectralPower e b sig len = some (e', p) := by
  by_cases h0 : 0 ≤ b
  · obtain ⟨e', -, h2, -⟩ := computeSpectralPower_of_span e he sig len hlen b _
      (lowpassSpan_of_nonneg e he b h0 (le_of_lt hb)).1 (floor_quotient_lt e he b h0 hb)
    exact ⟨e', _, h2⟩
  · have hN := N_eq
    obtain ⟨e', -, h2, -⟩ := computeSpectralPower_of_span e he sig len hlen b 0
      (lowpassSpan_neg_small e he b (not_le.1 h0) hlo) (by omega)
    exact ⟨e', _, h2⟩

/-! ## The claims on blocks, non-negativity and the frame -/

/-- Claim C14, at the failing input: two fresh engines with the same configuration,
one over zeroed memory and one whose transform input cells hold `(1, 0)`,
process the same block of one I/Q pair (`bufferLength = 2 < 2 * N`). Cell 1 of
the transform input, beyond the pair count, is not zeroed: it still holds
`(1, 0)` in the second engine when the transform is invoked, and the two power
spectra differ at centered index `N/2 + 1`. -/
theorem computePowerSpectrum_partial_block_stale :
    sampleEngine.sampleRate = staleEngine.sampleRate ∧
    sampleEngine.fftBinResolutionInHz = staleEngine.fftBinResolutionInHz ∧
    sampleEngine.hanningWindow = staleEngine.hanningWindow ∧
    sampleEngine.fftShiftTable = staleEngine.fftShiftTable ∧
    sampleEngine.fftPlan = staleEngine.fftPlan ∧
    2 < 2 * N ∧
    ∃ eA eB, computePowerSpectrum sampleEngine sampleBlock 2 = some (eA, 2 / 2) ∧
      computePowerSpectrum staleEngine sampleBlock 2 = some (eB, 2 / 2) ∧
      eA.fftInputPtr 1 = (0, 0) ∧ eB.fftInputPtr 1 = (1, 0) ∧
      eA.spectralPowerBuffer (N / 2 + 1) ≠ eB.spectralPowerBuffer (N / 2 + 1) := by
  have hN := N_eq
  obtain ⟨eA, hA1, hA2, hA3⟩ := computePowerSpectrum_stale sampleEngine sampleEngine_constructed
    sampleBlock 2 (by omega) 1 (by omega) (by omega)
  obtain ⟨eB, hB1, hB2, hB3⟩ := computePowerSpectrum_stale staleEngine staleEngine_constructed
    sampleBlock 2 (by omega) 1 (by omega) (by omega)
  have hsA : sampleEngine.fftShiftTable 1 = N / 2 + 1 := by
    rw [sampleEngine_constructed.shift 1 (by omega), if_pos (by omega)]; omega
  have hsB : staleEngine.fftShiftTable 1 = N / 2 + 1 := by
    rw [staleEngine_constructed.shift 1 (by omega), if_pos (by omega)]; omega
  have hcA : eA.fftInputPtr 1 = (0, 0) := hA2
  have hcB : eB.fftInputPtr 1 = (1, 0) := hB2
  have hpA : eA.spectralPowerBuffer (N / 2 + 1) = 0 := by
    rw [← hsA, hA3]
    show binPower eA.fftInputPtr 1 = 0
    unfold binPower
    simp only []
    rw [hcA]
    norm_num
  have hpB : eB.spectralPowerBuffer (N / 2 + 1) = 1 / (N : ℚ) := by
    rw [← hsB, hB3]
    show binPower eB.fftInputPtr 1 = 1 / (N : ℚ)
    unfold binPower
    simp only []
    rw [hcB]
    norm_num
  refine ⟨rfl, rfl, rfl, rfl, rfl, by omega, eA, eB, hA1, hB1, hcA, hcB, ?_⟩
  rw [hpA, hpB, N_cast]
  norm_num

/-- Claim C15, at the failing input: a block of 16386 values (8193 pairs, more than
`N = 8192`) is not rejected; the fill loop runs to the pass `i = 2 * N`,
`j = N`, which reads `hanningWindow[N]` and writes `fftInputPtr[N]`, outside
`0..N-1`, so neither `computePowerSpectrum` nor `computeSpectralPower` has a
defined result. -/
theorem computePowerSpectrum_oversize_out_of_bounds :
    2 * N < 16386 ∧ ¬ (N < N) ∧
    (∀ inp : ComplexBuffer,
      fillInputLoop sampleEngine.hanningWindow sampleBlock 16386 (2 * N) N inp = none) ∧
    fillInputLoop sampleEngine.hanningWindow sampleBlock 16386 0 0 sampleEngine.fftInputPtr
      = none ∧
    computePowerSpectrum sampleEngine sampleBlock 16386 = none ∧
    computeSpectralPower sampleEngine 1000 sampleBlock 16386 = none := by
  have hN := N_eq
  have hlen : 2 * N < 16386 := by omega
  refine ⟨hlen, lt_irrefl N, ?_, ?_, computePowerSpectrum_oversize _ _ _ hlen,
    computeSpectralPower_of_spectrum_none _ _ _ _ (computePowerSpectrum_oversize _ _ _ hlen)⟩
  · intro inp
    exact fillInputLoop_out_of_bounds _ _ _ hlen 0 (2 * N) N inp (by omega) rfl (le_refl _)
  · exact fillInputLoop_out_of_bounds _ _ _ hlen N 0 0 _ rfl rfl (Nat.zero_le _)

/-- Claim C17: a call of `computePowerSpectrum` or `computeSpectralPower` leaves the
sample rate, the frequency resolution, the window table and the bin-shift
table (and the plan) as they were before the call, for every bandwidth and
block; the state `computeSpectralPower` leaves is the one its call of
`computePowerSpectrum` leaves, which differs from the old state in the two
transform buffers and the power spectrum only. Calls on a block of at most
`2 * N` values, with a bandwidth above minus one bin and below the Nyquist
limit, return. -/
theorem computeSpectralPower_frame (e : Engine) (sig : Nat → Int) (len : Nat) (b : ℚ) :
    (∀ e' n, computePowerSpectrum e sig len = some (e', n) →
      e'.sampleRate = e.sampleRate ∧ e'.fftBinResolutionInHz = e.fftBinResolutionInHz ∧
      e'.hanningWindow = e.hanningWindow ∧ e'.fftShiftTable = e.fftShiftTable ∧
      e'.fftPlan = e.fftPlan) ∧
    (∀ e' p, computeSpectralPower e b sig len = some (e', p) →
      computePowerSpectrum e sig len = some (e', len / 2) ∧
      e'.sampleRate = e.sampleRate ∧ e'.fftBinResolutionInHz = e.fftBinResolutionInHz ∧
      e'.hanningWindow = e.hanningWindow ∧ e'.fftShiftTable = e.fftShiftTable ∧
      e'.fftPlan = e.fftPlan) ∧
    (Constructed e → len ≤ 2 * N →
      ∃ e', computePowerSpectrum e sig len = some (e', len / 2)) ∧
    (Constructed e → len ≤ 2 * N → -e.fftBinResolutionInHz < b → b < e.sampleRate / 2 →
      ∃ e' p, computeSpectralPower e b sig len = some (e', p)) := by
  refine ⟨fun e' n h => computePowerSpectrum_frame e e' sig len n h, ?_,
    fun he hlen => computePowerSpectrum_returns e he sig len hlen,
    fun he hlen hlo hb => computeSpectralPower_returns e he sig len hlen b hlo hb⟩
  intro e' p h
  obtain ⟨s, -, h2, -⟩ := computeSpectralPower_state e e' b p sig len h
  exact ⟨h2, computePowerSpectrum_frame e e' sig len _ h2⟩

/-- The sample engine at 1000 Hz on a full block: the call returns and the
configuration is unchanged. -/
theorem computeSpectralPower_frame_witness :
    Constructed sampleEngine ∧ 16384 ≤ 2 * N ∧
      -sampleEngine.fftBinResolutionInHz < (1000 : ℚ) ∧
      (1000 : ℚ) < sampleEngine.sampleRate / 2 ∧
      ∃ e' p, computeSpectralPower sampleEngine 1000 sampleBlock 16384 = some (e', p) ∧
        e'.sampleRate = sampleEngine.sampleRate ∧
        e'.fftBinResolutionInHz = sampleEngine.fftBinResolutionInHz ∧
        e'.hanningWindow = sampleEngine.hanningWindow ∧
        e'.fftShiftTable = sampleEngine.fftShiftTable :=
  ⟨sampleEngine_constructed, by decide, by rw [sampleEngine_rate.2]; norm_num,
    by rw [sampleEngine_rate.1]; norm_num,
    Exists.elim
      ((computeSpectralPower_frame sampleEngine sampleBlock 16384 1000).2.2.2
        sampleEngine_constructed (by decide) (by rw [sampleEngine_rate.2]; norm_num)
        (by rw [sampleEngine_rate.1]; norm_num))
      (fun e' hp => Exists.elim hp (fun p h =>
        ⟨e', p, h,
          ((computeSpectralPower_frame sampleEngine sampleBlock 16384 1000).2.1 e' p h).2.1,
          ((computeSpectralPower_frame sampleEngine sampleBlock 16384 1000).2.1 e' p h).2.2.1,
          ((computeSpectralPower_frame sampleEngine sampleBlock 16384 1000).2.1 e' p h).2.2.2.1,
          ((computeSpectralPower_frame sampleEngine sampleBlock 16384 1000).2.1 e' p
            h).2.2.2.2.1⟩))⟩

/-! ## Determinism on full blocks -/

theorem SameConfiguration.trans (e1 e2 e3 : Engine) (h12 : SameConfiguration e1 e2)
    (h23 : SameConfiguration e2 e3) : SameConfiguration e1 e3 :=
  ⟨h12.sampleRate.trans h23.sampleRate, h12.resolution.trans h23.resolution,
    fun k hk => (h12.window k hk).trans (h23.window k hk),
    fun k hk => (h12.shift k hk).trans (h23.shift k hk), h12.plan.trans h23.plan⟩

/-- The byte `u` read as `int8_t` and decremented by 128 with 8-bit wrap-around is
`u - 128`. -/
theorem subtract128_asInt8 (u : Nat) (hu : u < 256) :
    subtract128 (asInt8 u) = (u : Int) - 128 := by
  unfold subtract128 asInt8 toInt8
  omega

/-- What the conversion loop leaves in the buffer when started at `i`. -/
theorem convertLoop_apply (count : Nat) (n : Nat) :
    ∀ (i : Nat) (buf : Nat → Int), count - i = n → ∀ k,
      convertLoop count i buf k = if i ≤ k ∧ k < count then subtract128 (buf k) else buf k := by
  induction n with
  | zero =>
    intro i buf hn k
    rw [convertLoop, if_neg (by omega), if_neg (by omega)]
  | succ n ih =>
    intro i buf hn k
    rw [convertLoop, if_pos (by omega), ih (i + 1) _ (by omega) k]
    by_cases hk1 : i + 1 ≤ k ∧ k < count
    · rw [if_pos hk1, if_pos (by omega), Function.update_noteq (by omega)]
    · rw [if_neg hk1]
      by_cases hk2 : k = i
      · subst hk2
        rw [Function.update_same, if_pos (by omega)]
      · rw [Function.update_noteq hk2, if_neg (by omega)]

/-! ## The claims on determinism and on the sample conversion -/

/-- Claim C20: for every input byte `u` in `0..255`, reading `u` as a signed 8-bit
value and subtracting 128 with 8-bit wrap-around gives exactly `u - 128`, which
lies in `-128..127`; the mapping preserves order and is a bijection from
`0..255` onto `-128..127`; the analyzer's conversion loop applies it to every
cell below `count`. -/
theorem unsigned_to_signed_conversion :
    (∀ u : Nat, u < 256 →
      subtract128 (asInt8 u) = (u : Int) - 128 ∧
      -128 ≤ subtract128 (asInt8 u) ∧ subtract128 (asInt8 u) ≤ 127) ∧
    (∀ u v : Nat, u < 256 → v < 256 → u < v →
      subtract128 (asInt8 u) < subtract128 (asInt8 v)) ∧
    Set.BijOn (fun u : Nat => subtract128 (asInt8 u)) (Set.Iio 256) (Set.Icc (-128) 127) ∧
    (∀ (inputBuffer : Nat → Nat) (count i : Nat), i < count → inputBuffer i < 256 →
      signedBlock inputBuffer count true i = (inputBuffer i : Int) - 128) := by
  refine ⟨?_, ?_, ⟨?_, ?_, ?_⟩, ?_⟩
  · intro u hu
    rw [subtract128_asInt8 u hu]
    omega
  · intro u v hu hv huv
    rw [subtract128_asInt8 u hu, subtract128_asInt8 v hv]
    omega
  · intro u hu
    have hu' : u < 256 := hu
    show subtract128 (asInt8 u) ∈ Set.Icc (-128 : Int) 127
    rw [subtract128_asInt8 u hu', Set.mem_Icc]
    omega
  · intro u hu v hv huv
    have hu' : u < 256 := hu
    have hv' : v < 256 := hv
    have h : subtract128 (asInt8 u) = subtract128 (asInt8 v) := huv
    rw [subtract128_asInt8 u hu', subtract128_asInt8 v hv'] at h
    omega
  · intro y hy
    rw [Set.mem_Icc] at hy
    refine ⟨(y + 128).toNat, ?_, ?_⟩
    · show (y + 128).toNat < 256
      omega
    · show subtract128 (asInt8 (y + 128).toNat) = y
      rw [subtract128_asInt8 _ (by omega)]
      omega
  · intro inputBuffer count i hi hbyte
    unfold signedBlock
    rw [if_pos rfl, convertLoop_apply count count 0 _ (by omega) i,
      if_pos ⟨Nat.zero_le _, hi⟩]
    exact subtract128_asInt8 _ hbyte

/-- The bytes 200 and 5, and the order between 5 and 200. -/
theorem unsigned_to_signed_conversion_witness :
    200 < 256 ∧ 5 < 256 ∧ 5 < 200 ∧
      subtract128 (asInt8 200) = 72 ∧ subtract128 (asInt8 5) = -123 ∧
      subtract128 (asInt8 5) < subtract128 (asInt8 200) :=
  ⟨by decide, by decide, by decide,
    (unsigned_to_signed_conversion.1 200 (by decide)).1,
    (unsigned_to_signed_conversion.1 5 (by decide)).1,
    unsigned_to_signed_conversion.2.1 5 200 (by decide) (by decide) (by decide)⟩

/-! ## Pure DC input -/

/-- The power of a bin of the transform of a windowed constant block, in terms of
the cosine and sine sums of the window. -/
theorem cellPower_dftWith_dc {K : Type} [LinearOrderedField K] (cos sin : K → K) (pi : K)
    (w : Nat → K) (a b : K) (m : Nat) :
    cellPower (dftWith cos sin pi (fun k => windowedPair a b (w k)) m) =
      (a * a + b * b) *
        ((∑ k ∈ Finset.range N, w k * cos (2 * pi * (m : K) * (k : K) / (N : K))) *
            (∑ k ∈ Finset.range N, w k * cos (2 * pi * (m : K) * (k : K) / (N : K)))
          + (∑ k ∈ Finset.range N, w k * sin (2 * pi * (m : K) * (k : K) / (N : K))) *
            (∑ k ∈ Finset.range N, w k * sin (2 * pi * (m : K) * (k : K) / (N : K))))
        / (N : K) := by
  have hRe : (dftWith cos sin pi (fun k => windowedPair a b (w k)) m).1 =
      a * (∑ k ∈ Finset.range N, w k * cos (2 * pi * (m : K) * (k : K) / (N : K)))
        + b * (∑ k ∈ Finset.range N, w k * sin (2 * pi * (m : K) * (k : K) / (N : K))) := by
    simp only [dftWith, windowedPair]
    rw [Finset.mul_sum, Finset.mul_sum, ← Finset.sum_add_distrib]
    refine Finset.sum_congr rfl (fun k _ => ?_)
    ring
  have hIm : (dftWith cos sin pi (fun k => windowedPair a b (w k)) m).2 =
      b * (∑ k ∈ Finset.range N, w k * cos (2 * pi * (m : K) * (k : K) / (N : K)))
        - a * (∑ k ∈ Finset.range N, w k * sin (2 * pi * (m : K) * (k : K) / (N : K))) := by
    simp only [dftWith, windowedPair]
    rw [Finset.mul_sum, Finset.mul_sum, ← Finset.sum_sub_distrib]
    refine Finset.sum_congr rfl (fun k _ => ?_)
    ring
  unfold cellPower
  rw [hRe, hIm]
  ring

/-- The cosine and sine sums of a non-negative window are dominated by its plain
sum, for a cosine and a sine with `cos x * cos y + sin x * sin y ≤ 1`. -/
theorem window_sums_le {K : Type} [LinearOrderedField K] (c s : Nat → K)
    (hcs : ∀ k l, c k * c l + s k * s l ≤ 1) (w : Nat → K)
    (hw : ∀ k, k < N → 0 ≤ w k) :
    (∑ k ∈ Finset.range N, w k * c k) * (∑ k ∈ Finset.range N, w k * c k)
      + (∑ k ∈ Finset.range N, w k * s k) * (∑ k ∈ Finset.range N, w k * s k)
      ≤ (∑ k ∈ Finset.range N, w k) * (∑ k ∈ Finset.range N, w k) := by
  rw [Finset.sum_mul_sum, Finset.sum_mul_sum, Finset.sum_mul_sum, ← Finset.sum_add_distrib]
  apply Finset.sum_le_sum
  intro k hk
  rw [← Finset.sum_add_distrib]
  apply Finset.sum_le_sum
  intro l hl
  have hk' := hw k (Finset.mem_range.1 hk)
  have hl' := hw l (Finset.mem_range.1 hl)
  have h1 := mul_le_mul_of_nonneg_left (hcs k l) (mul_nonneg hk' hl')
  nlinarith [h1]

/-- Pure DC input through a non-negative window: no bin of the transform carries
more power than bin 0. -/
theorem dc_power_le_bin_zero {K : Type} [LinearOrderedField K] (cos sin : K → K) (pi : K)
    (hc0 : cos 0 = 1) (hs0 : sin 0 = 0)
    (hcs : ∀ x y, cos x * cos y + sin x * sin y ≤ 1) (w : Nat → K)
    (hw : ∀ k, k < N → 0 ≤ w k) (a b : K) (m : Nat) :
    cellPower (dftWith cos sin pi (fun k => windowedPair a b (w k)) m) ≤
      cellPower (dftWith cos sin pi (fun k => windowedPair a b (w k)) 0) := by
  rw [cellPower_dftWith_dc cos sin pi w a b m, cellPower_dftWith_dc cos sin pi w a b 0]
  have hN : (0 : K) < (N : K) := by
    rw [N_eq]; norm_num
  have hzero : ∀ k : Nat, 2 * pi * ((0 : Nat) : K) * (k : K) / (N : K) = 0 := by
    intro k; simp
  simp only [hzero, hc0, hs0, mul_one, mul_zero, Finset.sum_const_zero, add_zero]
  apply div_le_div_of_nonneg_right _ (le_of_lt hN)
  apply mul_le_mul_of_nonneg_left _ (add_nonneg (mul_self_nonneg a) (mul_self_nonneg b))
  exact window_sums_le (fun k => cos (2 * pi * (m : K) * (k : K) / (N : K)))
    (fun k => sin (2 * pi * (m : K) * (k : K) / (N : K))) (fun k l => hcs _ _) w hw

/-- The transform reads only the `N` cells of its input. -/
theorem dftWith_congr {K : Type} [Field K] (cos sin : K → K) (pi : K) (x y : Nat → K × K)
    (h : ∀ k, k < N → x k = y k) (m : Nat) :
    dftWith cos sin pi x m = dftWith cos sin pi y m := by
  simp only [dftWith, Prod.mk.injEq]
  constructor <;>
    exact Finset.sum_congr rfl (fun k hk => by rw [h k (Finset.mem_range.1 hk)])

theorem binPower_eq_cellPower (out : ComplexBuffer) (i : Nat) :
    binPower out i = cellPower (out i) := rfl

/-- A cosine with `cos x * cos y + sin x * sin y ≤ 1` is at most 1. -/
theorem cos_le_one_of_mul (cos sin : ℚ → ℚ)
    (hcs : ∀ x y, cos x * cos y + sin x * sin y ≤ 1) (x : ℚ) : cos x ≤ 1 := by
  have h := hcs x x
  nlinarith [mul_self_nonneg (sin x), mul_self_nonneg (cos x - 1)]

/-- On a full block that carries the pair `(a, b)` at every position, with the
transform `dftWith cos sin M_PI` as plan, centered index `j` holds the power
of bin `fftShiftTable[j]` of the transform of the windowed constant. -/
theorem computePowerSpectrum_dc (e : Engine) (he : Constructed e) (cos sin : ℚ → ℚ)
    (hplan : e.fftPlan = dftWith cos sin M_PI) (a b : Int) (sig : Nat → Int)
    (hI : ∀ k, k < N → sig (2 * k) = a) (hQ : ∀ k, k < N → sig (2 * k + 1) = b)
    (len : Nat) (hlen : len = 2 * N) :
    ∃ e', computePowerSpectrum e sig len = some (e', len / 2) ∧
      ∀ j, j < N → e'.spectralPowerBuffer j =
        cellPower (dftWith cos sin M_PI
          (fun k => windowedPair (a : ℚ) (b : ℚ) (e.hanningWindow k)) (e.fftShiftTable j)) := by
  obtain ⟨inp, spec, -, h2, h3, h4⟩ := computePowerSpectrum_spec e he sig len (le_of_eq hlen)
  refine ⟨_, h2, ?_⟩
  intro j hj
  show spec j = _
  have hd := dftWith_congr cos sin M_PI inp
    (fun k => windowedPair (a : ℚ) (b : ℚ) (e.hanningWindow k))
    (fun k hk => by rw [h3 k, if_pos (by omega), hI k hk, hQ k hk]; rfl) (e.fftShiftTable j)
  rw [h4 j, if_pos hj, binPower_eq_cellPower, hplan, hd]

/-- The stand-in pair lies on the unit circle. -/
theorem circle_unit (x : ℚ) : circleCos x * circleCos x + circleSin x * circleSin x = 1 := by
  unfold circleCos circleSin
  have h : (4 + x * x) ≠ 0 := by
    have := mul_self_nonneg x
    intro h0
    linarith
  field_simp
  ring

theorem circleCos_zero : circleCos 0 = 1 := by
  unfold circleCos
  norm_num

theorem circleSin_zero : circleSin 0 = 0 := by
  unfold circleSin
  norm_num

theorem circle_mul_le (x y : ℚ) :
    circleCos x * circleCos y + circleSin x * circleSin y ≤ 1 := by
  nlinarith [circle_unit x, circle_unit y, mul_self_nonneg (circleCos x - circleCos y),
    mul_self_nonneg (circleSin x - circleSin y)]

theorem circleEngine_constructed : Constructed circleEngine :=
  constructed_SpectrumProcessor _ _ _ _

/-! ## The claim on pure DC input -/

/-- Claim C18: for a full block whose `N` I/Q pairs all carry the same constant
`(a, b)`, the power spectrum that `computePowerSpectrum` builds attains its
maximum at centered index `N/2`, `powerSpectrum[N/2] ≥ powerSpectrum[j]` for
every `j < N`: on the engine with the transform `dftWith cos sin M_PI` as plan,
for a cosine and sine with `cos 0 = 1`, `sin 0 = 0` and
`cos x * cos y + sin x * sin y ≤ 1`; and in exact arithmetic, with the real
cosine, sine and pi, where `dftWith` is the exact forward DFT. -/
theorem dc_block_peak_at_center (cos sin : ℚ → ℚ) (hc0 : cos 0 = 1) (hs0 : sin 0 = 0)
    (hcs : ∀ x y, cos x * cos y + sin x * sin y ≤ 1) (e : Engine) (he : Constructed e)
    (hplan : e.fftPlan = dftWith cos sin M_PI)
    (hwin : ∀ k, k < N → e.hanningWindow k = hannWeight cos M_PI k)
    (a b : Int) (sig : Nat → Int)
    (hI : ∀ k, k < N → sig (2 * k) = a) (hQ : ∀ k, k < N → sig (2 * k + 1) = b)
    (len : Nat) (hlen : len = 2 * N) :
    (∃ e', computePowerSpectrum e sig len = some (e', len / 2) ∧
      ∀ j, j < N → e'.spectralPowerBuffer j ≤ e'.spectralPowerBuffer (N / 2)) ∧
    (∀ (x y : ℝ) (j : Nat), j < N →
      cellPower (dftWith Real.cos Real.sin Real.pi
          (fun k => windowedPair x y (hannWeight Real.cos Real.pi k)) (e.fftShiftTable j)) ≤
        cellPower (dftWith Real.cos Real.sin Real.pi
          (fun k => windowedPair x y (hannWeight Real.cos Real.pi k))
          (e.fftShiftTable (N / 2)))) := by
  have hN := N_eq
  have hcenter : e.fftShiftTable (N / 2) = 0 := by
    rw [he.shift (N / 2) (by omega), if_neg (by omega)]; omega
  constructor
  · obtain ⟨e', h1, h2⟩ := computePowerSpectrum_dc e he cos sin hplan a b sig hI hQ len hlen
    refine ⟨e', h1, ?_⟩
    intro j hj
    rw [h2 j hj, h2 (N / 2) (by omega), hcenter]
    apply dc_power_le_bin_zero cos sin M_PI hc0 hs0 hcs
    intro k hk
    rw [hwin k hk]
    unfold hannWeight
    have := cos_le_one_of_mul cos sin hcs ((2 * M_PI * (k : ℚ)) / (N : ℚ))
    linarith
  · intro x y j _
    rw [hcenter]
    apply dc_power_le_bin_zero Real.cos Real.sin Real.pi Real.cos_zero Real.sin_zero
    · intro u v
      rw [← Real.cos_sub]
      exact Real.cos_le_one _
    · intro k _
      exact (hannWeight_real_range k).1

/-- The engine with the unit-circle stand-in on the block whose every value is 1. -/
theorem dc_block_peak_at_center_witness :
    circleCos 0 = 1 ∧ circleSin 0 = 0 ∧
      (∀ x y, circleCos x * circleCos y + circleSin x * circleSin y ≤ 1) ∧
      Constructed circleEngine ∧ 16384 = 2 * N ∧
      ∃ e', computePowerSpectrum circleEngine sampleBlock 16384 = some (e', 16384 / 2) ∧
        ∀ j, j < N → e'.spectralPowerBuffer j ≤ e'.spectralPowerBuffer (N / 2) :=
  ⟨circleCos_zero, circleSin_zero, circle_mul_le, circleEngine_constructed, by decide,
    (dc_block_peak_at_center circleCos circleSin circleCos_zero circleSin_zero circle_mul_le
      circleEngine circleEngine_constructed rfl
      (fun k hk => SpectrumProcessor_hanningWindow _ _ _ _ k hk) 1 1 sampleBlock
      (fun _ _ => rfl) (fun _ _ => rfl) 16384 (by decide)).1⟩

/-! ## Rounding to single precision -/

theorem floor_le_roundHalfEven (x : ℚ) : ⌊x⌋ ≤ roundHalfEven x := by
  unfold roundHalfEven
  split_ifs <;> omega

theorem roundHalfEven_le_floor_add_one (x : ℚ) : roundHalfEven x ≤ ⌊x⌋ + 1 := by
  unfold roundHalfEven
  split_ifs <;> omega

/-- An integer rounds to itself. -/
theorem roundHalfEven_intCast (k : Int) : roundHalfEven (k : ℚ) = k := by
  unfold roundHalfEven
  simp

theorem le_roundHalfEven (x : ℚ) (k : Int) (h : (k : ℚ) ≤ x) : k ≤ roundHalfEven x :=
  le_trans (Int.le_floor.mpr h) (floor_le_roundHalfEven x)

theorem roundHalfEven_le (x : ℚ) (k : Int) (h : x ≤ (k : ℚ)) : roundHalfEven x ≤ k := by
  rcases eq_or_lt_of_le h with h1 | h1
  · rw [h1, roundHalfEven_intCast]
  · have : ⌊x⌋ < k := Int.floor_lt.mpr h1
    have := roundHalfEven_le_floor_add_one x
    omega

/-- Rounding to the nearest integer is monotone. -/
theorem roundHalfEven_mono (x y : ℚ) (h : x ≤ y) : roundHalfEven x ≤ roundHalfEven y := by
  rcases eq_or_lt_of_le (Int.floor_mono h) with hf | hf
  · unfold roundHalfEven
    rw [hf]
    have hxy : x - ⌊y⌋ ≤ y - ⌊y⌋ := by linarith
    split_ifs <;> first | omega | (exfalso; linarith)
  · have h1 := roundHalfEven_le_floor_add_one x
    have h2 := floor_le_roundHalfEven y
    omega

theorem float32Round_zero : float32Round 0 = 0 := by
  simp [float32Round]

/-- The exponent of a value of the binade `2 ^ k ≤ x < 2 ^ (k + 1)`. -/
theorem float32Exponent_of_binade (x : ℚ) (k : Int) (hk : -126 ≤ k) (h1 : (2 : ℚ) ^ k ≤ x)
    (h2 : x < (2 : ℚ) ^ (k + 1)) : float32Exponent x = k := by
  have hx : 0 < x := lt_of_lt_of_le (by positivity) h1
  have hlog : Int.log 2 x = k := by
    apply le_antisymm
    · have := (Int.lt_zpow_iff_log_lt (R := ℚ) (b := 2) (by norm_num) hx (x := k + 1)).mp
        (by exact_mod_cast h2)
      omega
    · exact (Int.zpow_le_iff_le_log (R := ℚ) (b := 2) (by norm_num) hx).mp (by exact_mod_cast h1)
  rw [float32Exponent, abs_of_pos hx, hlog]
  exact max_eq_left hk

theorem float32Exponent_mono (x y : ℚ) (hx : 0 < x) (h : x ≤ y) :
    float32Exponent x ≤ float32Exponent y := by
  rw [float32Exponent, float32Exponent, abs_of_pos hx, abs_of_pos (lt_of_lt_of_le hx h)]
  exact max_le_max (Int.log_mono_right hx h) (le_refl _)

theorem lt_zpow_float32Exponent (x : ℚ) (hx : 0 < x) :
    x < (2 : ℚ) ^ (float32Exponent x + 1) := by
  have h := Int.lt_zpow_succ_log_self (R := ℚ) (b := 2) (by norm_num) x
  refine lt_of_lt_of_le h ?_
  rw [float32Exponent, abs_of_pos hx]
  have : Int.log 2 x + 1 ≤ max (Int.log 2 x) (-126) + 1 := by
    have := le_max_left (Int.log 2 x) (-126)
    omega
  exact_mod_cast zpow_le_zpow_right₀ (by norm_num : (1 : ℚ) ≤ 2) this

theorem float32Round_nonneg (x : ℚ) (h : 0 ≤ x) : 0 ≤ float32Round x := by
  unfold float32Round
  split_ifs with h0
  · exact le_refl 0
  · have hs : (0 : ℚ) < 2 ^ (float32Exponent x - 23) := by positivity
    have hr : (0 : Int) ≤ roundHalfEven (x / 2 ^ (float32Exponent x - 23)) :=
      le_roundHalfEven _ 0 (by simpa using div_nonneg h (le_of_lt hs))
    have : (0 : ℚ) ≤ (roundHalfEven (x / 2 ^ (float32Exponent x - 23)) : ℚ) := by
      exact_mod_cast hr
    exact mul_nonneg this (le_of_lt hs)

theorem zpow_exponent_succ (k : Int) :
    (((2 : Int) ^ 24 : Int) : ℚ) * 2 ^ (k - 23) = (2 : ℚ) ^ (k + 1) := by
  have : k + 1 = 24 + (k - 23) := by ring
  rw [this, zpow_add₀ (by norm_num : (2 : ℚ) ≠ 0)]
  norm_num

theorem zpow_exponent (k : Int) :
    (((2 : Int) ^ 23 : Int) : ℚ) * 2 ^ (k - 23) = (2 : ℚ) ^ k := by
  have : k = 23 + (k - 23) := by ring
  conv_rhs => rw [this, zpow_add₀ (by norm_num : (2 : ℚ) ≠ 0)]
  norm_num

/-- A positive value rounds to at most the next power of two. -/
theorem float32Round_le_zpow (x : ℚ) (hx : 0 < x) :
    float32Round x ≤ (2 : ℚ) ^ (float32Exponent x + 1) := by
  unfold float32Round
  rw [if_neg (ne_of_gt hx)]
  have hs : (0 : ℚ) < 2 ^ (float32Exponent x - 23) := by positivity
  have hq : x / 2 ^ (float32Exponent x - 23) ≤ (((2 : Int) ^ 24 : Int) : ℚ) := by
    rw [div_le_iff₀ hs, zpow_exponent_succ]
    exact le_of_lt (lt_zpow_float32Exponent x hx)
  have hr := roundHalfEven_le _ _ hq
  have hr2 : (roundHalfEven (x / 2 ^ (float32Exponent x - 23)) : ℚ) ≤
      (((2 : Int) ^ 24 : Int) : ℚ) := by
    exact_mod_cast hr
  calc (roundHalfEven (x / 2 ^ (float32Exponent x - 23)) : ℚ) * 2 ^ (float32Exponent x - 23)
      ≤ (((2 : Int) ^ 24 : Int) : ℚ) * 2 ^ (float32Exponent x - 23) :=
        mul_le_mul_of_nonneg_right hr2 (le_of_lt hs)
    _ = (2 : ℚ) ^ (float32Exponent x + 1) := zpow_exponent_succ _

/-- A value at or above the power of two of its exponent rounds to at least that
power. -/
theorem zpow_le_float32Round (x : ℚ) (k : Int) (hk : float32Exponent x = k)
    (h1 : (2 : ℚ) ^ k ≤ x) : (2 : ℚ) ^ k ≤ float32Round x := by
  have hx : 0 < x := lt_of_lt_of_le (by positivity) h1
  unfold float32Round
  rw [if_neg (ne_of_gt hx), hk]
  have hs : (0 : ℚ) < 2 ^ (k - 23) := by positivity
  have hq : (((2 : Int) ^ 23 : Int) : ℚ) ≤ x / 2 ^ (k - 23) := by
    rw [le_div_iff₀ hs, zpow_exponent]
    exact h1
  have hr := le_roundHalfEven _ _ hq
  have hr2 : (((2 : Int) ^ 23 : Int) : ℚ) ≤ (roundHalfEven (x / 2 ^ (k - 23)) : ℚ) := by
    exact_mod_cast hr
  calc (2 : ℚ) ^ k = (((2 : Int) ^ 23 : Int) : ℚ) * 2 ^ (k - 23) := (zpow_exponent k).symm
    _ ≤ _ := mul_le_mul_of_nonneg_right hr2 (le_of_lt hs)

/-- Rounding to single precision is monotone on the non-negative values. -/
theorem float32Round_mono (x y : ℚ) (hx : 0 ≤ x) (h : x ≤ y) :
    float32Round x ≤ float32Round y := by
  rcases eq_or_lt_of_le hx with h0 | hpos
  · rw [← h0, float32Round_zero]
    exact float32Round_nonneg y (le_trans hx h)
  · have hy : 0 < y := lt_of_lt_of_le hpos h
    rcases eq_or_lt_of_le (float32Exponent_mono x y hpos h) with he | he
    · unfold float32Round
      rw [if_neg (ne_of_gt hpos), if_neg (ne_of_gt hy), he]
      have hs : (0 : ℚ) < 2 ^ (float32Exponent y - 23) := by positivity
      have hr := roundHalfEven_mono (x / 2 ^ (float32Exponent y - 23))
        (y / 2 ^ (float32Exponent y - 23)) (div_le_div_of_nonneg_right h (le_of_lt hs))
      have hr2 : (roundHalfEven (x / 2 ^ (float32Exponent y - 23)) : ℚ) ≤
          (roundHalfEven (y / 2 ^ (float32Exponent y - 23)) : ℚ) := by exact_mod_cast hr
      exact mul_le_mul_of_nonneg_right hr2 (le_of_lt hs)
    · have hlog : float32Exponent y = Int.log 2 y := by
        rw [float32Exponent, abs_of_pos hy]
        apply max_eq_left
        by_contra hc
        have h1 : float32Exponent y = -126 := by
          rw [float32Exponent, abs_of_pos hy]
          exact max_eq_right (by omega)
        have h2 : -126 ≤ float32Exponent x := by
          rw [float32Exponent]
          exact le_max_right _ _
        omega
      have hle : (2 : ℚ) ^ (float32Exponent y) ≤ y := by
        rw [hlog]
        exact_mod_cast Int.zpow_log_le_self (R := ℚ) (b := 2) (by norm_num) hy
      calc float32Round x ≤ (2 : ℚ) ^ (float32Exponent x + 1) := float32Round_le_zpow x hpos
        _ ≤ (2 : ℚ) ^ (float32Exponent y) :=
          zpow_le_zpow_right₀ (by norm_num : (1 : ℚ) ≤ 2) (by omega)
        _ ≤ float32Round y := zpow_le_float32Round y _ rfl hle

/-- The rounding of a value of the binade `2 ^ k ≤ x < 2 ^ (k + 1)`. -/
theorem float32Round_of_binade (x : ℚ) (k : Int) (hk : -126 ≤ k) (h1 : (2 : ℚ) ^ k ≤ x)
    (h2 : x < (2 : ℚ) ^ (k + 1)) :
    float32Round x = (roundHalfEven (x / 2 ^ (k - 23)) : ℚ) * 2 ^ (k - 23) := by
  have hx : 0 < x := lt_of_lt_of_le (by positivity) h1
  unfold float32Round
  rw [if_neg (ne_of_gt hx), float32Exponent_of_binade x k hk h1 h2]

/-- A positive integer below `2 ^ 24` is a `float` value. -/
theorem float32Round_natCast (n : Nat) (h1 : 1 ≤ n) (h2 : n < 2 ^ 24) :
    float32Round (n : ℚ) = (n : ℚ) := by
  have hk1 : 2 ^ Nat.log 2 n ≤ n := Nat.pow_log_le_self 2 (by omega)
  have hk2 : n < 2 ^ (Nat.log 2 n + 1) := Nat.lt_pow_succ_log_self (by norm_num) n
  have hk : Nat.log 2 n < 24 := Nat.log_lt_of_lt_pow (by omega) h2
  generalize Nat.log 2 n = k at hk1 hk2 hk
  obtain ⟨d, hd⟩ : ∃ d : Nat, k + d = 23 := ⟨23 - k, by omega⟩
  have hq1 : (2 : ℚ) ^ (k : Int) ≤ (n : ℚ) := by
    rw [zpow_natCast]
    exact_mod_cast hk1
  have hq2 : (n : ℚ) < (2 : ℚ) ^ ((k : Int) + 1) := by
    have : ((k : Int) + 1) = ((k + 1 : Nat) : Int) := by push_cast; ring
    rw [this, zpow_natCast]
    exact_mod_cast hk2
  rw [float32Round_of_binade (n : ℚ) (k : Int) (by omega) hq1 hq2]
  have hsp : (2 : ℚ) ^ ((k : Int) - 23) = 1 / 2 ^ d := by
    have : ((k : Int) - 23) = -((d : Nat) : Int) := by omega
    rw [this, zpow_neg, zpow_natCast, one_div]
  have hquot : (n : ℚ) / 2 ^ ((k : Int) - 23) = (((n * 2 ^ d : Nat) : Int) : ℚ) := by
    rw [hsp]
    push_cast
    field_simp
  rw [hquot, roundHalfEven_intCast, hsp]
  push_cast
  field_simp

theorem float32Round_half_N : float32Round 4096 = 4096 := by
  exact_mod_cast float32Round_natCast 4096 (by norm_num) (by norm_num)

/-- The largest `float` below 4096 is `4096 - 2 ^ (-12)`. -/
theorem float32Round_below_half_N :
    float32Round (4096 - 1 / 4096) = 4096 - 1 / 4096 := by
  rw [float32Round_of_binade (4096 - 1 / 4096) 11 (by norm_num) (by norm_num) (by norm_num)]
  have : (4096 - 1 / 4096 : ℚ) / 2 ^ ((11 : Int) - 23) = ((16777215 : Int) : ℚ) := by
    norm_num [zpow_neg]
  rw [this, roundHalfEven_intCast]
  norm_num [zpow_neg]

/-- The `float` division `72052 / 30.517578125`: the exact quotient 2360.99993...
is within half a spacing (`2 ^ (-13)`) of 2361 and rounds to it. -/
theorem float32Round_example :
    float32Round (72052 / (250000 / 8192)) = 2361 := by
  rw [float32Round_of_binade _ 11 (by norm_num) (by norm_num) (by norm_num)]
  have hq : (72052 / (250000 / 8192) : ℚ) / 2 ^ ((11 : Int) - 23) =
      (72052 * 8192 * 4096 / 250000) := by
    norm_num [zpow_neg]
  have hf : ⌊((72052 * 8192 * 4096 / 250000) : ℚ)⌋ = 9670655 := by
    rw [Int.floor_eq_iff]
    constructor <;> norm_num
  have hr : roundHalfEven ((72052 * 8192 * 4096 / 250000) : ℚ) = 9670656 := by
    unfold roundHalfEven
    rw [hf]
    norm_num
  rw [hq, hr]
  norm_num [zpow_neg]

/-- The single-precision quotient truncates to the floor of the exact quotient or
to one more. -/
theorem floor_float32Round (q : ℚ) (h0 : 0 ≤ q) (h1 : q < 4096) :
    ⌊q⌋₊ ≤ ⌊float32Round q⌋₊ ∧ ⌊float32Round q⌋₊ ≤ ⌊q⌋₊ + 1 := by
  have hfl : ⌊q⌋₊ < 4096 := (Nat.floor_lt h0).2 (by exact_mod_cast h1)
  have hup : float32Round q ≤ ((⌊q⌋₊ + 1 : Nat) : ℚ) := by
    have h := float32Round_mono q ((⌊q⌋₊ + 1 : Nat) : ℚ) h0
      (by push_cast; exact le_of_lt (Nat.lt_floor_add_one q))
    rwa [float32Round_natCast _ (by omega) (by omega)] at h
  constructor
  · rcases Nat.eq_zero_or_pos ⌊q⌋₊ with hz | hp
    · rw [hz]; exact Nat.zero_le _
    · have h := float32Round_mono (⌊q⌋₊ : ℚ) q (Nat.cast_nonneg _) (Nat.floor_le h0)
      rw [float32Round_natCast _ hp (by omega)] at h
      exact Nat.le_floor h
  · exact Nat.floor_le_of_le hup

theorem rounding_id : Rounding id :=
  ⟨fun _ _ _ h => h, rfl, rfl⟩

theorem rounding_float32Round : Rounding float32Round :=
  ⟨float32Round_mono, float32Round_zero, by rw [half_N_cast]; exact float32Round_half_N⟩

/-- A `float` value is a 24-bit integer times a power of two. -/
theorem IsSingle.exists_mantissa (x : ℚ) (h : IsSingle x) :
    ∃ m k : Int, |m| < 2 ^ 24 ∧ x = (m : ℚ) * 2 ^ k := by
  by_cases h0 : x = 0
  · exact ⟨0, 0, by norm_num, by simp [h0]⟩
  · have hfix := h.1
    unfold float32Round at hfix
    rw [if_neg h0] at hfix
    have habs : |x| < (2 : ℚ) ^ (float32Exponent x + 1) := by
      have h1 := lt_zpow_float32Exponent |x| (abs_pos.2 h0)
      have h2 : float32Exponent |x| = float32Exponent x := by
        rw [float32Exponent, float32Exponent, abs_abs]
      rwa [h2] at h1
    generalize float32Exponent x = k at hfix habs
    generalize roundHalfEven (x / 2 ^ (k - 23)) = m at hfix
    refine ⟨m, k - 23, ?_, hfix.symm⟩
    have hs : (0 : ℚ) < 2 ^ (k - 23) := by positivity
    rw [← hfix, ← zpow_exponent_succ, abs_mul, abs_of_pos hs] at habs
    have hm := lt_of_mul_lt_mul_right habs (le_of_lt hs)
    have hm2 : ((|m| : Int) : ℚ) < (((2 : Int) ^ 24 : Int) : ℚ) := by
      rw [Int.cast_abs]
      exact hm
    exact_mod_cast hm2

/-- Two values with 24-bit mantissas in strict order are at least one unit in the
last place apart: the smaller is at most the larger times `1 - 2 ^ (-24)`. -/
theorem mantissa_gap (mx ex my ey : Int) (hmx : |mx| < 2 ^ 24) (hmy : |my| < 2 ^ 24)
    (h : (mx : ℚ) * 2 ^ ex < (my : ℚ) * 2 ^ ey) :
    (mx : ℚ) * 2 ^ ex * 16777216 ≤ (my : ℚ) * 2 ^ ey * 16777215 := by
  rw [abs_lt] at hmx hmy
  have h2 : (2 : ℚ) ≠ 0 := by norm_num
  rcases le_total ex ey with hle | hle
  · obtain ⟨k, hk⟩ := Int.eq_ofNat_of_zero_le (sub_nonneg.mpr hle)
    have hey : ey = (k : Int) + ex := by omega
    have hpow : (2 : ℚ) ^ ey = ((2 ^ k : Int) : ℚ) * 2 ^ ex := by
      rw [hey, zpow_add₀ h2, zpow_natCast]
      push_cast
      ring
    have hs : (0 : ℚ) < 2 ^ ex := by positivity
    rw [hpow] at h ⊢
    have hlt : (mx : ℚ) < ((my * 2 ^ k : Int) : ℚ) := by
      have : (mx : ℚ) * 2 ^ ex < ((my * 2 ^ k : Int) : ℚ) * 2 ^ ex := by
        push_cast
        push_cast at h
        linarith
      exact lt_of_mul_lt_mul_right this (le_of_lt hs)
    have hlt2 : mx < my * 2 ^ k := by exact_mod_cast hlt
    have hint : mx * 16777216 ≤ (my * 2 ^ k) * 16777215 := by
      generalize my * 2 ^ k = Y at hlt2
      omega
    have hq : (mx : ℚ) * 16777216 ≤ ((my * 2 ^ k : Int) : ℚ) * 16777215 := by
      exact_mod_cast hint
    have := mul_le_mul_of_nonneg_right hq (le_of_lt hs)
    push_cast at this ⊢
    linarith
  · obtain ⟨k, hk⟩ := Int.eq_ofNat_of_zero_le (sub_nonneg.mpr hle)
    have hex : ex = (k : Int) + ey := by omega
    have hpow : (2 : ℚ) ^ ex = ((2 ^ k : Int) : ℚ) * 2 ^ ey := by
      rw [hex, zpow_add₀ h2, zpow_natCast]
      push_cast
      ring
    have hs : (0 : ℚ) < 2 ^ ey := by positivity
    rw [hpow] at h ⊢
    have hlt : ((mx * 2 ^ k : Int) : ℚ) < (my : ℚ) := by
      have : ((mx * 2 ^ k : Int) : ℚ) * 2 ^ ey < (my : ℚ) * 2 ^ ey := by
        push_cast
        push_cast at h
        linarith
      exact lt_of_mul_lt_mul_right this (le_of_lt hs)
    have hlt2 : mx * 2 ^ k < my := by exact_mod_cast hlt
    have hint : (mx * 2 ^ k) * 16777216 ≤ my * 16777215 := by
      generalize mx * 2 ^ k = X at hlt2
      omega
    have hq : ((mx * 2 ^ k : Int) : ℚ) * 16777216 ≤ (my : ℚ) * 16777215 := by
      exact_mod_cast hint
    have := mul_le_mul_of_nonneg_right hq (le_of_lt hs)
    push_cast at this ⊢
    linarith

/-- A `float` bandwidth below half a `float` sample rate is at most
`(sampleRate / 2) * (1 - 2 ^ (-24))`. -/
theorem IsSingle.lt_half (b r : ℚ) (hb : IsSingle b) (hr : IsSingle r) (h : b < r / 2) :
    b * 16777216 ≤ r / 2 * 16777215 := by
  obtain ⟨mb, eb, hmb, rfl⟩ := IsSingle.exists_mantissa b hb
  obtain ⟨mr, er, hmr, rfl⟩ := IsSingle.exists_mantissa r hr
  have hhalf : (mr : ℚ) * 2 ^ er / 2 = (mr : ℚ) * 2 ^ (er - 1) := by
    rw [zpow_sub_one₀ (by norm_num : (2 : ℚ) ≠ 0)]
    ring
  rw [hhalf] at h ⊢
  exact mantissa_gap mb eb mr (er - 1) hmb hmr h

theorem isSingle_natCast (n : Nat) (h1 : 1 ≤ n) (h2 : n < 2 ^ 24) : IsSingle (n : ℚ) := by
  refine ⟨float32Round_natCast n h1 h2, ?_⟩
  rw [abs_of_nonneg (Nat.cast_nonneg n)]
  have h3 : (n : ℚ) < ((2 ^ 24 : Nat) : ℚ) := by exact_mod_cast h2
  refine lt_trans h3 ?_
  norm_num

/-! ## The summation loop with the reads behind the buffer -/

theorem readPower_of_lt (beyond : Nat → Option ℚ) (buf : Nat → ℚ) (i : Nat) (h : i < N) :
    readPower beyond buf i = some (buf i) := by
  unfold readPower
  rw [if_pos h]

theorem readPower_of_ge (beyond : Nat → Option ℚ) (buf : Nat → ℚ) (i : Nat) (h : N ≤ i) :
    readPower beyond buf i = beyond i := by
  unfold readPower
  rw [if_neg (by omega)]

/-- With the upper bin inside the buffer no cell behind it is read and the loop
returns the accumulated sum. -/
theorem sumLoopWith_spec (beyond : Nat → Option ℚ) (buf : Nat → ℚ) (upper : Nat) (hu : upper < N)
    (n : Nat) :
    ∀ (i : Nat) (acc : ℚ), upper + 1 - i = n →
      sumLoopWith beyond buf upper i acc = some (acc + ∑ k ∈ Finset.Icc i upper, buf k) := by
  induction n with
  | zero =>
    intro i acc hn
    rw [sumLoopWith, if_neg (by omega), Finset.Icc_eq_empty (by omega), Finset.sum_empty, add_zero]
  | succ n ih =>
    intro i acc hn
    have hi : i ≤ upper := by omega
    rw [sumLoopWith, if_pos hi, readPower_of_lt beyond buf i (by omega)]
    simp only []
    rw [ih (i + 1) _ (by omega),
      Finset.Icc_eq_cons_Ioc hi, Finset.sum_cons, ← Nat.Icc_succ_left, add_assoc]

/-- A value that the loop returns is the accumulated sum of the cells it read. -/
theorem sumLoopWith_value (beyond : Nat → Option ℚ) (buf : Nat → ℚ) (upper : Nat) (n : Nat) :
    ∀ (i : Nat) (acc p : ℚ), upper + 1 - i = n →
      sumLoopWith beyond buf upper i acc = some p →
      p = acc + ∑ k ∈ Finset.Icc i upper, (readPower beyond buf k).getD 0 := by
  induction n with
  | zero =>
    intro i acc p hn h
    rw [sumLoopWith, if_neg (by omega)] at h
    rw [Finset.Icc_eq_empty (by omega), Finset.sum_empty, add_zero]
    exact (Option.some.inj h).symm
  | succ n ih =>
    intro i acc p hn h
    have hi : i ≤ upper := by omega
    rw [sumLoopWith, if_pos hi] at h
    cases hr : readPower beyond buf i with
    | none => rw [hr] at h; exact absurd h (by simp)
    | some v =>
      rw [hr] at h
      simp only [] at h
      rw [ih (i + 1) _ p (by omega) h,
        Finset.Icc_eq_cons_Ioc hi, Finset.sum_cons, ← Nat.Icc_succ_left, hr, Option.getD_some,
        add_assoc]

/-- With no defined read behind the buffer the loop is `sumLoop`. -/
theorem sumLoopWith_strict (buf : Nat → ℚ) (upper : Nat) (n : Nat) :
    ∀ (i : Nat) (acc : ℚ), upper + 1 - i = n →
      sumLoopWith (fun _ => none) buf upper i acc = sumLoop buf upper i acc := by
  induction n with
  | zero =>
    intro i acc hn
    rw [sumLoopWith, sumLoop, if_neg (by omega), if_neg (by omega)]
  | succ n ih =>
    intro i acc hn
    have hi : i ≤ upper := by omega
    rw [sumLoopWith, sumLoop, if_pos hi, if_pos hi]
    by_cases hiN : i < N
    · rw [readPower_of_lt _ buf i hiN, if_pos hiN]
      simp only []
      exact ih (i + 1) _ (by omega)
    · rw [readPower_of_ge _ buf i (by omega), if_neg hiN]

/-- With the upper bin at `N` and a readable cell behind the buffer the loop
returns the sum of the buffer from `i` on plus the content of that cell. -/
theorem sumLoopWith_full (beyond : Nat → Option ℚ) (buf : Nat → ℚ) (v : ℚ)
    (hv : beyond N = some v) (n : Nat) :
    ∀ (i : Nat) (acc : ℚ), N - i = n → i ≤ N →
      sumLoopWith beyond buf N i acc = some (acc + (∑ k ∈ Finset.Ico i N, buf k) + v) := by
  induction n with
  | zero =>
    intro i acc hn hi
    have hiN : i = N := by omega
    subst hiN
    rw [sumLoopWith, if_pos (le_refl _), readPower_of_ge beyond buf _ (le_refl _), hv]
    simp only []
    rw [sumLoopWith, if_neg (by omega), Finset.Ico_self, Finset.sum_empty, add_zero]
  | succ n ih =>
    intro i acc hn hi
    have hiN : i < N := by omega
    rw [sumLoopWith, if_pos hi, readPower_of_lt beyond buf i hiN]
    simp only []
    rw [ih (i + 1) _ (by omega) (by omega), Finset.sum_eq_sum_Ico_succ_bot hiN,
      Option.some.injEq]
    ring

/-- Every cell that the summation reads holds a non-negative value when the buffer
and the cells behind it do. -/
theorem readPower_nonneg (beyond : Nat → Option ℚ) (hbey : ∀ i v, beyond i = some v → 0 ≤ v)
    (buf : Nat → ℚ) (hbuf : ∀ k, k < N → 0 ≤ buf k) (k : Nat) :
    0 ≤ (readPower beyond buf k).getD 0 := by
  by_cases hk : k < N
  · rw [readPower_of_lt beyond buf k hk]
    exact hbuf k hk
  · rw [readPower_of_ge beyond buf k (by omega)]
    cases hb : beyond k with
    | none => exact le_refl 0
    | some v => exact hbey k v hb

theorem adjacentCell_N (t : Nat → Nat) (ht : t 0 < 2 ^ 23) :
    adjacentCell t N = some ((t 0 : ℚ) * 2 ^ (-149 : Int)) := by
  unfold adjacentCell
  rw [if_pos ⟨rfl, ht⟩]

theorem adjacentCell_nonneg (t : Nat → Nat) (i : Nat) (v : ℚ) (h : adjacentCell t i = some v) :
    0 ≤ v := by
  unfold adjacentCell at h
  split_ifs at h
  rw [← Option.some.inj h]
  positivity

/-- On a constructed engine the cell behind the spectrum holds
`fftShiftTable[0] = N / 2 = 4096`, read as the `float` `4096 * 2 ^ (-149)`. -/
theorem adjacentCell_constructed (e : Engine) (he : Constructed e) :
    adjacentCell e.fftShiftTable N = some (4096 * 2 ^ (-149 : Int)) := by
  have hN := N_eq
  have h0 : e.fftShiftTable 0 = 4096 := by
    rw [he.shift 0 (by omega), if_pos (by omega)]
    omega
  rw [adjacentCell_N _ (by rw [h0]; norm_num), h0]
  norm_num

/-! ## `computeSpectralPowerWith` as a whole -/

/-- The embedding `computeSpectralPower` is the instance with the exact quotient
and no defined read behind the buffer. -/
theorem computeSpectralPowerWith_exact (e : Engine) (b : ℚ) (sig : Nat → Int) (len : Nat) :
    lowpassSpanWith id e b = lowpassSpan e b ∧
    computeSpectralPowerWith id (fun _ => none) e b sig len =
      computeSpectralPower e b sig len := by
  have hs : lowpassSpanWith id e b = lowpassSpan e b := rfl
  refine ⟨hs, ?_⟩
  unfold computeSpectralPowerWith computeSpectralPower
  rw [hs]
  cases lowpassSpan e b with
  | none => rfl
  | some s =>
    simp only []
    cases computePowerSpectrum e sig len with
    | none => rfl
    | some r =>
      obtain ⟨e', n⟩ := r
      simp only []
      simp only [sumLoopWith_strict e'.spectralPowerBuffer (upperBinIndex s) _ (lowerBinIndex s)
        0 rfl]

theorem clipBandwidth_range (e : Engine) (he : Constructed e) (b : ℚ) (h0 : 0 ≤ b) :
    0 ≤ clipBandwidth e b ∧ clipBandwidth e b ≤ e.sampleRate / 2 := by
  have hpos := he.rate_pos
  unfold clipBandwidth
  split_ifs with h
  · exact ⟨by linarith, le_refl _⟩
  · exact ⟨h0, not_lt.1 h⟩

theorem clipBandwidth_mono (e : Engine) (b1 b2 : ℚ) (h12 : b1 ≤ b2) :
    clipBandwidth e b1 ≤ clipBandwidth e b2 := by
  unfold clipBandwidth
  split_ifs with ha hb hb
  · exact le_refl _
  · linarith
  · exact not_lt.1 ha
  · exact h12

/-- The span of a non-negative bandwidth under a rounding of the quotient: the
floor of the rounded quotient, at most `N / 2`. -/
theorem lowpassSpanWith_of_nonneg (fl : ℚ → ℚ) (hfl : Rounding fl) (e : Engine)
    (he : Constructed e) (b : ℚ) (h0 : 0 ≤ b) :
    lowpassSpanWith fl e b = some ⌊fl (clipBandwidth e b / e.fftBinResolutionInHz)⌋₊ ∧
      0 ≤ fl (clipBandwidth e b / e.fftBinResolutionInHz) ∧
      ⌊fl (clipBandwidth e b / e.fftBinResolutionInHz)⌋₊ ≤ N / 2 := by
  have hres := resolution_pos e he
  obtain ⟨hc0, hc1⟩ := clipBandwidth_range e he b h0
  have hq0 : 0 ≤ clipBandwidth e b / e.fftBinResolutionInHz := div_nonneg hc0 (le_of_lt hres)
  have hq1 : clipBandwidth e b / e.fftBinResolutionInHz ≤ ((N / 2 : Nat) : ℚ) :=
    (quotient_le_iff e he _).1.2 hc1
  have hf0 : 0 ≤ fl (clipBandwidth e b / e.fftBinResolutionInHz) := by
    have := hfl.mono 0 _ (le_refl 0) hq0
    rwa [hfl.zero] at this
  have hf1 : fl (clipBandwidth e b / e.fftBinResolutionInHz) ≤ ((N / 2 : Nat) : ℚ) := by
    have := hfl.mono _ _ hq0 hq1
    rwa [hfl.half] at this
  refine ⟨?_, hf0, Nat.floor_le_of_le hf1⟩
  unfold lowpassSpanWith
  rw [if_neg (ne_of_gt hres)]
  apply toUint32_of_nonneg _ hf0
  rw [half_N_cast] at hf1
  exact lt_of_le_of_lt hf1 (by norm_num)

/-- The clip makes the call depend on the bandwidth only through its clipped value. -/
theorem computeSpectralPowerWith_congr (fl : ℚ → ℚ) (beyond : Nat → Option ℚ) (e : Engine)
    (sig : Nat → Int) (len : Nat) (b c : ℚ) (h : clipBandwidth e b = clipBandwidth e c) :
    lowpassSpanWith fl e b = lowpassSpanWith fl e c ∧
      computeSpectralPowerWith fl beyond e b sig len =
        computeSpectralPowerWith fl beyond e c sig len := by
  have hs : lowpassSpanWith fl e b = lowpassSpanWith fl e c := by
    unfold lowpassSpanWith
    rw [h]
  refine ⟨hs, ?_⟩
  unfold computeSpectralPowerWith
  rw [hs]

/-- What a returning call has computed: a span, the state that
`computePowerSpectrum` leaves and the sum of the cells read. -/
theorem computeSpectralPowerWith_value (fl : ℚ → ℚ) (beyond : Nat → Option ℚ) (e e' : Engine)
    (b p : ℚ) (sig : Nat → Int) (len : Nat)
    (h : computeSpectralPowerWith fl beyond e b sig len = some (e', p)) :
    ∃ s n, lowpassSpanWith fl e b = some s ∧ computePowerSpectrum e sig len = some (e', n) ∧
      p = ∑ k ∈ Finset.Icc (lowerBinIndex s) (upperBinIndex s),
        (readPower beyond e'.spectralPowerBuffer k).getD 0 := by
  unfold computeSpectralPowerWith at h
  cases h1 : lowpassSpanWith fl e b with
  | none => rw [h1] at h; exact absurd h (by simp)
  | some s =>
    rw [h1] at h
    simp only [] at h
    cases h2 : computePowerSpectrum e sig len with
    | none => rw [h2] at h; exact absurd h (by simp)
    | some r =>
      obtain ⟨e'', n⟩ := r
      rw [h2] at h
      simp only [] at h
      cases h3 : sumLoopWith beyond e''.spectralPowerBuffer (upperBinIndex s)
          (lowerBinIndex s) 0 with
      | none => rw [h3] at h; exact absurd h (by simp)
      | some q =>
        rw [h3] at h
        simp only [Option.some.injEq, Prod.mk.injEq] at h
        obtain ⟨h4, h5⟩ := h
        subst h4
        subst h5
        refine ⟨s, n, rfl, rfl, ?_⟩
        have := sumLoopWith_value beyond e''.spectralPowerBuffer (upperBinIndex s) _
          (lowerBinIndex s) 0 q rfl h3
        rw [this, zero_add]

/-- With a span below `N / 2` no cell behind the buffer is read: the returned power
is the sum of the spectrum over the bins `N/2 - span .. N/2 + span`. -/
theorem computeSpectralPowerWith_eq_map (fl : ℚ → ℚ) (beyond : Nat → Option ℚ) (e : Engine)
    (sig : Nat → Int) (len : Nat) (b : ℚ) (s : Nat) (hs : lowpassSpanWith fl e b = some s)
    (hsN : s < N / 2) :
    computeSpectralPowerWith fl beyond e b sig len =
      (computePowerSpectrum e sig len).map
        (fun r => (r.1, ∑ j ∈ Finset.Icc (N / 2 - s) (N / 2 + s), r.1.spectralPowerBuffer j)) := by
  have hN := N_eq
  unfold computeSpectralPowerWith
  rw [hs]
  simp only []
  cases hc : computePowerSpectrum e sig len with
  | none => rfl
  | some p =>
    obtain ⟨e', n⟩ := p
    simp only [Option.map_some']
    rw [lowerBinIndex_of_le s (by omega), upperBinIndex_of_le s (by omega),
      sumLoopWith_spec beyond e'.spectralPowerBuffer (N / 2 + s) (by omega) _ _ _ rfl, zero_add]

/-- With the span `N / 2` the loop runs over the bins `0 .. N`: the returned power
is the sum of the whole spectrum plus the content of the cell behind it. -/
theorem computeSpectralPowerWith_full (fl : ℚ → ℚ) (beyond : Nat → Option ℚ) (e : Engine)
    (sig : Nat → Int) (len : Nat) (b : ℚ) (s : Nat) (hs : lowpassSpanWith fl e b = some s)
    (hsN : s = N / 2) (v : ℚ) (hv : beyond N = some v) :
    computeSpectralPowerWith fl beyond e b sig len =
      (computePowerSpectrum e sig len).map
        (fun r => (r.1, ∑ j ∈ Finset.range N, r.1.spectralPowerBuffer j + v)) := by
  have hN := N_eq
  have hlow : lowerBinIndex s = 0 := by rw [lowerBinIndex_of_le s (by omega)]; omega
  have hup : upperBinIndex s = N := by rw [upperBinIndex_of_le s (by omega)]; omega
  unfold computeSpectralPowerWith
  rw [hs]
  simp only []
  cases hc : computePowerSpectrum e sig len with
  | none => rfl
  | some p =>
    obtain ⟨e', n⟩ := p
    simp only [Option.map_some']
    rw [hlow, hup, sumLoopWith_full beyond e'.spectralPowerBuffer v hv _ 0 0 rfl (Nat.zero_le _),
      zero_add, Finset.range_eq_Ico]

/-- At or above the Nyquist limit the span is `N / 2` under every rounding that
leaves `N / 2` unchanged. -/
theorem lowpassSpanWith_nyquist (fl : ℚ → ℚ) (hfl : Rounding fl) (e : Engine)
    (he : Constructed e) (b : ℚ) (hb : e.sampleRate / 2 ≤ b) :
    lowpassSpanWith fl e b = some (N / 2) := by
  have hres := resolution_pos e he
  have hpos := he.rate_pos
  have hq : e.sampleRate / 2 / e.fftBinResolutionInHz = ((N / 2 : Nat) : ℚ) := by
    rw [half_N_cast, div_eq_iff (ne_of_gt hres), he.resolution, N_cast]
    ring
  rw [(lowpassSpanWith_of_nonneg fl hfl e he b (by linarith)).1, clipBandwidth_of_ge e b hb, hq,
    hfl.half, Nat.floor_natCast]

/-- A call at a non-negative bandwidth on a block of at most `2 * N` values
returns, provided the rounded quotient stays below `N / 2` or the cell behind
the buffer can be read. -/
theorem computeSpectralPowerWith_returns (fl : ℚ → ℚ) (hfl : Rounding fl)
    (beyond : Nat → Option ℚ) (e : Engine) (he : Constructed e) (sig : Nat → Int) (len : Nat)
    (hlen : len ≤ 2 * N) (b : ℚ) (h0 : 0 ≤ b)
    (hread : fl (clipBandwidth e b / e.fftBinResolutionInHz) < ((N / 2 : Nat) : ℚ) ∨
      ∃ v, beyond N = some v) :
    ∃ e' p, computePowerSpectrum e sig len = some (e', len / 2) ∧
      computeSpectralPowerWith fl beyond e b sig len = some (e', p) := by
  obtain ⟨hs, hf0, hle⟩ := lowpassSpanWith_of_nonneg fl hfl e he b h0
  obtain ⟨e', hc⟩ := computePowerSpectrum_returns e he sig len hlen
  rcases Nat.lt_or_ge ⌊fl (clipBandwidth e b / e.fftBinResolutionInHz)⌋₊ (N / 2) with hlt | hge
  · refine ⟨e', ∑ j ∈ Finset.Icc (N / 2 - ⌊fl (clipBandwidth e b / e.fftBinResolutionInHz)⌋₊)
      (N / 2 + ⌊fl (clipBandwidth e b / e.fftBinResolutionInHz)⌋₊), e'.spectralPowerBuffer j,
      hc, ?_⟩
    rw [computeSpectralPowerWith_eq_map fl beyond e sig len b _ hs hlt, hc]
    simp only [Option.map_some']
  · rcases hread with hr | ⟨v, hv⟩
    · exact absurd ((Nat.floor_lt hf0).2 hr) (by omega)
    · refine ⟨e', ∑ j ∈ Finset.range N, e'.spectralPowerBuffer j + v, hc, ?_⟩
      rw [computeSpectralPowerWith_full fl beyond e sig len b _ hs (by omega) v hv, hc]
      simp only [Option.map_some']

/-- Every value a call returns is non-negative when the cells behind the buffer
hold non-negative values. -/
theorem computeSpectralPowerWith_value_nonneg (fl : ℚ → ℚ) (beyond : Nat → Option ℚ)
    (hbey : ∀ i v, beyond i = some v → 0 ≤ v) (e e' : Engine) (he : Constructed e) (b p : ℚ)
    (sig : Nat → Int) (len : Nat)
    (h : computeSpectralPowerWith fl beyond e b sig len = some (e', p)) : 0 ≤ p := by
  obtain ⟨s, n, -, h2, h3⟩ := computeSpectralPowerWith_value fl beyond e e' b p sig len h
  rw [h3]
  exact Finset.sum_nonneg (fun k _ => readPower_nonneg beyond hbey _
    (computePowerSpectrum_nonneg e e' he sig len n h2) k)

/-- A wider band sums a superset of cells, all non-negative. -/
theorem computeSpectralPowerWith_mono_of_returns (fl : ℚ → ℚ) (hfl : Rounding fl)
    (beyond : Nat → Option ℚ) (hbey : ∀ i v, beyond i = some v → 0 ≤ v) (e : Engine)
    (he : Constructed e) (sig : Nat → Int) (len : Nat) (b1 b2 : ℚ) (h0 : 0 ≤ b1)
    (h12 : b1 ≤ b2) (e1 e2 : Engine) (p1 p2 : ℚ)
    (hc1 : computeSpectralPowerWith fl beyond e b1 sig len = some (e1, p1))
    (hc2 : computeSpectralPowerWith fl beyond e b2 sig len = some (e2, p2)) : p1 ≤ p2 := by
  have hN := N_eq
  have hres := resolution_pos e he
  obtain ⟨s1, n1, hs1, hd1, hp1⟩ := computeSpectralPowerWith_value fl beyond e e1 b1 p1 sig len hc1
  obtain ⟨s2, n2, hs2, hd2, hp2⟩ := computeSpectralPowerWith_value fl beyond e e2 b2 p2 sig len hc2
  have hee : e1 = e2 := by
    rw [hd1] at hd2
    simp only [Option.some.injEq, Prod.mk.injEq] at hd2
    exact hd2.1
  subst hee
  obtain ⟨ht1, hf1, hle1⟩ := lowpassSpanWith_of_nonneg fl hfl e he b1 h0
  obtain ⟨ht2, hf2, hle2⟩ := lowpassSpanWith_of_nonneg fl hfl e he b2 (le_trans h0 h12)
  rw [ht1] at hs1
  rw [ht2] at hs2
  have hs1n := Option.some.inj hs1
  have hs2n := Option.some.inj hs2
  have hmono : s1 ≤ s2 := by
    rw [← hs1n, ← hs2n]
    exact Nat.floor_mono (hfl.mono _ _
      (div_nonneg (clipBandwidth_range e he b1 h0).1 (le_of_lt hres))
      ((div_le_div_iff_of_pos_right hres).2 (clipBandwidth_mono e b1 b2 h12)))
  have hs2N : s2 ≤ N / 2 := by rw [← hs2n]; exact hle2
  rw [hp1, hp2, lowerBinIndex_of_le s1 (by omega), upperBinIndex_of_le s1 (by omega),
    lowerBinIndex_of_le s2 hs2N, upperBinIndex_of_le s2 hs2N]
  apply Finset.sum_le_sum_of_subset_of_nonneg
  · exact Finset.Icc_subset_Icc (by omega) (by omega)
  · intro k _ _
    exact readPower_nonneg beyond hbey _ (computePowerSpectrum_nonneg e e1 he sig len n1 hd1) k

/-! ## The single-precision span -/

theorem sampleEngine250_constructed : Constructed sampleEngine250 :=
  constructed_SpectrumProcessor sampleCos sampleDft zeroMemory 250000

/-- The engine at 250000 S/s has 30.517578125 Hz per bin. -/
theorem sampleEngine250_rate :
    sampleEngine250.sampleRate = 250000 ∧
      sampleEngine250.fftBinResolutionInHz = 250000 / 8192 := by
  have h1 : sampleEngine250.sampleRate = 250000 := by
    show (if (250000 : ℚ) ≤ 0 then (256000 : ℚ) else 250000) = 250000
    norm_num
  refine ⟨h1, ?_⟩
  rw [sampleEngine250_constructed.resolution, h1, N_cast]

theorem sampleEngine_isSingle : IsSingle sampleEngine.sampleRate := by
  rw [sampleEngine_rate.1]
  exact_mod_cast isSingle_natCast 256000 (by norm_num) (by norm_num)

/-- For `float` values the quotient of a bandwidth below the Nyquist limit by the
resolution is at most `4096 - 2 ^ (-12)`, the largest `float` below `N / 2`. -/
theorem quotient_le_of_isSingle (e : Engine) (he : Constructed e) (hsr : IsSingle e.sampleRate)
    (b : ℚ) (hbs : IsSingle b) (hb : b < e.sampleRate / 2) :
    b / e.fftBinResolutionInHz ≤ 4096 - 1 / 4096 := by
  have hres := resolution_pos e he
  have hgap := IsSingle.lt_half b e.sampleRate hbs hsr hb
  rw [div_le_iff₀ hres, he.resolution, N_cast]
  linarith

/-- The span that the `float` division gives a `float` bandwidth below the Nyquist
limit: the floor of the rounded quotient, below `N / 2`, and the floor of the
exact quotient or one more. -/
theorem lowpassSpanWith_single (e : Engine) (he : Constructed e) (hsr : IsSingle e.sampleRate)
    (b : ℚ) (hbs : IsSingle b) (hb0 : 0 ≤ b) (hb : b < e.sampleRate / 2) :
    lowpassSpanWith float32Round e b = some ⌊float32Round (b / e.fftBinResolutionInHz)⌋₊ ∧
      float32Round (b / e.fftBinResolutionInHz) < ((N / 2 : Nat) : ℚ) ∧
      ⌊float32Round (b / e.fftBinResolutionInHz)⌋₊ < N / 2 ∧
      ⌊b / e.fftBinResolutionInHz⌋₊ ≤ ⌊float32Round (b / e.fftBinResolutionInHz)⌋₊ ∧
      ⌊float32Round (b / e.fftBinResolutionInHz)⌋₊ ≤ ⌊b / e.fftBinResolutionInHz⌋₊ + 1 := by
  have hres := resolution_pos e he
  have hq0 : 0 ≤ b / e.fftBinResolutionInHz := div_nonneg hb0 (le_of_lt hres)
  have hq1 := quotient_le_of_isSingle e he hsr b hbs hb
  have hf1 : float32Round (b / e.fftBinResolutionInHz) < ((N / 2 : Nat) : ℚ) := by
    have := float32Round_mono _ _ hq0 hq1
    rw [float32Round_below_half_N] at this
    rw [half_N_cast]
    linarith
  obtain ⟨hs, hf0, -⟩ := lowpassSpanWith_of_nonneg float32Round rounding_float32Round e he b hb0
  rw [clipBandwidth_of_le e b (le_of_lt hb)] at hs hf0
  obtain ⟨hlo, hhi⟩ := floor_float32Round (b / e.fftBinResolutionInHz) hq0 (by linarith)
  exact ⟨hs, hf1, (Nat.floor_lt hf0).2 hf1, hlo, hhi⟩

/-- The largest `float` below 1 is `1 - 2 ^ (-24)`. -/
theorem float32Round_below_one :
    float32Round (16777215 / 16777216) = 16777215 / 16777216 := by
  rw [float32Round_of_binade (16777215 / 16777216) (-1) (by norm_num) (by norm_num [zpow_neg])
    (by norm_num)]
  have : (16777215 / 16777216 : ℚ) / 2 ^ ((-1 : Int) - 23) = ((16777215 : Int) : ℚ) := by
    norm_num [zpow_neg]
  rw [this, roundHalfEven_intCast]
  norm_num [zpow_neg]

/-- A `float` bandwidth below one bin has span zero in single precision too: the
quotient of two `float` values in strict order does not round up to 1. -/
theorem lowpassSpanWith_single_zero (e : Engine) (he : Constructed e)
    (hsr : IsSingle e.sampleRate) (b : ℚ) (hbs : IsSingle b) (hb0 : 0 ≤ b)
    (hb : b < e.fftBinResolutionInHz) : lowpassSpanWith float32Round e b = some 0 := by
  have hres := resolution_pos e he
  have hpos := he.rate_pos
  have hr := he.resolution
  rw [N_cast] at hr
  have hle : b ≤ e.sampleRate / 2 := by
    rw [hr] at hb
    linarith
  have hgap : b * 16777216 ≤ e.fftBinResolutionInHz * 16777215 := by
    obtain ⟨mb, eb, hmb, hbm⟩ := IsSingle.exists_mantissa b hbs
    obtain ⟨mr, er, hmr, hrm⟩ := IsSingle.exists_mantissa e.sampleRate hsr
    have hscale : e.fftBinResolutionInHz = (mr : ℚ) * 2 ^ (er - 13) := by
      rw [hr, hrm, zpow_sub₀ (by norm_num : (2 : ℚ) ≠ 0)]
      norm_num
      ring
    rw [hscale, hbm] at hb ⊢
    exact mantissa_gap mb eb mr (er - 13) hmb hmr hb
  have hq0 : 0 ≤ b / e.fftBinResolutionInHz := div_nonneg hb0 (le_of_lt hres)
  have hq1 : b / e.fftBinResolutionInHz ≤ 16777215 / 16777216 := by
    rw [div_le_iff₀ hres]
    linarith
  obtain ⟨hs, hf0, -⟩ := lowpassSpanWith_of_nonneg float32Round rounding_float32Round e he b hb0
  rw [clipBandwidth_of_le e b hle] at hs hf0
  rw [hs]
  congr 1
  rw [Nat.floor_eq_zero]
  have := float32Round_mono _ _ hq0 hq1
  rw [float32Round_below_one] at this
  linarith

/-- The `float` quotient `-1.0` is exact. -/
theorem float32Round_neg_one : float32Round (-1) = -1 := by
  have he : float32Exponent (-1) = 0 := by
    unfold float32Exponent
    rw [abs_neg, abs_one, Int.log_one_right]
    rfl
  unfold float32Round
  rw [if_neg (by norm_num), he]
  have hq : (-1 : ℚ) / 2 ^ ((0 : Int) - 23) = ((-8388608 : Int) : ℚ) := by
    norm_num [zpow_neg]
  rw [hq, roundHalfEven_intCast]
  norm_num [zpow_neg]

/-- Claim C9, at the failing input: at bandwidth -31.25 Hz on the engine at
256000 S/s the quotient is -1.0, exactly and in single precision alike. Its
conversion to the unsigned span has no value, so the span is not 0 and the call
does not return the center-bin power, although a block of this length is
processed and the spectrum has a center bin. -/
theorem computeSpectralPower_negative_span_undefined :
    (-(125 / 4) : ℚ) < 0 ∧
      (-(125 / 4) : ℚ) / sampleEngine.fftBinResolutionInHz = -1 ∧
      float32Round (-(125 / 4) / sampleEngine.fftBinResolutionInHz) = -1 ∧
      toUint32 (-1) = none ∧
      lowpassSpan sampleEngine (-(125 / 4)) ≠ some 0 ∧
      lowpassSpanWith float32Round sampleEngine (-(125 / 4)) ≠ some 0 ∧
      (¬ ∃ e', computeSpectralPower sampleEngine (-(125 / 4)) sampleBlock 16384 =
        some (e', e'.spectralPowerBuffer (N / 2))) ∧
      (∀ beyond : Nat → Option ℚ,
        ¬ ∃ e', computeSpectralPowerWith float32Round beyond sampleEngine (-(125 / 4))
          sampleBlock 16384 = some (e', e'.spectralPowerBuffer (N / 2))) ∧
      ∃ e', computePowerSpectrum sampleEngine sampleBlock 16384 = some (e', 16384 / 2) := by
  have hN := N_eq
  have hres := sampleEngine_rate.2
  have hb : (-(125 / 4) : ℚ) ≤ -sampleEngine.fftBinResolutionInHz := by
    rw [hres]
  obtain ⟨h1, h2⟩ :=
    computeSpectralPower_negative sampleEngine sampleEngine_constructed sampleBlock 16384 _ hb
  have hq : (-(125 / 4) : ℚ) / sampleEngine.fftBinResolutionInHz = -1 := by
    rw [hres]
    norm_num
  have hfl : float32Round (-(125 / 4) / sampleEngine.fftBinResolutionInHz) = -1 := by
    rw [hq]
    exact float32Round_neg_one
  have hcast : toUint32 (-1) = none := toUint32_of_le_neg_one (-1) (le_refl _)
  have hspan : lowpassSpanWith float32Round sampleEngine (-(125 / 4)) = none := by
    unfold lowpassSpanWith
    rw [if_neg (by rw [hres]; norm_num),
      clipBandwidth_of_le sampleEngine _ (by rw [sampleEngine_rate.1]; norm_num), hfl, hcast]
  refine ⟨by norm_num, hq, hfl, hcast, ?_, ?_, ?_, ?_,
    computePowerSpectrum_returns sampleEngine sampleEngine_constructed sampleBlock 16384
      (by omega)⟩
  · rw [h1]; simp
  · rw [hspan]; simp
  · rw [h2]; simp
  · intro beyond
    have hnone : computeSpectralPowerWith float32Round beyond sampleEngine (-(125 / 4))
        sampleBlock 16384 = none := by
      unfold computeSpectralPowerWith
      rw [hspan]
    rw [hnone]
    simp

/-! ## The claims on the band sum, the clamp, monotonicity and non-negativity -/

/-- Claim C2 fails at bandwidth 72052 Hz on the engine at 250000 S/s (two `float`
values with `0 ≤ b < sampleRate/2`): `floor(b / frequencyResolution)` is 2360,
but the `float` division of the source yields 2361.0, so the span is 2361 and
the call returns the sum over the bins `N/2 - 2361 .. N/2 + 2361`, which on the
sample block is more than the sum over `N/2 - 2360 .. N/2 + 2360` that the
claim names. -/
theorem computeSpectralPowerWith_exact_floor_counterexample :
    Constructed sampleEngine250 ∧ IsSingle sampleEngine250.sampleRate ∧ IsSingle 72052 ∧
    (0 : ℚ) ≤ 72052 ∧ (72052 : ℚ) < sampleEngine250.sampleRate / 2 ∧
    ⌊(72052 : ℚ) / sampleEngine250.fftBinResolutionInHz⌋₊ = 2360 ∧
    float32Round (72052 / sampleEngine250.fftBinResolutionInHz) = 2361 ∧
    lowpassSpanWith float32Round sampleEngine250 72052 = some 2361 ∧
    ∀ beyond : Nat → Option ℚ, ∃ e' p,
      computePowerSpectrum sampleEngine250 sampleBlock 16384 = some (e', 16384 / 2) ∧
      computeSpectralPowerWith float32Round beyond sampleEngine250 72052 sampleBlock 16384 =
        some (e', p) ∧
      p = ∑ j ∈ Finset.Icc (N / 2 - 2361) (N / 2 + 2361), e'.spectralPowerBuffer j ∧
      ∑ j ∈ Finset.Icc (N / 2 - 2360) (N / 2 + 2360), e'.spectralPowerBuffer j < p := by
  have hN := N_eq
  have he := sampleEngine250_constructed
  obtain ⟨hrate, hres⟩ := sampleEngine250_rate
  have hb : (72052 : ℚ) < sampleEngine250.sampleRate / 2 := by rw [hrate]; norm_num
  have hfloor : ⌊(72052 : ℚ) / sampleEngine250.fftBinResolutionInHz⌋₊ = 2360 := by
    rw [hres, Nat.floor_eq_iff (by norm_num)]
    constructor <;> norm_num
  have hfl : float32Round (72052 / sampleEngine250.fftBinResolutionInHz) = 2361 := by
    rw [hres]
    exact float32Round_example
  have hspan : lowpassSpanWith float32Round sampleEngine250 72052 = some 2361 := by
    have h := (lowpassSpanWith_of_nonneg float32Round rounding_float32Round sampleEngine250 he
      72052 (by norm_num)).1
    rw [clipBandwidth_of_le _ _ (le_of_lt hb), hfl] at h
    rw [h, Nat.floor_ofNat]
  have hs1 : IsSingle sampleEngine250.sampleRate := by
    rw [hrate]
    exact_mod_cast isSingle_natCast 250000 (by norm_num) (by norm_num)
  have hs2 : IsSingle 72052 := by
    exact_mod_cast isSingle_natCast 72052 (by norm_num) (by norm_num)
  refine ⟨he, hs1, hs2, by norm_num, hb, hfloor, hfl, hspan, ?_⟩
  intro beyond
  obtain ⟨inp, spec, -, hc, hinp, hspec⟩ :=
    computePowerSpectrum_spec sampleEngine250 he sampleBlock 16384 (by omega)
  refine ⟨_, _, hc, ?_, rfl, ?_⟩
  · rw [computeSpectralPowerWith_eq_map float32Round beyond sampleEngine250 sampleBlock 16384
      72052 2361 hspan (by omega), hc]
    simp only [Option.map_some']
  · simp only []
    apply Finset.sum_lt_sum_of_subset (i := N / 2 + 2361)
    · exact Finset.Icc_subset_Icc (by omega) (by omega)
    · rw [Finset.mem_Icc]; omega
    · rw [Finset.mem_Icc]; omega
    · rw [hspec, if_pos (by omega), he.shift _ (by omega), if_neg (by omega)]
      have hidx : N / 2 + 2361 - N / 2 = 2361 := by omega
      rw [hidx]
      show 0 < binPower (sampleDft inp) 2361
      unfold binPower sampleDft
      simp only []
      rw [hinp 2361, if_pos (by omega)]
      have hw : sampleEngine250.hanningWindow 2361 = hannWeight sampleCos M_PI 2361 :=
        SpectrumProcessor_hanningWindow sampleCos sampleDft zeroMemory 250000 2361 (by omega)
      rw [hw]
      have hpos : 0 < hannWeight sampleCos M_PI 2361 := by
        unfold hannWeight sampleCos M_PI
        rw [N_cast]
        norm_num
      unfold sampleBlock
      rw [N_cast]
      simp only [Int.cast_one, one_mul]
      positivity
    · intro j hj _
      rw [Finset.mem_Icc] at hj
      rw [hspec, if_pos (by omega)]
      exact binPower_nonneg _ _

/-- Claim C2, amended: on an engine with positive sample rate, for every sample
block and every bandwidth `0 ≤ b < sampleRate/2` (bandwidth and sample rate
being `float` values, as in the source), the value `computeSpectralPower`
returns is exactly the sum of `powerSpectrum[j]` for `j` from `N/2 - span` to
`N/2 + span` inclusive, where `span` is the floor of the quotient
`b / frequencyResolution` rounded to single precision and `powerSpectrum` is
the buffer that `computePowerSpectrum` builds from that same block. This span
is below `N/2` and is `floor(b / frequencyResolution)` or one more. No cell
behind the buffer is read, and a block of at most `2 * N` values is always
processed. -/
theorem computeSpectralPowerWith_band_sum (beyond : Nat → Option ℚ) (e : Engine)
    (he : Constructed e) (hsr : IsSingle e.sampleRate) (sig : Nat → Int) (len : Nat) (b : ℚ)
    (hbs : IsSingle b) (hb0 : 0 ≤ b) (hb : b < e.sampleRate / 2) :
    lowpassSpanWith float32Round e b = some ⌊float32Round (b / e.fftBinResolutionInHz)⌋₊ ∧
    ⌊float32Round (b / e.fftBinResolutionInHz)⌋₊ < N / 2 ∧
    ⌊b / e.fftBinResolutionInHz⌋₊ ≤ ⌊float32Round (b / e.fftBinResolutionInHz)⌋₊ ∧
    ⌊float32Round (b / e.fftBinResolutionInHz)⌋₊ ≤ ⌊b / e.fftBinResolutionInHz⌋₊ + 1 ∧
    computeSpectralPowerWith float32Round beyond e b sig len =
      (computePowerSpectrum e sig len).map
        (fun r => (r.1, ∑ j ∈ Finset.Icc (N / 2 - ⌊float32Round (b / e.fftBinResolutionInHz)⌋₊)
          (N / 2 + ⌊float32Round (b / e.fftBinResolutionInHz)⌋₊), r.1.spectralPowerBuffer j)) ∧
    (len ≤ 2 * N → ∃ e', computePowerSpectrum e sig len = some (e', len / 2)) := by
  obtain ⟨hs, -, hlt, hlo, hhi⟩ := lowpassSpanWith_single e he hsr b hbs hb0 hb
  exact ⟨hs, hlt, hlo, hhi,
    computeSpectralPowerWith_eq_map float32Round beyond e sig len b _ hs hlt,
    computePowerSpectrum_returns e he sig len⟩

/-- The sample engine on a full block with a 1000 Hz bandwidth. -/
theorem computeSpectralPowerWith_band_sum_witness :
    Constructed sampleEngine ∧ IsSingle sampleEngine.sampleRate ∧ IsSingle 1000 ∧
    (0 : ℚ) ≤ 1000 ∧ (1000 : ℚ) < sampleEngine.sampleRate / 2 ∧ 16384 ≤ 2 * N ∧
    computeSpectralPowerWith float32Round (adjacentCell sampleEngine.fftShiftTable) sampleEngine
        1000 sampleBlock 16384 =
      (computePowerSpectrum sampleEngine sampleBlock 16384).map
        (fun r => (r.1,
          ∑ j ∈ Finset.Icc
            (N / 2 - ⌊float32Round ((1000 : ℚ) / sampleEngine.fftBinResolutionInHz)⌋₊)
            (N / 2 + ⌊float32Round ((1000 : ℚ) / sampleEngine.fftBinResolutionInHz)⌋₊),
              r.1.spectralPowerBuffer j)) ∧
    ∃ e', computePowerSpectrum sampleEngine sampleBlock 16384 = some (e', 16384 / 2) :=
  ⟨sampleEngine_constructed, sampleEngine_isSingle,
    by exact_mod_cast isSingle_natCast 1000 (by norm_num) (by norm_num),
    by norm_num, by rw [sampleEngine_rate.1]; norm_num, by decide,
    (computeSpectralPowerWith_band_sum (adjacentCell sampleEngine.fftShiftTable) sampleEngine
      sampleEngine_constructed sampleEngine_isSingle sampleBlock 16384 1000
      (by exact_mod_cast isSingle_natCast 1000 (by norm_num) (by norm_num)) (by norm_num)
      (by rw [sampleEngine_rate.1]; norm_num)).2.2.2.2.1,
    (computeSpectralPowerWith_band_sum (adjacentCell sampleEngine.fftShiftTable) sampleEngine
      sampleEngine_constructed sampleEngine_isSingle sampleBlock 16384 1000
      (by exact_mod_cast isSingle_natCast 1000 (by norm_num) (by norm_num)) (by norm_num)
      (by rw [sampleEngine_rate.1]; norm_num)).2.2.2.2.2 (by decide)⟩

/-- Claim C6: for every engine, every block and every bandwidth `b ≥ sampleRate/2`
the clip replaces `b` by `sampleRate/2`, so the span and the outcome of
`computeSpectralPower(b, x, n)` are those of
`computeSpectralPower(sampleRate/2, x, n)`, whatever the rounding of the
quotient and whatever the memory behind the spectrum holds; in particular, on
an engine with positive rate, for `b = sampleRate`. On a block of at most
`2 * N` values, with `v` the content of the cell that the read of
`spectralPowerBuffer[N]` reaches, both calls return the same value: the sum of
the whole spectrum plus `v`. -/
theorem computeSpectralPowerWith_nyquist_clamp (fl : ℚ → ℚ) (beyond : Nat → Option ℚ)
    (e : Engine) (sig : Nat → Int) (len : Nat) (b : ℚ) (hb : e.sampleRate / 2 ≤ b) :
    clipBandwidth e b = e.sampleRate / 2 ∧
    lowpassSpanWith fl e b = lowpassSpanWith fl e (e.sampleRate / 2) ∧
    computeSpectralPowerWith fl beyond e b sig len =
      computeSpectralPowerWith fl beyond e (e.sampleRate / 2) sig len ∧
    (Constructed e →
      computeSpectralPowerWith fl beyond e e.sampleRate sig len =
        computeSpectralPowerWith fl beyond e (e.sampleRate / 2) sig len) ∧
    (Rounding fl → Constructed e → len ≤ 2 * N → ∀ v, beyond N = some v →
      ∃ e', computePowerSpectrum e sig len = some (e', len / 2) ∧
        computeSpectralPowerWith fl beyond e b sig len =
          some (e', ∑ j ∈ Finset.range N, e'.spectralPowerBuffer j + v) ∧
        computeSpectralPowerWith fl beyond e (e.sampleRate / 2) sig len =
          some (e', ∑ j ∈ Finset.range N, e'.spectralPowerBuffer j + v) ∧
        computeSpectralPowerWith fl beyond e e.sampleRate sig len =
          some (e', ∑ j ∈ Finset.range N, e'.spectralPowerBuffer j + v)) := by
  have hhalf := clipBandwidth_of_le e (e.sampleRate / 2) (le_refl _)
  have hclip := clipBandwidth_of_ge e b hb
  have hcongr := computeSpectralPowerWith_congr fl beyond e sig len b _ (hclip.trans hhalf.symm)
  have hrate : Constructed e →
      computeSpectralPowerWith fl beyond e e.sampleRate sig len =
        computeSpectralPowerWith fl beyond e (e.sampleRate / 2) sig len := by
    intro he
    have hpos := he.rate_pos
    have h1 := clipBandwidth_of_ge e e.sampleRate (by linarith)
    exact (computeSpectralPowerWith_congr fl beyond e sig len _ _ (h1.trans hhalf.symm)).2
  refine ⟨hclip, hcongr.1, hcongr.2, hrate, ?_⟩
  intro hfl he hlen v hv
  obtain ⟨e', hc⟩ := computePowerSpectrum_returns e he sig len hlen
  have hs := lowpassSpanWith_nyquist fl hfl e he (e.sampleRate / 2) (le_refl _)
  have hval := computeSpectralPowerWith_full fl beyond e sig len (e.sampleRate / 2) (N / 2) hs
    rfl v hv
  rw [hc] at hval
  simp only [Option.map_some'] at hval
  refine ⟨e', hc, ?_, hval, ?_⟩
  · rw [hcongr.2]
    exact hval
  · rw [hrate he]
    exact hval

/-- The sample engine at 200000 Hz, above its Nyquist limit of 128000 Hz, with the
single-precision quotient and the cell `fftShiftTable[0]` behind the spectrum:
both calls return the sum of the whole spectrum plus `4096 * 2 ^ (-149)`. -/
theorem computeSpectralPowerWith_nyquist_clamp_witness :
    sampleEngine.sampleRate / 2 ≤ 200000 ∧ 16384 ≤ 2 * N ∧
    adjacentCell sampleEngine.fftShiftTable N = some (4096 * 2 ^ (-149 : Int)) ∧
    ∃ e', computePowerSpectrum sampleEngine sampleBlock 16384 = some (e', 16384 / 2) ∧
      computeSpectralPowerWith float32Round (adjacentCell sampleEngine.fftShiftTable)
          sampleEngine 200000 sampleBlock 16384 =
        some (e', ∑ j ∈ Finset.range N, e'.spectralPowerBuffer j + 4096 * 2 ^ (-149 : Int)) ∧
      computeSpectralPowerWith float32Round (adjacentCell sampleEngine.fftShiftTable)
          sampleEngine (sampleEngine.sampleRate / 2) sampleBlock 16384 =
        some (e', ∑ j ∈ Finset.range N, e'.spectralPowerBuffer j + 4096 * 2 ^ (-149 : Int)) ∧
      computeSpectralPowerWith float32Round (adjacentCell sampleEngine.fftShiftTable)
          sampleEngine sampleEngine.sampleRate sampleBlock 16384 =
        some (e', ∑ j ∈ Finset.range N, e'.spectralPowerBuffer j + 4096 * 2 ^ (-149 : Int)) :=
  ⟨by rw [sampleEngine_rate.1]; norm_num, by decide,
    adjacentCell_constructed sampleEngine sampleEngine_constructed,
    (computeSpectralPowerWith_nyquist_clamp float32Round (adjacentCell sampleEngine.fftShiftTable)
      sampleEngine sampleBlock 16384 200000 (by rw [sampleEngine_rate.1]; norm_num)).2.2.2.2
      rounding_float32Round sampleEngine_constructed (by decide) _
      (adjacentCell_constructed sampleEngine sampleEngine_constructed)⟩

/-- Claim C10: on every engine, for every fixed block and all bandwidths
`0 ≤ b1 ≤ b2`, the power returned for `b1` is at most the power returned for
`b2`: the span is non-decreasing in the bandwidth under the rounding of the
quotient, a wider band sums a superset of cells, and every cell read holds a
non-negative value (powers inside the buffer, and behind it a cell with
non-negative content). Both calls return for a block of at most `2 * N` values
when the rounded quotient of `b2` stays below `N/2` or the cell behind the
buffer is readable; with that cell the order holds for every `b2`, at and above
the Nyquist limit too. -/
theorem computeSpectralPowerWith_monotone (fl : ℚ → ℚ) (hfl : Rounding fl)
    (beyond : Nat → Option ℚ) (hbey : ∀ i v, beyond i = some v → 0 ≤ v) (e : Engine)
    (he : Constructed e) (sig : Nat → Int) (len : Nat) (b1 b2 : ℚ) (h0 : 0 ≤ b1)
    (h12 : b1 ≤ b2) :
    (∀ e1 p1 e2 p2, computeSpectralPowerWith fl beyond e b1 sig len = some (e1, p1) →
      computeSpectralPowerWith fl beyond e b2 sig len = some (e2, p2) → p1 ≤ p2) ∧
    (len ≤ 2 * N →
      (fl (clipBandwidth e b2 / e.fftBinResolutionInHz) < ((N / 2 : Nat) : ℚ) ∨
        ∃ v, beyond N = some v) →
      ∃ e' p1 p2, computeSpectralPowerWith fl beyond e b1 sig len = some (e', p1) ∧
        computeSpectralPowerWith fl beyond e b2 sig len = some (e', p2) ∧ p1 ≤ p2) := by
  have hmono := computeSpectralPowerWith_mono_of_returns fl hfl beyond hbey e he sig len b1 b2
    h0 h12
  refine ⟨fun e1 p1 e2 p2 => hmono e1 e2 p1 p2, ?_⟩
  intro hlen hread
  have hres := resolution_pos e he
  have hread1 : fl (clipBandwidth e b1 / e.fftBinResolutionInHz) < ((N / 2 : Nat) : ℚ) ∨
      ∃ v, beyond N = some v := by
    rcases hread with h | h
    · left
      exact lt_of_le_of_lt (hfl.mono _ _
        (div_nonneg (clipBandwidth_range e he b1 h0).1 (le_of_lt hres))
        ((div_le_div_iff_of_pos_right hres).2 (clipBandwidth_mono e b1 b2 h12))) h
    · exact Or.inr h
  obtain ⟨e1, p1, hd1, hc1⟩ :=
    computeSpectralPowerWith_returns fl hfl beyond e he sig len hlen b1 h0 hread1
  obtain ⟨e2, p2, hd2, hc2⟩ :=
    computeSpectralPowerWith_returns fl hfl beyond e he sig len hlen b2 (le_trans h0 h12) hread
  have hee : e2 = e1 := by
    rw [hd1] at hd2
    simp only [Option.some.injEq, Prod.mk.injEq] at hd2
    exact hd2.1.symm
  subst hee
  exact ⟨_, _, _, hc1, hc2, hmono _ _ _ _ hc1 hc2⟩

/-- The sample engine with the single-precision quotient and the cell
`fftShiftTable[0]` behind the spectrum, at 1000 Hz and at 200000 Hz (above the
Nyquist limit): both calls return and the powers are in order. -/
theorem computeSpectralPowerWith_monotone_witness :
    Rounding float32Round ∧
    (∀ i v, adjacentCell sampleEngine.fftShiftTable i = some v → 0 ≤ v) ∧
    Constructed sampleEngine ∧ (0 : ℚ) ≤ 1000 ∧ (1000 : ℚ) ≤ 200000 ∧ 16384 ≤ 2 * N ∧
    ∃ e' p1 p2,
      computeSpectralPowerWith float32Round (adjacentCell sampleEngine.fftShiftTable)
        sampleEngine 1000 sampleBlock 16384 = some (e', p1) ∧
      computeSpectralPowerWith float32Round (adjacentCell sampleEngine.fftShiftTable)
        sampleEngine 200000 sampleBlock 16384 = some (e', p2) ∧ p1 ≤ p2 :=
  ⟨rounding_float32Round, adjacentCell_nonneg _, sampleEngine_constructed, by norm_num,
    by norm_num, by decide,
    (computeSpectralPowerWith_monotone float32Round rounding_float32Round
      (adjacentCell sampleEngine.fftShiftTable) (adjacentCell_nonneg _) sampleEngine
      sampleEngine_constructed sampleBlock 16384 1000 200000 (by norm_num) (by norm_num)).2
      (by decide) (Or.inr ⟨_, adjacentCell_constructed sampleEngine sampleEngine_constructed⟩)⟩

/-- Claim C16: after every `computePowerSpectrum` call all `N` entries of the power
spectrum buffer are non-negative, and for every bandwidth and every block the
value that `computeSpectralPower` returns is non-negative: it is a sum of
entries of that buffer and, at the Nyquist limit, of the cell behind it, whose
content is non-negative. A block of at most `2 * N` values is always processed,
and the power call returns for every bandwidth `b ≥ 0` when the rounded
quotient stays below `N/2` or the cell behind the buffer is readable. -/
theorem computeSpectralPowerWith_nonneg (fl : ℚ → ℚ) (beyond : Nat → Option ℚ)
    (hbey : ∀ i v, beyond i = some v → 0 ≤ v) (e : Engine) (he : Constructed e)
    (sig : Nat → Int) (len : Nat) :
    (∀ e' n, computePowerSpectrum e sig len = some (e', n) →
      ∀ k, k < N → 0 ≤ e'.spectralPowerBuffer k) ∧
    (∀ b e' p, computeSpectralPowerWith fl beyond e b sig len = some (e', p) → 0 ≤ p) ∧
    (len ≤ 2 * N → ∃ e', computePowerSpectrum e sig len = some (e', len / 2)) ∧
    (Rounding fl → len ≤ 2 * N → ∀ b, 0 ≤ b →
      (fl (clipBandwidth e b / e.fftBinResolutionInHz) < ((N / 2 : Nat) : ℚ) ∨
        ∃ v, beyond N = some v) →
      ∃ e' p, computeSpectralPowerWith fl beyond e b sig len = some (e', p) ∧ 0 ≤ p) := by
  refine ⟨fun e' n h k hk => computePowerSpectrum_nonneg e e' he sig len n h k hk,
    fun b e' p h => computeSpectralPowerWith_value_nonneg fl beyond hbey e e' he b p sig len h,
    fun hlen => computePowerSpectrum_returns e he sig len hlen, ?_⟩
  intro hfl hlen b hb0 hread
  obtain ⟨e', p, -, hc⟩ :=
    computeSpectralPowerWith_returns fl hfl beyond e he sig len hlen b hb0 hread
  exact ⟨e', p, hc, computeSpectralPowerWith_value_nonneg fl beyond hbey e e' he b p sig len hc⟩

/-- The sample engine with the single-precision quotient and the cell
`fftShiftTable[0]` behind the spectrum, on a full block at 200000 Hz (above the
Nyquist limit): the spectrum entries and the returned power are non-negative. -/
theorem computeSpectralPowerWith_nonneg_witness :
    (∀ i v, adjacentCell sampleEngine.fftShiftTable i = some v → 0 ≤ v) ∧
    Constructed sampleEngine ∧ 16384 ≤ 2 * N ∧ (0 : ℚ) ≤ 200000 ∧
    (∃ e', computePowerSpectrum sampleEngine sampleBlock 16384 = some (e', 16384 / 2) ∧
      ∀ k, k < N → 0 ≤ e'.spectralPowerBuffer k) ∧
    ∃ e' p,
      computeSpectralPowerWith float32Round (adjacentCell sampleEngine.fftShiftTable)
        sampleEngine 200000 sampleBlock 16384 = some (e', p) ∧ 0 ≤ p :=
  ⟨adjacentCell_nonneg _, sampleEngine_constructed, by decide, by norm_num,
    Exists.elim
      ((computeSpectralPowerWith_nonneg float32Round (adjacentCell sampleEngine.fftShiftTable)
        (adjacentCell_nonneg _) sampleEngine sampleEngine_constructed sampleBlock 16384).2.2.1
        (by decide))
      (fun e' h => ⟨e', h,
        (computeSpectralPowerWith_nonneg float32Round (adjacentCell sampleEngine.fftShiftTable)
          (adjacentCell_nonneg _) sampleEngine sampleEngine_constructed sampleBlock 16384).1
          e' _ h⟩),
    (computeSpectralPowerWith_nonneg float32Round (adjacentCell sampleEngine.fftShiftTable)
      (adjacentCell_nonneg _) sampleEngine sampleEngine_constructed sampleBlock 16384).2.2.2
      rounding_float32Round (by decide) 200000 (by norm_num)
      (Or.inr ⟨_, adjacentCell_constructed sampleEngine sampleEngine_constructed⟩)⟩

end SpectrumProcessor
